import Mathlib

/-!
Verification development for the grid-map-generator repository.

Shallow embedding of:
* the scan-line flood fill engine (src/fill.rs),
* the dense tile grid (src/grid.rs, src/zone.rs),
* border extraction (src/border.rs, src/cardinal.rs),
* island generation (src/procgen.rs),
* the obstacle index (src/raycast_world.rs).

Coordinates are modelled as `Nat`; the source uses `u32` with checked
arithmetic (`Step::backward_checked` fails below zero, modelled by the
explicit zero tests below; `Step::forward_checked` only fails at
`u32::MAX`, which no coordinate occurring in a grid-backed run reaches,
so it is modelled as total).  The outer seed loop of the flood fill is
fuel-bounded; `none` means the fuel ran out before the loop finished.
-/

namespace GridMap

/-- fill.rs `Dir`: the vertical scan direction. -/
inductive Dir where
  | up
  | down
deriving Repr, DecidableEq

/-- fill.rs `Dir::step`: one checked step in the direction
(`forward_checked` / `backward_checked` by 1). -/
def Dir.step : Dir → Nat → Option Nat
  | .up, y => some (y + 1)
  | .down, 0 => none
  | .down, y + 1 => some y

/-- fill.rs `impl Not for Dir`. -/
def Dir.not : Dir → Dir
  | .up => .down
  | .down => .up

/-- A scan seed, fill.rs seed_stack entries: (parent span, target row,
direction).  Spans are inclusive `(min, max)` pairs. -/
abbrev Seed := (Nat × Nat) × Nat × Dir

/-- fill.rs trait `Tiles<I>` at `I = Nat`: the grid-like store interface
(`get_tile` / `set_tile`) over a state type `S`.  `xBound` is an
x-coordinate width past which `getTile` returns `none` on the concrete
stores (`Grid` and procgen's `GridProxy` both use their grid width); it is
recorded in the structure so the rightward row scans, which in the source
terminate because `get_tile` fails past the row end, can be written by
well-founded recursion. -/
structure TilesOps (S : Type) (T : Type) where
  getTile : S → Nat → Nat → Option T
  setTile : S → Nat → Nat → T → S
  xBound : S → Nat
  /-- A y-coordinate bound past which `getTile` is `none` (the grid
  height on the concrete stores); not used by the algorithm itself, only
  to state finiteness in the termination lemmas. -/
  yBound : S → Nat

/-- fill.rs `GridRowFloodTest::inside`: `get_tile(x, y).is_some_and(test)`. -/
def TilesOps.inside (ops : TilesOps S T) (s : S) (pt : T → Bool) (y : Nat)
    (x : Nat) : Bool :=
  ((ops.getTile s x y).map pt).getD false

/-- fill.rs `expand_range`, leftward half: descend from `x` while the
flood test holds and take the last passing coordinate
(`DescendFrom` + `take_while` + `last`, stopping at 0 because
`backward_checked` fails there). -/
def goLeft (ins : Nat → Bool) : Nat → Nat
  | 0 => 0
  | x + 1 => if ins x then goLeft ins x else x + 1

/-- Helper for `goRight`, structurally recursive on the number of
positions left before the grid-width bound. -/
def goRightAux (ins : Nat → Bool) : Nat → Nat → Nat
  | 0, x => x
  | k + 1, x => if ins (x + 1) then goRightAux ins k (x + 1) else x

/-- fill.rs `expand_range`, rightward half (`AscendFrom` + `take_while` +
`last`).  The recursion is bounded by `bound - x`; on the stores used here
the flood test fails at and beyond `bound` (the grid width), so the bound
never cuts the ascent short. -/
def goRight (ins : Nat → Bool) (bound : Nat) (x : Nat) : Nat :=
  goRightAux ins (bound - x) x

/-- Helper for `findInsideFrom`, structurally recursive on the number of
remaining candidate positions. -/
def findInsideFromAux (ins : Nat → Bool) : Nat → Nat → Option Nat
  | 0, _ => none
  | k + 1, cx => if ins cx then some cx else findInsideFromAux ins k (cx + 1)

/-- fill.rs `next_child_range_right`, search part: the leftmost x in
`[cx, r]` passing the flood test
(`(current_x..=parent_max_x).find(|x| test.inside(*x))`). -/
def findInsideFrom (ins : Nat → Bool) (cx r : Nat) : Option Nat :=
  findInsideFromAux ins (r + 1 - cx) cx

/-- fill.rs `expand_range`: the maximal passing span around `x`, if `x`
itself passes. -/
def expandRange (ins : Nat → Bool) (bound x : Nat) : Option (Nat × Nat) :=
  if ins x then some (goLeft ins x, goRight ins bound x) else none

/-- fill.rs `for x in range.into_iter() { tiles.set_tile(x, y, color) }`:
fill every tile of the inclusive span `[a, b]` in row `y`. -/
def fillSpan (ops : TilesOps S T) (y : Nat) (color : T) (a b : Nat) (s : S) : S :=
  (List.range' a (b + 1 - a)).foldl (fun s x => ops.setTile s x y color) s

/-- One seed's processing: the body of the `while let Some(child_range) =
child_scan.next(..)` loop in fill.rs `flood_fill`, threading the store and
the seed stack.  `stack` has its head as top of stack; a push conses.  Per
found child span, in source order: fill it, push the forward seed in the
same direction (if the next row exists), then push the left and right
overhang back-seeds toward the row this seed came from.  The structural
fuel `k` bounds the remaining scan width; the caller passes `pr + 2`,
which the span scan (advancing by at least 2 per found span) never
exhausts before `findInsideFrom` fails. -/
def childGo (ops : TilesOps S T) (pt : T → Bool) (color : T) (y : Nat) (d : Dir)
    (ps2 : Option Nat) (pe2 : Nat) (pr : Nat) :
    Nat → Nat → S → List Seed → S × List Seed
  | 0, _, s, stack => (s, stack)
  | k + 1, cx, s, stack =>
    match findInsideFrom (ops.inside s pt y) cx pr with
    | none => (s, stack)
    | some xm =>
      let a := goLeft (ops.inside s pt y) xm
      let b := goRight (ops.inside s pt y) (ops.xBound s) xm
      let s' := fillSpan ops y color a b s
      let stack₁ := match d.step y with
        | some ny => ((a, b), ny, d) :: stack
        | none => stack
      let stack₂ := match (Dir.not d).step y with
        | some py =>
          let stackL := match ps2 with
            | some p => if a ≤ p then ((a, p), py, Dir.not d) :: stack₁ else stack₁
            | none => stack₁
          if pe2 ≤ b then ((pe2, b), py, Dir.not d) :: stackL else stackL
        | none => stack₁
      childGo ops pt color y d ps2 pe2 pr k (b + 2) s' stack₂

/-- One full seed processing step (`ChildScan::start` sets the scan cursor
to the parent span's left end). -/
def childLoop (ops : TilesOps S T) (pt : T → Bool) (color : T) (y : Nat) (d : Dir)
    (ps2 : Option Nat) (pe2 : Nat) (pr : Nat) (pl : Nat) (s : S)
    (stack : List Seed) : S × List Seed :=
  childGo ops pt color y d ps2 pe2 pr (pr + 2) pl s stack

/-- The outer `while let Some(..) = seed_stack.pop()` loop of fill.rs
`flood_fill`, fuel-bounded: `none` means the fuel ran out with the stack
still non-empty. -/
def floodLoop (ops : TilesOps S T) (pt : T → Bool) (color : T) :
    Nat → S → List Seed → Option S
  | _, s, [] => some s
  | 0, _, _ :: _ => none
  | fuel + 1, s, ((pl, pr), y, d) :: rest =>
    let ps2 : Option Nat := if 2 ≤ pl then some (pl - 2) else none
    let pe2 : Nat := pr + 2
    let res := childLoop ops pt color y d ps2 pe2 pr pl s rest
    floodLoop ops pt color fuel res.1 res.2

/-- fill.rs `flood_fill`: read the start color; expand the initial span on
the start row and fill it; seed the rows above and below; then run the
seed-stack loop.  The whole call is a no-op when the start tile is absent
or fails the predicate against itself. -/
def floodFill (ops : TilesOps S T) (fuel : Nat) (s : S) (sx sy : Nat)
    (eqv : T → T → Bool) (color : T) : Option S :=
  match ops.getTile s sx sy with
  | none => some s
  | some t0 =>
    let pt : T → Bool := fun c => eqv c t0
    match expandRange (ops.inside s pt sy) (ops.xBound s) sx with
    | none => some s
    | some ab =>
      let s₁ := fillSpan ops sy color ab.1 ab.2 s
      let stack₁ : List Seed := match Dir.up.step sy with
        | some uy => [(ab, uy, Dir.up)]
        | none => []
      let stack₂ : List Seed := match Dir.down.step sy with
        | some dy => (ab, dy, Dir.down) :: stack₁
        | none => stack₁
      floodLoop ops pt color fuel s₁ stack₂

/-! ## The dense grid store (grid.rs, zone.rs) -/

/-- grid.rs `Grid<T>`: width, height and a row-major tile vector.  The
source maintains `tiles.len() == width * height`; `Grid.wellFormed`
records that invariant. -/
structure Grid (T : Type) where
  width : Nat
  height : Nat
  tiles : List T
deriving Repr, DecidableEq

/-- The grid length invariant established by grid.rs `Grid::new`. -/
def Grid.wellFormed (g : Grid T) : Prop :=
  g.tiles.length = g.width * g.height

/-- grid.rs `Grid::tile_at` (and the read side of `tile_at_mut`):
bounds-checked row-major access.  The in-range vector index, which the
source performs directly relying on the length invariant, is modelled by
`List.get?`. -/
def Grid.tileAt (g : Grid T) (x y : Nat) : Option T :=
  if g.width ≤ x then none
  else if g.height ≤ y then none
  else g.tiles.get? (y * g.width + x)

/-- grid.rs `impl Tiles for Grid`, `set_tile`: write through `tile_at_mut`
if the address is in range, otherwise leave the grid unchanged. -/
def Grid.setTile (g : Grid T) (x y : Nat) (t : T) : Grid T :=
  if g.width ≤ x then g
  else if g.height ≤ y then g
  else { g with tiles := g.tiles.set (y * g.width + x) t }

/-- grid.rs `Grid::new`: a width*height grid of default tiles. -/
def Grid.new (T : Type) [Inhabited T] (w h : Nat) : Grid T :=
  ⟨w, h, List.replicate (w * h) default⟩

/-- grid.rs `impl Tiles<u32> for Grid<T>` packaged as `TilesOps`; the
x-scan bound is the grid width (`tile_at` fails at `x ≥ width`). -/
def gridOps (T : Type) : TilesOps (Grid T) T where
  getTile s x y := s.tileAt x y
  setTile s x y t := s.setTile x y t
  xBound s := s.width
  yBound s := s.height

/-- fill.rs `flood_fill` applied to the concrete `Grid` store. -/
def floodFillGrid (fuel : Nat) (g : Grid T) (sx sy : Nat)
    (eqv : T → T → Bool) (color : T) : Option (Grid T) :=
  floodFill (gridOps T) fuel g sx sy eqv color

/-- Modelled from the spec: `Grid::addresses` is called by border.rs and
procgen.rs but its definition is not among the provided sources; the spec
(section 4.1) describes it as a finite enumeration of all addresses in
row-major order. -/
def Grid.addressesList (w h : Nat) : List (Nat × Nat) :=
  (List.range h).flatMap (fun y => (List.range w).map (fun x => (x, y)))

/-- zone.rs `TileState` (the tile classification the pipeline writes). -/
inductive TileState where
  | Floor
  | Water
deriving Repr, DecidableEq, Inhabited

/-! ## Store laws

The engine lemmas are proven once from the abstract get/set behaviour
shared by the two concrete stores (the plain grid and procgen's
counting proxy). -/

/-- The get/set laws satisfied by `gridOps` and `proxyOps`. -/
structure TilesLaws (ops : TilesOps S T) : Prop where
  get_set_self : ∀ s x y t, (ops.getTile s x y).isSome = true →
    ops.getTile (ops.setTile s x y t) x y = some t
  get_set_other : ∀ s x y t x' y', x' ≠ x ∨ y' ≠ y →
    ops.getTile (ops.setTile s x y t) x' y' = ops.getTile s x' y'
  set_of_get_none : ∀ s x y t, ops.getTile s x y = none →
    ops.setTile s x y t = s
  get_xBound : ∀ s x y, ops.xBound s ≤ x → ops.getTile s x y = none
  get_yBound : ∀ s x y, ops.yBound s ≤ y → ops.getTile s x y = none
  xBound_set : ∀ s x y t, ops.xBound (ops.setTile s x y t) = ops.xBound s
  yBound_set : ∀ s x y t, ops.yBound (ops.setTile s x y t) = ops.yBound s

/-! ## Border extraction (cardinal.rs, border.rs) -/

/-- cardinal.rs `Cardinal`. -/
inductive Cardinal where
  | north
  | east
  | south
  | west
deriving Repr, DecidableEq

/-- border.rs `Border`: a tile address plus a vertical/horizontal flag,
identifying one unit wall segment of the edge lattice. -/
structure Border where
  pos : Nat × Nat
  isVertical : Bool
deriving Repr, DecidableEq

/-- border.rs `Border::at`: the canonical Border for one side of a tile
(North and East normalize to the neighbouring tile's South/West edge). -/
def Border.at (p : Nat × Nat) : Cardinal → Border
  | .north => ⟨(p.1, p.2 + 1), false⟩
  | .east => ⟨(p.1 + 1, p.2), true⟩
  | .south => ⟨p, false⟩
  | .west => ⟨p, true⟩

/-- border.rs `tile_at(..).is_some_and(test_inside)`. -/
def Grid.isOpenAt (g : Grid T) (isOpen : T → Bool) (x y : Nat) : Bool :=
  ((g.tileAt x y).map isOpen).getD false

/-- The borders border.rs `collect_borders` emits for one address, in
emission order: for an open tile the x==0 West wall, the y==0 South wall,
then North and East edges whose neighbour is absent-or-not-open; for a
non-open tile the neighbouring open tiles' South (above) and West (right)
edges. -/
def borderEmit (g : Grid T) (isOpen : T → Bool) (addr : Nat × Nat) : List Border :=
  match g.tileAt addr.1 addr.2 with
  | none => []
  | some tile =>
    if isOpen tile then
      (if addr.1 = 0 then [Border.at addr .west] else []) ++
      (if addr.2 = 0 then [Border.at addr .south] else []) ++
      (if g.isOpenAt isOpen addr.1 (addr.2 + 1) then [] else [Border.at addr .north]) ++
      (if g.isOpenAt isOpen (addr.1 + 1) addr.2 then [] else [Border.at addr .east])
    else
      (if g.isOpenAt isOpen addr.1 (addr.2 + 1) then [Border.at (addr.1, addr.2 + 1) .south] else []) ++
      (if g.isOpenAt isOpen (addr.1 + 1) addr.2 then [Border.at (addr.1 + 1, addr.2) .west] else [])

/-- border.rs `collect_borders`: iterate every address (row-major) and
emit borders to the receiver; modelled as the concatenated emission
list. -/
def collectBorders (g : Grid T) (isOpen : T → Bool) : List Border :=
  (Grid.addressesList g.width g.height).flatMap (borderEmit g isOpen)

/-! ## Obstacle index (raycast_world.rs)

The `Qbvh` comes from the external parry2d crate; it is modelled by the
set of leaf/pending keys it currently holds: `Qbvh::remove` deletes a key
and `Qbvh::pre_update_or_insert` inserts one.  Obstacle payloads (shape +
isometry) are opaque geometry, abstracted as a type parameter. -/

/-- raycast_world.rs `Obstacles`: the flat obstacle store plus the BVH
(modelled as its key set). -/
structure Obstacles (O : Type) where
  obstacles : List O
  qbvhKeys : Finset Nat

/-- raycast_world.rs `Obstacles::default()`: empty store, fresh Qbvh. -/
def Obstacles.empty (O : Type) : Obstacles O := ⟨[], ∅⟩

/-- raycast_world.rs `Obstacles::remove_all`: remove every index
`0..obstacles.len()` from the Qbvh, then clear the store. -/
def Obstacles.removeAll (s : Obstacles O) : Obstacles O :=
  { obstacles := [],
    qbvhKeys := (List.range s.obstacles.length).foldl (fun ks i => ks.erase i) s.qbvhKeys }

/-- raycast_world.rs `Obstacles::add`: append the obstacle, register its
index with the Qbvh (`pre_update_or_insert`), return the handle. -/
def Obstacles.add (s : Obstacles O) (ob : O) : Obstacles O × Nat :=
  let index := s.obstacles.length
  ({ obstacles := s.obstacles ++ [ob], qbvhKeys := insert index s.qbvhKeys }, index)

/-! ## Island generation (procgen.rs) -/

/-- procgen.rs `Reachability`. -/
inductive Reachability where
  | Open
  | Closed
deriving Repr, DecidableEq, Inhabited

/-- procgen.rs `TileGenState`.  `GroupId(u8)` is modelled as a `Nat`
carrying the 8-bit wraparound explicitly in `groupIdNext`. -/
inductive TileGenState where
  | unreachable
  | unassigned
  | reachableGroup (gid : Nat)
deriving Repr, DecidableEq

instance : Inhabited TileGenState := ⟨.unreachable⟩

/-- procgen.rs `GroupId::next`: `GroupId(self.0 + 1)` on a `u8`, which
wraps at 256 (release-build semantics of the unchecked increment). -/
def groupIdNext (g : Nat) : Nat := (g + 1) % 256

/-- procgen.rs `impl From<Reachability> for TileGenState`. -/
def TileGenState.ofReachability : Reachability → TileGenState
  | .Open => .unassigned
  | .Closed => .unreachable

/-- procgen.rs `GridProxy`: the generation grid plus the count of
successful `set_tile` writes (`group_size`). -/
def proxyOps : TilesOps (Grid TileGenState × Nat) TileGenState where
  getTile s x y := s.1.tileAt x y
  setTile s x y t :=
    match s.1.tileAt x y with
    | some _ => (s.1.setTile x y t, s.2 + 1)
    | none => s
  xBound s := s.1.width
  yBound s := s.1.height

/-- The final classification rule of procgen.rs `generate_island_into`
(the match in the output loop): the primary group becomes Open,
everything else Closed. -/
def reachabilityOf (primary : Nat) : TileGenState → Reachability
  | .unreachable => .Closed
  | .unassigned => .Closed
  | .reachableGroup gid => if gid = primary then .Open else .Closed

/-- grid.rs `impl Index for Grid` (and `IndexMut`): `tile_at(..).expect(..)`;
the `None` result models the "index out of bounds" panic. -/
def Grid.indexGet (g : Grid T) (x y : Nat) : Option T :=
  g.tileAt x y

/-- The handle/store pairing invariant of raycast_world.rs `Obstacles`:
every key registered in the Qbvh is the index of an occupied slot. -/
def Obstacles.handleInv (s : Obstacles O) : Prop :=
  ∀ k ∈ s.qbvhKeys, k < s.obstacles.length

/-- procgen.rs `generate_island_into`, init loop: write the classification
of every address into a fresh generation grid
(`grid[addr] = reachability.into()`). -/
def initGenGrid (W H : Nat) (init : Nat → Nat → Reachability) : Grid TileGenState :=
  (Grid.addressesList W H).foldl
    (fun g a => g.setTile a.1 a.2 (TileGenState.ofReachability (init a.1 a.2)))
    (Grid.new TileGenState W H)

/-- The labeling-loop state of procgen.rs `generate_island_into`: the
generation grid, `current_group_id`, and `biggest_group` (GroupId, size). -/
abbrev LabelState := Grid TileGenState × Nat × (Nat × Nat)

/-- One iteration of the labeling loop of procgen.rs
`generate_island_into`: if the tile is still Unassigned, flood fill its
component with the current GroupId through a `GridProxy`, record the
claimed tile count, update `biggest_group` on strictly greater counts
(so ties keep the earliest group), and advance the GroupId. -/
def labelStep (fuel : Nat) (acc : Option LabelState) (a : Nat × Nat) :
    Option LabelState :=
  match acc with
  | none => none
  | some (g, gid, big) =>
    match g.tileAt a.1 a.2 with
    | none => none
    | some v =>
      if v = TileGenState.unassigned then
        match floodFill proxyOps fuel (g, 0) a.1 a.2 (fun x y => x == y)
            (TileGenState.reachableGroup gid) with
        | none => none
        | some gcnt =>
          some (gcnt.1, groupIdNext gid,
            if big.2 < gcnt.2 then (gid, gcnt.2) else big)
      else some (g, gid, big)

/-- One iteration of the output loop of procgen.rs `generate_island_into`:
`out[addr] = f(match grid[addr] ...)`. -/
def outStep (gen : Grid TileGenState) (primary : Nat) (f : Reachability → T)
    (acc : Option (Grid T)) (a : Nat × Nat) : Option (Grid T) :=
  match acc with
  | none => none
  | some o =>
    match gen.tileAt a.1 a.2 with
    | none => none
    | some v => some (o.setTile a.1 a.2 (f (reachabilityOf primary v)))

/-- procgen.rs `generate_island_into`, with the noise/shaping
classification (`pick_reachability`, floating-point noise external to this
model) abstracted as the `init` parameter, and the flood fills
fuel-bounded; `none` models a panic (`grid[addr]` on a too-large output
grid) or fuel exhaustion.  Steps: build the generation grid from `init`;
scan addresses row-major, flood-filling every still-Unassigned tile with a
fresh GroupId through a `GridProxy` and tracking the biggest group; then
write `f(reachability)` into the output grid. -/
def generateIslandInto (fuel : Nat) (W H : Nat) (init : Nat → Nat → Reachability)
    (out : Grid T) (f : Reachability → T) : Option (Grid T) :=
  match (Grid.addressesList W H).foldl (labelStep fuel)
      (some (initGenGrid W H init, 0, (0, 0))) with
  | none => none
  | some gbig =>
    (Grid.addressesList out.width out.height).foldl
      (outStep gbig.1 gbig.2.2.1 f) (some out)

/-- Whether a border lies on the outer rectangle of a W×H grid (the
perimeter of the edge lattice): vertical borders on the x=0 or x=W line,
horizontal borders on the y=0 or y=H line. -/
def onPerimeter (W H : Nat) (b : Border) : Bool :=
  if b.isVertical then
    (b.pos.1 == 0 || b.pos.1 == W) && b.pos.2 < H
  else
    (b.pos.2 == 0 || b.pos.2 == H) && b.pos.1 < W


/-! ## Termination inputs and measure for the fill loop (C4) -/

/-- A 3x3 grid whose border ring is one flood region surrounding a hole. -/
def ring33 : Grid Nat := ⟨3, 3, [0, 0, 0, 0, 1, 0, 0, 0, 0]⟩

/-- The flood test of filling `ring33` from its own start color. -/
def pt0 : Nat → Bool := fun c => c == 0

/-- The seeds pushed when one seed is processed against the (unchanged)
ring grid. -/
def pushesOf : Seed → List Seed
  | ((pl, pr), y, d) =>
    (childGo (gridOps Nat) pt0 0 y d (if 2 ≤ pl then some (pl - 2) else none)
      (pr + 2) pr (pr + 2) pl ring33 []).2

/-- A set of seeds each of whose processing pushes another member: the
seed stack never empties. -/
def ringCyc : List Seed :=
  [((0, 2), 1, Dir.up), ((2, 2), 2, Dir.up), ((0, 0), 1, Dir.down),
   ((0, 0), 0, Dir.down), ((2, 2), 1, Dir.up)]

/-- The number of in-bounds tiles that pass the flood test: the
termination measure of the fill loop. -/
def countLive {T : Type} (g : Grid T) (pt : T → Bool) : Nat :=
  ((Finset.range g.width ×ˢ Finset.range g.height).filter
    (fun p => (gridOps T).inside g pt p.2 p.1 = true)).card


/-! ## Flood-fill invariant vocabulary and C1 scenario inputs -/

/-- A tile recolored by the fill: it now holds the fill color and its
original value passed the flood test. -/
def Filled {S T : Type} (ops : TilesOps S T) (pt : T → Bool) (color : T)
    (s0 s : S) (x y : Nat) : Prop :=
  ops.getTile s x y = some color ∧ ops.inside s0 pt y x = true

/-- The stack invariant of fill.rs: each pending seed's window is backed
by recolored tiles in its parent row, flanked by dead tiles. -/
def SeedOK {S T : Type} (ops : TilesOps S T) (pt : T → Bool) (color : T)
    (s0 s : S) : Seed → Prop
  | ((l, r), ys, dir) =>
    ∃ py, (Dir.not dir).step ys = some py ∧
      (∀ z, l ≤ z → z ≤ r → Filled ops pt color s0 s z py) ∧
      (1 ≤ l → ops.inside s pt py (l - 1) = false) ∧
      ops.inside s pt py (r + 1) = false

/-- 4-adjacency of tile addresses. -/
def adjacent (p q : Nat × Nat) : Prop :=
  (q.1 = p.1 + 1 ∧ q.2 = p.2) ∨ (p.1 = q.1 + 1 ∧ q.2 = p.2) ∨
    (q.2 = p.2 + 1 ∧ q.1 = p.1) ∨ (p.2 = q.2 + 1 ∧ q.1 = p.1)

/-- A live tile is covered by the pending stack: some seed on the same row
has a window meeting an all-live horizontal interval through the tile. -/
def Covered {S T : Type} (ops : TilesOps S T) (pt : T → Bool) (s : S)
    (stack : List Seed) (x y : Nat) : Prop :=
  ∃ sd ∈ stack, ∃ l r dir, sd = ((l, r), y, dir) ∧
    ∃ u v, u ≤ x ∧ x ≤ v ∧
      (∀ z, u ≤ z → z ≤ v → ops.inside s pt y z = true) ∧
      ∃ w, u ≤ w ∧ w ≤ v ∧ l ≤ w ∧ w ≤ r

/-- The loop invariant of fill.rs `flood_fill`: every tile is unchanged or
recolored, every pending seed is backed by its parent row, and every live
tile adjacent to a recolored tile is covered by a pending seed. -/
def FillInv {S T : Type} (ops : TilesOps S T) (pt : T → Bool) (color : T)
    (s0 s : S) (stack : List Seed) : Prop :=
  (∀ x y, ops.getTile s x y = ops.getTile s0 x y ∨
    Filled ops pt color s0 s x y) ∧
  (∀ sd ∈ stack, SeedOK ops pt color s0 s sd) ∧
  (∀ x y, ops.inside s pt y x = true →
    (∃ x2 y2, adjacent (x, y) (x2, y2) ∧ Filled ops pt color s0 s x2 y2) →
    Covered ops pt s stack x y)

/-- Reachability through live tiles by 4-connected steps. -/
def ReachIn (live : Nat × Nat → Prop) : Nat × Nat → Nat × Nat → Prop :=
  Relation.ReflTransGen (fun p q => adjacent p q ∧ live q)

/-- The 5x5 grid of the C1 scenario: all start-colored except the center. -/
def grid55 : Grid Nat :=
  ⟨5, 5, [0, 0, 0, 0, 0, 0, 0, 0, 0, 0, 0, 0, 1, 0, 0, 0, 0, 0, 0, 0,
    0, 0, 0, 0, 0]⟩

/-- The C1 scenario's expected output: the 24 reachable tiles recolored. -/
def grid55Filled : Grid Nat :=
  ⟨5, 5, [2, 2, 2, 2, 2, 2, 2, 2, 2, 2, 2, 2, 1, 2, 2, 2, 2, 2, 2, 2,
    2, 2, 2, 2, 2]⟩

/-- A seed-processing-closed set for the 5x5 scenario grid when the fill
value equals the start value: the scan loops through these seeds forever. -/
def grid55Cyc : List Seed :=
  [((0, 1), 2, Dir.up), ((3, 4), 1, Dir.down), ((3, 4), 2, Dir.down),
   ((0, 1), 3, Dir.up), ((3, 4), 2, Dir.up), ((0, 1), 1, Dir.down),
   ((0, 1), 2, Dir.down), ((3, 4), 3, Dir.up), ((0, 4), 2, Dir.up),
   ((0, 4), 1, Dir.up)]


/-! ## The GroupId-wraparound scenario (C3, C10): a 513x1 strip whose Open
tiles are the 257 isolated even columns -/

/-- The initial classification of the wraparound scenario: even columns
Open, odd columns Closed, so the Open tiles form 257 isolated 4-connected
regions of one tile each. -/
def initAlt513 : Nat → Nat → Reachability := fun x _ =>
  if x % 2 == 0 then Reachability.Open else Reachability.Closed

/-- The generation grid after the labeling loop has processed columns
`0..n`: odd columns Unreachable, even columns before `n` carry GroupId
`(x/2) mod 256` (the 8-bit counter wraps on the 257th region), the rest
still Unassigned. -/
def genAfter (n : Nat) : Grid TileGenState :=
  ⟨513, 1, (List.range 513).map (fun x =>
    if x % 2 == 1 then TileGenState.unreachable
    else if x < n then TileGenState.reachableGroup ((x / 2) % 256)
    else TileGenState.unassigned)⟩

/-- The output classification of the scenario: Open tiles become Floor,
Closed ones Water. -/
def outF : Reachability → TileState := fun r =>
  match r with
  | Reachability.Open => TileState.Floor
  | Reachability.Closed => TileState.Water

/-- The output grid after the output loop has processed columns `0..n`:
only columns 0 and 512 (the two regions whose wrapped GroupId equals the
primary id 0) are Floor among the processed columns. -/
def outAfter (n : Nat) : Grid TileState :=
  ⟨513, 1, (List.range 513).map (fun x =>
    if x < n then (if x == 0 || x == 512 then TileState.Floor
      else TileState.Water)
    else TileState.Floor)⟩

/-- The generation grid after the init loop has processed columns `0..n`. -/
def initAfter (n : Nat) : Grid TileGenState :=
  ⟨513, 1, (List.range 513).map (fun x =>
    if x < n then TileGenState.ofReachability (initAlt513 x 0)
    else TileGenState.unreachable)⟩

/-- procgen.rs labeling loop, instrumented with the discovery-order list of
GroupIds handed to the flood-filled components: identical to `labelStep`
on the `LabelState`, additionally appending `current_group_id` each time a
still-Unassigned tile triggers a flood fill (one trace entry per
discovered component).  Erasing the trace recovers `labelStep`
(`labelFoldTr_fst`). -/
def labelStepTr (fuel : Nat) (acc : Option (LabelState × List Nat))
    (a : Nat × Nat) : Option (LabelState × List Nat) :=
  match acc with
  | none => none
  | some ((g, gid, big), tr) =>
    match g.tileAt a.1 a.2 with
    | none => none
    | some v =>
      if v = TileGenState.unassigned then
        match floodFill proxyOps fuel (g, 0) a.1 a.2 (fun x y => x == y)
            (TileGenState.reachableGroup gid) with
        | none => none
        | some gcnt =>
          some ((gcnt.1, groupIdNext gid,
            if big.2 < gcnt.2 then (gid, gcnt.2) else big), tr ++ [gid])
      else some ((g, gid, big), tr)

/-! ## Theorems -/

/-! ### List counting helpers -/

theorem count_flatMap {α β : Type} [DecidableEq β] (f : α → List β) (b : β) :
    ∀ l : List α, (l.flatMap f).count b = (l.map (fun a => (f a).count b)).sum := by
  intro l
  induction l with
  | nil => rfl
  | cons a l ih =>
    rw [List.flatMap_cons, List.count_append, ih, List.map_cons, List.sum_cons]

theorem length_flatMap' {α β : Type} (f : α → List β) :
    ∀ l : List α, (l.flatMap f).length = (l.map (fun a => (f a).length)).sum := by
  intro l
  induction l with
  | nil => rfl
  | cons a l ih =>
    rw [List.flatMap_cons, List.length_append, ih, List.map_cons, List.sum_cons]

theorem sum_map_if_eq {α : Type} [BEq α] [LawfulBEq α] [DecidableEq α] (v : Nat) (a₀ : α) :
    ∀ l : List α, (l.map (fun a => if a = a₀ then v else 0)).sum = l.count a₀ * v := by
  intro l
  induction l with
  | nil => simp
  | cons a l ih =>
    rw [List.map_cons, List.sum_cons, ih, List.count_cons]
    by_cases h : a = a₀
    · subst h
      simp only [if_pos rfl, beq_self_eq_true, if_true]
      ring
    · have h2 : (a == a₀) = false := beq_eq_false_iff_ne.2 h
      simp only [if_neg h, h2, if_false, Nat.zero_add, Nat.add_zero]
      simp

theorem count_row [BEq (Nat × Nat)] [LawfulBEq (Nat × Nat)] (y' w x y : Nat) :
    ((List.range w).map (fun x' => (x', y'))).count (x, y)
      = if x < w ∧ y' = y then 1 else 0 := by
  induction w with
  | zero => simp
  | succ w ih =>
    rw [List.range_succ, List.map_append, List.count_append, ih]
    simp only [List.map_cons, List.map_nil]
    by_cases hy : y' = y
    · subst hy
      by_cases hx : x < w
      · rw [if_pos ⟨hx, rfl⟩, if_pos ⟨Nat.lt_succ_of_lt hx, rfl⟩]
        have hne : ¬ (((w, y') : Nat × Nat) = (x, y')) := by
          rw [Prod.mk.injEq]
          rintro ⟨hc, -⟩
          omega
        simp [List.count_cons, hne]
      · rw [if_neg (by rintro ⟨hc, -⟩; omega)]
        by_cases hxw : x = w
        · subst hxw
          rw [if_pos ⟨Nat.lt_succ_self x, rfl⟩]
          simp [List.count_cons]
        · rw [if_neg (by rintro ⟨hc, -⟩; omega)]
          have hne : ¬ (((w, y') : Nat × Nat) = (x, y')) := by
            rw [Prod.mk.injEq]
            rintro ⟨hc, -⟩
            omega
          simp [List.count_cons, hne]
    · rw [if_neg (by rintro ⟨-, hc⟩; exact hy hc), if_neg (by rintro ⟨-, hc⟩; exact hy hc)]
      have hne : ¬ (((w, y') : Nat × Nat) = (x, y)) := by
        rw [Prod.mk.injEq]
        rintro ⟨-, hc⟩
        exact hy hc
      simp [List.count_cons, hne]

theorem count_addressesList [BEq (Nat × Nat)] [LawfulBEq (Nat × Nat)] (w h x y : Nat) :
    (Grid.addressesList w h).count (x, y) = if x < w ∧ y < h then 1 else 0 := by
  induction h with
  | zero => simp [Grid.addressesList]
  | succ h ih =>
    unfold Grid.addressesList at *
    rw [List.range_succ, List.flatMap_append, List.count_append, ih]
    simp only [List.flatMap_cons, List.flatMap_nil, List.append_nil]
    rw [count_row]
    split_ifs <;> omega

theorem tileAt_isSome_of_lt {T : Type} (g : Grid T) (hwf : g.wellFormed)
    (x y : Nat) (hx : x < g.width) (hy : y < g.height) :
    ∃ t, g.tileAt x y = some t := by
  unfold Grid.tileAt
  rw [if_neg (Nat.not_le.2 hx), if_neg (Nat.not_le.2 hy)]
  have h1 : y * g.width + x < (y + 1) * g.width := by
    rw [Nat.add_mul, Nat.one_mul]
    omega
  have h2 : (y + 1) * g.width ≤ g.height * g.width :=
    Nat.mul_le_mul_right _ hy
  have hidx : y * g.width + x < g.tiles.length := by
    have h3 := Nat.lt_of_lt_of_le h1 h2
    rw [hwf, Nat.mul_comm g.width g.height]
    exact h3
  exact ⟨g.tiles.get ⟨_, hidx⟩, List.get?_eq_get hidx⟩

theorem rowMajor_inj {w x x' y y' : Nat} (hx : x < w) (hx' : x' < w)
    (h : y * w + x = y' * w + x') : x = x' ∧ y = y' := by
  have hw : 0 < w := Nat.lt_of_le_of_lt (Nat.zero_le x) hx
  have hmod : (y * w + x) % w = (y' * w + x') % w := by rw [h]
  rw [Nat.mul_comm y w, Nat.mul_comm y' w, Nat.mul_add_mod, Nat.mul_add_mod] at hmod
  rw [Nat.mod_eq_of_lt hx, Nat.mod_eq_of_lt hx'] at hmod
  subst hmod
  constructor
  · rfl
  · have := Nat.add_right_cancel h
    exact Nat.eq_of_mul_eq_mul_right hw this

theorem Grid.tileAt_setTile_self (g : Grid T) (x y : Nat) (t : T)
    (h : (g.tileAt x y).isSome = true) :
    (g.setTile x y t).tileAt x y = some t := by
  unfold Grid.tileAt Grid.setTile at *
  by_cases hx : g.width ≤ x
  · simp [hx] at h
  · by_cases hy : g.height ≤ y
    · simp [hx, hy] at h
    · simp only [if_neg hx, if_neg hy] at h ⊢
      have hlen : y * g.width + x < g.tiles.length := by
        by_contra hc
        rw [List.get?_eq_none.2 (Nat.le_of_not_lt hc)] at h
        simp at h
      simp only [List.get?_set_eq_of_lt _ hlen]

theorem Grid.tileAt_setTile_other (g : Grid T) (x y : Nat) (t : T) (x' y' : Nat)
    (h : x' ≠ x ∨ y' ≠ y) :
    (g.setTile x y t).tileAt x' y' = g.tileAt x' y' := by
  unfold Grid.tileAt Grid.setTile
  by_cases hx : g.width ≤ x
  · simp [hx]
  · by_cases hy : g.height ≤ y
    · simp [hx, hy]
    · simp only [if_neg hx, if_neg hy]
      by_cases hx' : g.width ≤ x'
      · simp [hx']
      · by_cases hy' : g.height ≤ y'
        · simp [hx', hy']
        · simp only [if_neg hx', if_neg hy']
          have hne : y * g.width + x ≠ y' * g.width + x' := by
            intro hc
            rcases rowMajor_inj (Nat.lt_of_not_le hx) (Nat.lt_of_not_le hx') hc with ⟨h1, h2⟩
            rcases h with h | h
            · exact h h1.symm
            · exact h h2.symm
          exact List.get?_set_ne _ _ hne

theorem Grid.setTile_of_get_none (g : Grid T) (x y : Nat) (t : T)
    (h : g.tileAt x y = none) : g.setTile x y t = g := by
  unfold Grid.tileAt at h
  unfold Grid.setTile
  by_cases hx : g.width ≤ x
  · simp [hx]
  · by_cases hy : g.height ≤ y
    · simp [hx, hy]
    · simp only [if_neg hx, if_neg hy] at h ⊢
      have hlen : g.tiles.length ≤ y * g.width + x := List.get?_eq_none.1 h
      rw [List.set_eq_of_length_le hlen]

theorem gridLaws (T : Type) : TilesLaws (gridOps T) where
  get_set_self := Grid.tileAt_setTile_self
  get_set_other := Grid.tileAt_setTile_other
  set_of_get_none := Grid.setTile_of_get_none
  get_xBound := by
    intro s x y h
    replace h : s.width ≤ x := h
    show s.tileAt x y = none
    unfold Grid.tileAt
    rw [if_pos h]
  get_yBound := by
    intro s x y h
    replace h : s.height ≤ y := h
    show s.tileAt x y = none
    unfold Grid.tileAt
    by_cases hx : s.width ≤ x
    · rw [if_pos hx]
    · rw [if_neg hx, if_pos h]
  xBound_set := by
    intro s x y t
    show (s.setTile x y t).width = s.width
    unfold Grid.setTile
    split
    · rfl
    · split <;> rfl
  yBound_set := by
    intro s x y t
    show (s.setTile x y t).height = s.height
    unfold Grid.setTile
    split
    · rfl
    · split <;> rfl

theorem proxyLaws : TilesLaws proxyOps where
  get_set_self := by
    intro s x y t h
    replace h : (s.1.tileAt x y).isSome = true := h
    show (match s.1.tileAt x y with
      | some _ => (s.1.setTile x y t, s.2 + 1)
      | none => s).1.tileAt x y = some t
    split
    · exact Grid.tileAt_setTile_self _ _ _ _ h
    · rename_i heq
      rw [heq] at h
      simp at h
  get_set_other := by
    intro s x y t x' y' h
    show (proxyOps.setTile s x y t).1.tileAt x' y' = s.1.tileAt x' y'
    show (match s.1.tileAt x y with
      | some _ => (s.1.setTile x y t, s.2 + 1)
      | none => s).1.tileAt x' y' = s.1.tileAt x' y'
    split
    · exact Grid.tileAt_setTile_other _ _ _ _ _ _ h
    · rfl
  set_of_get_none := by
    intro s x y t h
    replace h : s.1.tileAt x y = none := h
    show (match s.1.tileAt x y with
      | some _ => (s.1.setTile x y t, s.2 + 1)
      | none => s) = s
    split
    · rename_i heq
      rw [heq] at h
      exact Option.noConfusion h
    · rfl
  get_xBound := by
    intro s x y h
    exact (gridLaws TileGenState).get_xBound s.1 x y h
  get_yBound := by
    intro s x y h
    exact (gridLaws TileGenState).get_yBound s.1 x y h
  xBound_set := by
    intro s x y t
    show (match s.1.tileAt x y with
      | some _ => (s.1.setTile x y t, s.2 + 1)
      | none => s).1.width = s.1.width
    split
    · exact (gridLaws TileGenState).xBound_set s.1 x y t
    · rfl
  yBound_set := by
    intro s x y t
    show (match s.1.tileAt x y with
      | some _ => (s.1.setTile x y t, s.2 + 1)
      | none => s).1.height = s.1.height
    split
    · exact (gridLaws TileGenState).yBound_set s.1 x y t
    · rfl

theorem foldl_erase_mem (x : Nat) :
    ∀ (l : List Nat) (ks : Finset Nat),
      x ∈ l.foldl (fun ks i => ks.erase i) ks ↔ x ∈ ks ∧ x ∉ l := by
  intro l
  induction l with
  | nil => intro ks; simp
  | cons i l ih =>
    intro ks
    rw [List.foldl_cons, ih, Finset.mem_erase]
    simp only [List.mem_cons]
    constructor
    · rintro ⟨⟨hne, hks⟩, hl⟩
      exact ⟨hks, by rintro (rfl | h) <;> [exact hne rfl; exact hl h]⟩
    · rintro ⟨hks, hni⟩
      exact ⟨⟨fun hx => hni (Or.inl hx), hks⟩, fun hx => hni (Or.inr hx)⟩

/-- C9: after `Obstacles::remove_all()` the obstacle store is empty and
every handle index occupied since the last clear has been removed from the
BVH; the handle/store invariant holds for the empty state and is preserved
by `add` and `remove_all`, so it covers every state the pipeline reaches. -/
theorem c9_remove_all_clears {O : Type} (s : Obstacles O)
    (hinv : s.handleInv) :
    s.removeAll.obstacles = [] ∧ s.removeAll.qbvhKeys = ∅ ∧
      (Obstacles.empty O).handleInv ∧
      (∀ ob, (s.add ob).1.handleInv ∧ (s.add ob).2 = s.obstacles.length) ∧
      s.removeAll.handleInv := by
  have hempty : s.removeAll.qbvhKeys = ∅ := by
    apply Finset.eq_empty_of_forall_not_mem
    intro x hx
    rw [show s.removeAll.qbvhKeys
        = (List.range s.obstacles.length).foldl (fun ks i => ks.erase i) s.qbvhKeys
        from rfl] at hx
    rw [foldl_erase_mem] at hx
    exact hx.2 (List.mem_range.2 (hinv x hx.1))
  refine ⟨rfl, hempty, ?_, ?_, ?_⟩
  · intro k hk
    simp [Obstacles.empty] at hk
  · intro ob
    refine ⟨?_, rfl⟩
    intro k hk
    simp only [Obstacles.add, Finset.mem_insert] at hk
    simp only [Obstacles.add, List.length_append, List.length_cons, List.length_nil]
    rcases hk with rfl | hk
    · omega
    · have := hinv k hk
      omega
  · intro k hk
    rw [hempty] at hk
    exact absurd hk (Finset.not_mem_empty k)

/-- C9 witness: a concrete two-obstacle state. -/
theorem c9_remove_all_clears_witness :
    ((Obstacles.empty Nat).add 7 |>.1.add 8 |>.1).handleInv ∧
      ((Obstacles.empty Nat).add 7 |>.1.add 8 |>.1).removeAll.obstacles = [] ∧
      ((Obstacles.empty Nat).add 7 |>.1.add 8 |>.1).removeAll.qbvhKeys = ∅ := by
  have hinv : ((Obstacles.empty Nat).add 7 |>.1.add 8 |>.1).handleInv := by
    intro k hk
    simp only [Obstacles.empty, Obstacles.add] at hk ⊢
    fin_cases hk <;> simp
  have h := c9_remove_all_clears _ hinv
  exact ⟨hinv, h.1, h.2.1⟩

/-- C8: `tile_at`/`tile_at_mut` return `None` exactly on out-of-range
addresses and the addressed element otherwise; `set_tile` out of range
leaves the grid unchanged; the unchecked `Index`/`IndexMut` accessor
panics (modelled `none`) exactly on out-of-range addresses — never a
silent clamp. -/
theorem c8_grid_bounds {T : Type} (g : Grid T) (hwf : g.wellFormed) (x y : Nat) :
    (g.tileAt x y = none ↔ g.width ≤ x ∨ g.height ≤ y) ∧
      (g.width ≤ x ∨ g.height ≤ y → ∀ t, g.setTile x y t = g) ∧
      (x < g.width → y < g.height →
        g.tileAt x y = g.tiles.get? (y * g.width + x) ∧ (g.tileAt x y).isSome = true) ∧
      (g.indexGet x y = none ↔ g.width ≤ x ∨ g.height ≤ y) := by
  have key : g.tileAt x y = none ↔ g.width ≤ x ∨ g.height ≤ y := by
    unfold Grid.tileAt
    by_cases hx : g.width ≤ x
    · simp [hx]
    · by_cases hy : g.height ≤ y
      · simp [hx, hy]
      · simp only [if_neg hx, if_neg hy]
        constructor
        · intro h
          have hlen := List.get?_eq_none.1 h
          rw [hwf] at hlen
          exfalso
          have hxw := Nat.lt_of_not_le hx
          have hyh := Nat.lt_of_not_le hy
          have : y * g.width + x < g.height * g.width := by
            calc y * g.width + x < y * g.width + g.width := by omega
            _ = (y + 1) * g.width := by ring
            _ ≤ g.height * g.width := Nat.mul_le_mul_right _ hyh
          rw [Nat.mul_comm g.height g.width] at this
          omega
        · intro h
          exact absurd h (by push_neg; exact ⟨Nat.lt_of_not_le hx, Nat.lt_of_not_le hy⟩)
  refine ⟨key, ?_, ?_, key⟩
  · intro h t
    exact Grid.setTile_of_get_none g x y t (key.2 h)
  · intro hx hy
    constructor
    · unfold Grid.tileAt
      rw [if_neg (Nat.not_le.2 hx), if_neg (Nat.not_le.2 hy)]
    · rw [Option.isSome_iff_ne_none]
      intro hc
      rcases key.1 hc with h | h
      · omega
      · omega

/-- C8 witness: a concrete well-formed 2×2 grid. -/
theorem c8_grid_bounds_witness :
    (Grid.mk 2 2 [0, 1, 2, 3] : Grid Nat).wellFormed ∧
      ((Grid.mk 2 2 [0, 1, 2, 3] : Grid Nat).tileAt 2 0 = none ↔
        (2:Nat) ≤ 2 ∨ (2:Nat) ≤ 0) := by
  refine ⟨by rfl, ?_⟩
  exact (c8_grid_bounds (Grid.mk 2 2 [0, 1, 2, 3]) (by rfl) 2 0).1

/-! ### Border claims -/

theorem count_if_singleton {α : Type} [DecidableEq α] (c : Prop) [inst : Decidable c]
    (b e : α) :
    (if c then [b] else []).count e = if c ∧ b = e then 1 else 0 := by
  split_ifs with h1 h2 h3
  · rw [List.count_singleton', if_pos h2.2]
  · rw [List.count_singleton']
    rw [if_neg]
    intro hc
    exact h2 ⟨h1, hc⟩
  · exact absurd h3.1 h1
  · rfl

theorem count_if_skip {α : Type} [DecidableEq α] (c : Prop) [inst : Decidable c]
    (b e : α) :
    (if c then [] else [b]).count e = if ¬ c ∧ b = e then 1 else 0 := by
  split_ifs with h1 h2 h3
  · exact absurd h1 h2.1
  · rfl
  · rw [List.count_singleton', if_pos h3.2]
  · rw [List.count_singleton']
    rw [if_neg]
    intro hc
    exact h3 ⟨h1, hc⟩

/-! ### Border claims: C2 -/

/-- The vertical unit edge between tiles (x,y) and (x+1,y), as both the
open-tile East rule and the closed-tile West rule construct it. -/
theorem count_borderEmit_vertEdge {T : Type} (g : Grid T) (p : T → Bool)
    (x y : Nat) (ax ay : Nat) :
    (borderEmit g p (ax, ay)).count ⟨(x + 1, y), true⟩ =
      if ax = x ∧ ay = y ∧ (g.tileAt x y).isSome = true then
        (if (g.isOpenAt p x y != g.isOpenAt p (x + 1) y) then 1 else 0)
      else 0 := by
  unfold borderEmit
  simp only
  split
  · rename_i h
    simp only [List.count_nil]
    split_ifs with hc
    all_goals try rfl
    obtain ⟨h1, h2, h3⟩ := hc
    rw [h1, h2] at h
    rw [h] at h3
    exact Bool.noConfusion h3
  · rename_i tile h
    have hopen : g.isOpenAt p ax ay = p tile := by
      unfold Grid.isOpenAt
      rw [h]
      rfl
    have hsome : (g.tileAt ax ay).isSome = true := by rw [h]; rfl
    have hne1 : ¬ (ax = ax + 1) := by omega
    by_cases ha : ax = x ∧ ay = y
    · obtain ⟨rfl, rfl⟩ := ha
      rw [if_pos (show ax = ax ∧ ay = ay ∧ (g.tileAt ax ay).isSome = true from
        ⟨rfl, rfl, hsome⟩)]
      rw [hopen]
      by_cases hpt : p tile = true
      · rw [if_pos (show p tile = true from hpt)]
        simp only [List.count_append, count_if_singleton, count_if_skip,
          Border.at, Border.mk.injEq, Prod.mk.injEq, and_true, eq_self_iff_true,
          true_and, hne1, false_and, and_false, if_false, hpt]
        by_cases he : g.isOpenAt p (ax + 1) ay = true
        · simp [he]
        · rw [Bool.not_eq_true] at he
          simp [he]
      · rw [if_neg (show ¬ (p tile = true) from hpt)]
        rw [Bool.not_eq_true] at hpt
        simp only [List.count_append, count_if_singleton, count_if_skip,
          Border.at, Border.mk.injEq, Prod.mk.injEq, and_true, eq_self_iff_true,
          true_and, hne1, false_and, and_false, if_false, hpt]
        by_cases he : g.isOpenAt p (ax + 1) ay = true
        · simp [he]
        · rw [Bool.not_eq_true] at he
          simp [he]
    · rw [if_neg (show ¬ (ax = x ∧ ay = y ∧ (g.tileAt x y).isSome = true) by
        rintro ⟨h1, h2, -⟩; exact ha ⟨h1, h2⟩)]
      have hnoteast : ¬ (ax + 1 = x + 1 ∧ ay = y) := by
        rintro ⟨h1, h2⟩
        exact ha ⟨by omega, h2⟩
      by_cases hpt : p tile = true
      · rw [if_pos (show p tile = true from hpt)]
        simp only [List.count_append, count_if_singleton, count_if_skip,
          Border.at, Border.mk.injEq, Prod.mk.injEq, and_true]
        rw [if_neg (show ¬ (ax = 0 ∧ ax = x + 1 ∧ ay = y) by
          rintro ⟨h1, h2, -⟩; omega)]
        rw [if_neg (show ¬ (ay = 0 ∧ (ax = x + 1 ∧ ay = y) ∧ false = true) by
          rintro ⟨-, -, hf⟩; exact Bool.noConfusion hf)]
        rw [if_neg (show ¬ (¬ g.isOpenAt p ax (ay + 1) = true ∧
            (ax = x + 1 ∧ ay + 1 = y) ∧ false = true) by
          rintro ⟨-, -, hf⟩; exact Bool.noConfusion hf)]
        rw [if_neg (show ¬ (¬ g.isOpenAt p (ax + 1) ay = true ∧
            ax + 1 = x + 1 ∧ ay = y) by
          rintro ⟨-, hc1, hc2⟩; exact hnoteast ⟨hc1, hc2⟩)]
      · rw [if_neg (show ¬ (p tile = true) from hpt)]
        simp only [List.count_append, count_if_singleton, count_if_skip,
          Border.at, Border.mk.injEq, Prod.mk.injEq, and_true]
        rw [if_neg (show ¬ (g.isOpenAt p ax (ay + 1) = true ∧
            (ax = x + 1 ∧ ay + 1 = y) ∧ false = true) by
          rintro ⟨-, -, hf⟩; exact Bool.noConfusion hf)]
        rw [if_neg (show ¬ (g.isOpenAt p (ax + 1) ay = true ∧
            ax + 1 = x + 1 ∧ ay = y) by
          rintro ⟨-, hc1, hc2⟩; exact hnoteast ⟨hc1, hc2⟩)]

theorem count_borderEmit_horizEdge {T : Type} (g : Grid T) (p : T → Bool)
    (x y : Nat) (ax ay : Nat) :
    (borderEmit g p (ax, ay)).count ⟨(x, y + 1), false⟩ =
      if ax = x ∧ ay = y ∧ (g.tileAt x y).isSome = true then
        (if (g.isOpenAt p x y != g.isOpenAt p x (y + 1)) then 1 else 0)
      else 0 := by
  unfold borderEmit
  simp only
  split
  · rename_i h
    simp only [List.count_nil]
    split_ifs with hc
    all_goals try rfl
    obtain ⟨h1, h2, h3⟩ := hc
    rw [h1, h2] at h
    rw [h] at h3
    exact Bool.noConfusion h3
  · rename_i tile h
    have hopen : g.isOpenAt p ax ay = p tile := by
      unfold Grid.isOpenAt
      rw [h]
      rfl
    have hsome : (g.tileAt ax ay).isSome = true := by rw [h]; rfl
    have hne1 : ¬ (ay = ay + 1) := by omega
    by_cases ha : ax = x ∧ ay = y
    · obtain ⟨rfl, rfl⟩ := ha
      rw [if_pos (show ax = ax ∧ ay = ay ∧ (g.tileAt ax ay).isSome = true from
        ⟨rfl, rfl, hsome⟩)]
      rw [hopen]
      by_cases hpt : p tile = true
      · rw [if_pos (show p tile = true from hpt)]
        simp only [List.count_append, count_if_singleton, count_if_skip,
          Border.at, Border.mk.injEq, Prod.mk.injEq, and_true, eq_self_iff_true,
          true_and, hne1, false_and, and_false, if_false, hpt]
        by_cases he : g.isOpenAt p ax (ay + 1) = true
        · simp [he]
        · rw [Bool.not_eq_true] at he
          simp [he]
      · rw [if_neg (show ¬ (p tile = true) from hpt)]
        rw [Bool.not_eq_true] at hpt
        simp only [List.count_append, count_if_singleton, count_if_skip,
          Border.at, Border.mk.injEq, Prod.mk.injEq, and_true, eq_self_iff_true,
          true_and, hne1, false_and, and_false, if_false, hpt]
        by_cases he : g.isOpenAt p ax (ay + 1) = true
        · simp [he]
        · rw [Bool.not_eq_true] at he
          simp [he]
    · rw [if_neg (show ¬ (ax = x ∧ ay = y ∧ (g.tileAt x y).isSome = true) by
        rintro ⟨h1, h2, -⟩; exact ha ⟨h1, h2⟩)]
      have hnotnorth : ¬ (ax = x ∧ ay + 1 = y + 1) := by
        rintro ⟨h1, h2⟩
        exact ha ⟨h1, by omega⟩
      by_cases hpt : p tile = true
      · rw [if_pos (show p tile = true from hpt)]
        simp only [List.count_append, count_if_singleton, count_if_skip,
          Border.at, Border.mk.injEq, Prod.mk.injEq, and_true, eq_self_iff_true,
          true_and]
        rw [if_neg (show ¬ (ax = 0 ∧ (ax = x ∧ ay = y + 1) ∧ true = false) by
          rintro ⟨-, -, hf⟩; exact Bool.noConfusion hf)]
        rw [if_neg (show ¬ (ay = 0 ∧ ax = x ∧ ay = y + 1) by
          rintro ⟨h0, -, h2⟩; omega)]
        rw [if_neg (show ¬ (¬ g.isOpenAt p ax (ay + 1) = true ∧
            ax = x ∧ ay + 1 = y + 1) by
          rintro ⟨-, hc1, hc2⟩; exact hnotnorth ⟨hc1, hc2⟩)]
        rw [if_neg (show ¬ (¬ g.isOpenAt p (ax + 1) ay = true ∧
            (ax + 1 = x ∧ ay = y + 1) ∧ true = false) by
          rintro ⟨-, -, hf⟩; exact Bool.noConfusion hf)]
      · rw [if_neg (show ¬ (p tile = true) from hpt)]
        simp only [List.count_append, count_if_singleton, count_if_skip,
          Border.at, Border.mk.injEq, Prod.mk.injEq, and_true, eq_self_iff_true,
          true_and]
        rw [if_neg (show ¬ (g.isOpenAt p ax (ay + 1) = true ∧
            ax = x ∧ ay + 1 = y + 1) by
          rintro ⟨-, hc1, hc2⟩; exact hnotnorth ⟨hc1, hc2⟩)]
        rw [if_neg (show ¬ (g.isOpenAt p (ax + 1) ay = true ∧
            (ax + 1 = x ∧ ay = y + 1) ∧ true = false) by
          rintro ⟨-, -, hf⟩; exact Bool.noConfusion hf)]

theorem count_collectBorders_vert {T : Type} (g : Grid T) (p : T → Bool)
    (hwf : g.wellFormed) (x y : Nat) (hx : x + 1 < g.width) (hy : y < g.height) :
    (collectBorders g p).count ⟨(x + 1, y), true⟩ =
      if (g.isOpenAt p x y != g.isOpenAt p (x + 1) y) then 1 else 0 := by
  obtain ⟨t0, ht0⟩ := tileAt_isSome_of_lt g hwf x y (by omega) hy
  unfold collectBorders
  rw [count_flatMap]
  have hmap : ∀ a ∈ Grid.addressesList g.width g.height,
      (fun a => (borderEmit g p a).count ⟨(x + 1, y), true⟩) a =
      (fun a => if a = ((x, y) : Nat × Nat)
        then (if (g.isOpenAt p x y != g.isOpenAt p (x + 1) y) then 1 else 0)
        else 0) a := by
    intro a _
    rcases a with ⟨ax, ay⟩
    simp only
    rw [count_borderEmit_vertEdge]
    by_cases hc : ((ax, ay) : Nat × Nat) = (x, y)
    · rw [Prod.mk.injEq] at hc
      obtain ⟨rfl, rfl⟩ := hc
      rw [if_pos (show ax = ax ∧ ay = ay ∧ (g.tileAt ax ay).isSome = true from
        ⟨rfl, rfl, by rw [ht0]; rfl⟩)]
      rw [if_pos (show ((ax, ay) : Nat × Nat) = (ax, ay) from rfl)]
    · rw [if_neg (show ¬ (ax = x ∧ ay = y ∧ (g.tileAt x y).isSome = true) by
        rintro ⟨h1, h2, -⟩
        exact hc (by rw [Prod.mk.injEq]; exact ⟨h1, h2⟩))]
      rw [if_neg hc]
  rw [List.map_congr_left hmap, sum_map_if_eq, count_addressesList]
  rw [if_pos (show x < g.width ∧ y < g.height from ⟨by omega, hy⟩), Nat.one_mul]

theorem count_collectBorders_horiz {T : Type} (g : Grid T) (p : T → Bool)
    (hwf : g.wellFormed) (x y : Nat) (hx : x < g.width) (hy : y + 1 < g.height) :
    (collectBorders g p).count ⟨(x, y + 1), false⟩ =
      if (g.isOpenAt p x y != g.isOpenAt p x (y + 1)) then 1 else 0 := by
  obtain ⟨t0, ht0⟩ := tileAt_isSome_of_lt g hwf x y hx (by omega)
  unfold collectBorders
  rw [count_flatMap]
  have hmap : ∀ a ∈ Grid.addressesList g.width g.height,
      (fun a => (borderEmit g p a).count ⟨(x, y + 1), false⟩) a =
      (fun a => if a = ((x, y) : Nat × Nat)
        then (if (g.isOpenAt p x y != g.isOpenAt p x (y + 1)) then 1 else 0)
        else 0) a := by
    intro a _
    rcases a with ⟨ax, ay⟩
    simp only
    rw [count_borderEmit_horizEdge]
    by_cases hc : ((ax, ay) : Nat × Nat) = (x, y)
    · rw [Prod.mk.injEq] at hc
      obtain ⟨rfl, rfl⟩ := hc
      rw [if_pos (show ax = ax ∧ ay = ay ∧ (g.tileAt ax ay).isSome = true from
        ⟨rfl, rfl, by rw [ht0]; rfl⟩)]
      rw [if_pos (show ((ax, ay) : Nat × Nat) = (ax, ay) from rfl)]
    · rw [if_neg (show ¬ (ax = x ∧ ay = y ∧ (g.tileAt x y).isSome = true) by
        rintro ⟨h1, h2, -⟩
        exact hc (by rw [Prod.mk.injEq]; exact ⟨h1, h2⟩))]
      rw [if_neg hc]
  rw [List.map_congr_left hmap, sum_map_if_eq, count_addressesList]
  rw [if_pos (show x < g.width ∧ y < g.height from ⟨hx, by omega⟩), Nat.one_mul]

/-- C2: for every pair of 4-adjacent in-bounds tiles, the unit edge between
them appears in the collect_borders output exactly once when exactly one of
the two tiles is open, and not at all otherwise; the open-tile rule
(North/East) and the closed-tile rule (South/West on the neighbour)
construct the identical Border value, so the two rules never both report
the same physical edge. -/
theorem c2_border_exactly_once {T : Type} (g : Grid T) (p : T → Bool)
    (hwf : g.wellFormed) (x y : Nat) :
    (x + 1 < g.width → y < g.height →
      (collectBorders g p).count ⟨(x + 1, y), true⟩ =
        if (g.isOpenAt p x y != g.isOpenAt p (x + 1) y) then 1 else 0) ∧
    (x < g.width → y + 1 < g.height →
      (collectBorders g p).count ⟨(x, y + 1), false⟩ =
        if (g.isOpenAt p x y != g.isOpenAt p x (y + 1)) then 1 else 0) ∧
    Border.at (x, y) Cardinal.north = Border.at (x, y + 1) Cardinal.south ∧
    Border.at (x, y) Cardinal.east = Border.at (x + 1, y) Cardinal.west := by
  refine ⟨?_, ?_, rfl, rfl⟩
  · intro hx hy
    exact count_collectBorders_vert g p hwf x y hx hy
  · intro hx hy
    exact count_collectBorders_horiz g p hwf x y hx hy

/-- C2 witness: a concrete 2×2 grid with one open and three closed tiles. -/
theorem c2_border_exactly_once_witness :
    (Grid.mk 2 2 [TileState.Floor, TileState.Water,
      TileState.Water, TileState.Water]).wellFormed ∧
      ((collectBorders (Grid.mk 2 2 [TileState.Floor, TileState.Water,
        TileState.Water, TileState.Water]) (fun t => t == TileState.Floor)).count
          ⟨(1, 0), true⟩ = 1) := by
  refine ⟨by rfl, ?_⟩
  have h := (c2_border_exactly_once
    (Grid.mk 2 2 [TileState.Floor, TileState.Water, TileState.Water, TileState.Water])
    (fun t => t == TileState.Floor) (by rfl) 0 0).1 (by decide) (by decide)
  rw [h]
  decide

/-! ### Border claims: C7 -/

theorem sum_map_add {α : Type} (f g : α → Nat) :
    ∀ l : List α, (l.map fun a => f a + g a).sum = (l.map f).sum + (l.map g).sum := by
  intro l
  induction l with
  | nil => rfl
  | cons a l ih =>
    simp only [List.map_cons, List.sum_cons, ih]
    omega

theorem sum_map_const {α : Type} (c : Nat) :
    ∀ l : List α, (l.map fun _ => c).sum = l.length * c := by
  intro l
  induction l with
  | nil => simp
  | cons a l ih =>
    simp only [List.map_cons, List.sum_cons, ih, List.length_cons]
    ring

theorem sum_range_if_eq (v j : Nat) :
    ∀ w, ((List.range w).map (fun x => if x = j then v else 0)).sum
      = if j < w then v else 0 := by
  intro w
  induction w with
  | zero => simp
  | succ w ih =>
    rw [List.range_succ, List.map_append, List.sum_append, ih]
    simp only [List.map_cons, List.map_nil, List.sum_cons, List.sum_nil]
    split_ifs <;> omega

theorem mem_addressesList {w h : Nat} {a : Nat × Nat} :
    a ∈ Grid.addressesList w h ↔ a.1 < w ∧ a.2 < h := by
  rcases a with ⟨ax, ay⟩
  unfold Grid.addressesList
  simp only [List.mem_flatMap, List.mem_map, List.mem_range, Prod.mk.injEq]
  constructor
  · rintro ⟨y, hy, x, hx, rfl, rfl⟩
    exact ⟨hx, hy⟩
  · rintro ⟨hx, hy⟩
    exact ⟨ay, hy, ax, hx, rfl, rfl⟩

theorem sum_addresses_ind_x (w h j : Nat) :
    ((Grid.addressesList w h).map (fun a => if a.1 = j then 1 else 0)).sum
      = if j < w then h else 0 := by
  induction h with
  | zero => simp [Grid.addressesList]
  | succ h ih =>
    unfold Grid.addressesList at *
    rw [List.range_succ, List.flatMap_append, List.map_append, List.sum_append, ih]
    simp only [List.flatMap_cons, List.flatMap_nil, List.append_nil, List.map_map]
    have : ((List.range w).map ((fun a : Nat × Nat => if a.1 = j then 1 else 0) ∘
        (fun x => (x, h)))).sum = if j < w then 1 else 0 := by
      rw [show ((fun a : Nat × Nat => if a.1 = j then 1 else 0) ∘ (fun x => (x, h)))
        = (fun x => if x = j then 1 else 0) from rfl]
      exact sum_range_if_eq 1 j w
    rw [this]
    split_ifs <;> omega

theorem sum_addresses_ind_y (w h j : Nat) :
    ((Grid.addressesList w h).map (fun a => if a.2 = j then 1 else 0)).sum
      = if j < h then w else 0 := by
  induction h with
  | zero => simp [Grid.addressesList]
  | succ h ih =>
    unfold Grid.addressesList at *
    rw [List.range_succ, List.flatMap_append, List.map_append, List.sum_append, ih]
    simp only [List.flatMap_cons, List.flatMap_nil, List.append_nil, List.map_map]
    have : ((List.range w).map ((fun a : Nat × Nat => if a.2 = j then 1 else 0) ∘
        (fun x => (x, h)))).sum = if h = j then w else 0 := by
      rw [show ((fun a : Nat × Nat => if a.2 = j then 1 else 0) ∘ (fun x => (x, h)))
        = (fun _ => if h = j then 1 else 0) from rfl]
      by_cases hj : h = j
      · simp only [if_pos hj]
        rw [sum_map_const, List.length_range, Nat.mul_one]
      · simp only [if_neg hj]
        rw [sum_map_const, Nat.mul_zero]
    rw [this]
    split_ifs <;> omega

theorem length_if_singleton {α : Type} (c : Prop) [Decidable c] (b : α) :
    (if c then [b] else []).length = if c then 1 else 0 := by
  split_ifs <;> rfl

theorem length_if_skip {α : Type} (c : Prop) [Decidable c] (b : α) :
    (if c then [] else [b]).length = if c then 0 else 1 := by
  split_ifs <;> rfl

theorem isOpenAt_false_iff_oob {T : Type} (g : Grid T) (p : T → Bool)
    (hwf : g.wellFormed)
    (hall : ∀ x y, x < g.width → y < g.height → g.isOpenAt p x y = true)
    (x y : Nat) : g.isOpenAt p x y = false ↔ (g.width ≤ x ∨ g.height ≤ y) := by
  constructor
  · intro h
    by_contra hc
    push_neg at hc
    rw [hall x y (by omega) (by omega)] at h
    exact Bool.noConfusion h
  · intro h
    unfold Grid.isOpenAt
    rw [(c8_grid_bounds g hwf x y).1.2 h]
    rfl

theorem borderEmit_length_allOpen {T : Type} (g : Grid T) (p : T → Bool)
    (hwf : g.wellFormed) (hH : 1 ≤ g.height) (hW : 1 ≤ g.width)
    (hall : ∀ x y, x < g.width → y < g.height → g.isOpenAt p x y = true)
    (ax ay : Nat) (hax : ax < g.width) (hay : ay < g.height) :
    (borderEmit g p (ax, ay)).length =
      (((if ax = 0 then 1 else 0) + (if ay = 0 then 1 else 0)) +
        (if ay = g.height - 1 then 1 else 0)) +
        (if ax = g.width - 1 then 1 else 0) := by
  obtain ⟨tile, ht⟩ := tileAt_isSome_of_lt g hwf ax ay hax hay
  have hopen : p tile = true := by
    have := hall ax ay hax hay
    unfold Grid.isOpenAt at this
    rw [ht] at this
    exact this
  unfold borderEmit
  simp only
  split
  · rename_i h
    rw [h] at ht
    exact Option.noConfusion ht
  · rename_i tile' h
    rw [h] at ht
    injection ht with ht
    rw [if_pos (show p tile' = true from by rw [ht]; exact hopen)]
    rw [List.length_append, List.length_append, List.length_append]
    rw [length_if_singleton, length_if_singleton, length_if_skip, length_if_skip]
    have hN : (g.isOpenAt p ax (ay + 1) = true) ↔ ¬ (ay = g.height - 1) := by
      constructor
      · intro ho hc
        have : g.isOpenAt p ax (ay + 1) = false :=
          (isOpenAt_false_iff_oob g p hwf hall ax (ay + 1)).2 (by omega)
        rw [ho] at this
        exact Bool.noConfusion this
      · intro hc
        exact hall ax (ay + 1) hax (by omega)
    have hE : (g.isOpenAt p (ax + 1) ay = true) ↔ ¬ (ax = g.width - 1) := by
      constructor
      · intro ho hc
        have : g.isOpenAt p (ax + 1) ay = false :=
          (isOpenAt_false_iff_oob g p hwf hall (ax + 1) ay).2 (by omega)
        rw [ho] at this
        exact Bool.noConfusion this
      · intro hc
        exact hall (ax + 1) ay (by omega) hay
    by_cases h1 : g.isOpenAt p ax (ay + 1) = true <;>
      by_cases h2 : g.isOpenAt p (ax + 1) ay = true
    · rw [if_pos h1, if_pos h2, if_neg (hN.1 h1), if_neg (hE.1 h2)]
    · rw [if_pos h1, if_neg h2, if_neg (hN.1 h1),
        if_pos (show ax = g.width - 1 from by by_contra hc; exact h2 (hE.2 hc))]
    · rw [if_neg h1, if_pos h2,
        if_pos (show ay = g.height - 1 from by by_contra hc; exact h1 (hN.2 hc)),
        if_neg (hE.1 h2)]
    · rw [if_neg h1, if_neg h2,
        if_pos (show ay = g.height - 1 from by by_contra hc; exact h1 (hN.2 hc)),
        if_pos (show ax = g.width - 1 from by by_contra hc; exact h2 (hE.2 hc))]

/-- C7: on an all-open W×H grid (W, H ≥ 1), collect_borders emits exactly
2·(W+H) borders, each on the grid's outer perimeter, none interior. -/
theorem c7_all_open_perimeter {T : Type} (g : Grid T) (p : T → Bool)
    (hwf : g.wellFormed) (hW : 1 ≤ g.width) (hH : 1 ≤ g.height)
    (hall : ∀ x y, x < g.width → y < g.height → g.isOpenAt p x y = true) :
    (collectBorders g p).length = 2 * (g.width + g.height) ∧
      ∀ b ∈ collectBorders g p, onPerimeter g.width g.height b = true := by
  constructor
  · unfold collectBorders
    rw [length_flatMap']
    rw [List.map_congr_left (show ∀ a ∈ Grid.addressesList g.width g.height,
        (fun a => (borderEmit g p a).length) a =
        (fun a : Nat × Nat => (((if a.1 = 0 then 1 else 0) + (if a.2 = 0 then 1 else 0)) +
          (if a.2 = g.height - 1 then 1 else 0)) + (if a.1 = g.width - 1 then 1 else 0)) a
        from by
      intro a ha
      rw [mem_addressesList] at ha
      rcases a with ⟨ax, ay⟩
      exact borderEmit_length_allOpen g p hwf hH hW hall ax ay ha.1 ha.2)]
    rw [sum_map_add, sum_map_add, sum_map_add]
    rw [sum_addresses_ind_x, sum_addresses_ind_y, sum_addresses_ind_y,
      sum_addresses_ind_x]
    rw [if_pos (show 0 < g.width by omega), if_pos (show 0 < g.height by omega),
      if_pos (show g.height - 1 < g.height by omega),
      if_pos (show g.width - 1 < g.width by omega)]
    omega
  · intro b hb
    unfold collectBorders at hb
    rw [List.mem_flatMap] at hb
    obtain ⟨a, ha, hmem⟩ := hb
    rw [mem_addressesList] at ha
    rcases a with ⟨ax, ay⟩
    obtain ⟨tile, ht⟩ := tileAt_isSome_of_lt g hwf ax ay ha.1 ha.2
    have hopen : p tile = true := by
      have := hall ax ay ha.1 ha.2
      unfold Grid.isOpenAt at this
      rw [ht] at this
      exact this
    unfold borderEmit at hmem
    rw [ht] at hmem
    simp only [if_pos hopen] at hmem
    rw [List.mem_append, List.mem_append, List.mem_append] at hmem
    rcases hmem with ((hm | hm) | hm) | hm
    · split_ifs at hm with hc
      · rw [List.mem_singleton] at hm
        subst hm
        unfold onPerimeter Border.at
        simp only
        rw [if_pos (show True from trivial)]
        simp only [hc]
        simp [ha.2]
      · exact absurd hm (List.not_mem_nil b)
    · split_ifs at hm with hc
      · rw [List.mem_singleton] at hm
        subst hm
        unfold onPerimeter Border.at
        simp only
        rw [if_neg (show ¬ ((false : Bool) = true) from Bool.noConfusion)]
        simp only [hc]
        simp [ha.1]
      · exact absurd hm (List.not_mem_nil b)
    · split_ifs at hm with hc
      · exact absurd hm (List.not_mem_nil b)
      · rw [List.mem_singleton] at hm
        subst hm
        unfold onPerimeter Border.at
        simp only
        rw [if_neg (show ¬ ((false : Bool) = true) from Bool.noConfusion)]
        have hbad : g.isOpenAt p ax (ay + 1) = false := by
          cases hx : g.isOpenAt p ax (ay + 1) with
          | false => rfl
          | true => exact absurd hx hc
        have : g.width ≤ ax ∨ g.height ≤ ay + 1 :=
          (isOpenAt_false_iff_oob g p hwf hall ax (ay + 1)).1 hbad
        have hh : ay + 1 = g.height := by omega
        simp [hh, ha.1]
    · split_ifs at hm with hc
      · exact absurd hm (List.not_mem_nil b)
      · rw [List.mem_singleton] at hm
        subst hm
        unfold onPerimeter Border.at
        simp only
        rw [if_pos (show True from trivial)]
        have hbad : g.isOpenAt p (ax + 1) ay = false := by
          cases hx : g.isOpenAt p (ax + 1) ay with
          | false => rfl
          | true => exact absurd hx hc
        have : g.width ≤ ax + 1 ∨ g.height ≤ ay :=
          (isOpenAt_false_iff_oob g p hwf hall (ax + 1) ay).1 hbad
        have hh : ax + 1 = g.width := by omega
        simp [hh, ha.2]

/-- C7 witness: the all-open 3×2 grid has 2·(3+2) = 10 borders. -/
theorem c7_all_open_perimeter_witness :
    (collectBorders (Grid.mk 3 2 (List.replicate 6 TileState.Floor))
      (fun t => t == TileState.Floor)).length = 10 := by
  have h := (c7_all_open_perimeter
    (Grid.mk 3 2 (List.replicate 6 TileState.Floor))
    (fun t => t == TileState.Floor) (by rfl) (by decide) (by decide)
    (by intro x y hx hy; interval_cases x <;> interval_cases y <;> decide)).1
  rw [h]
  rfl

/-! ### Flood-fill engine: scan and fill semantics -/

section Scan
variable (ins : Nat → Bool)

theorem findInsideFromAux_ge : ∀ k cx m, findInsideFromAux ins k cx = some m → cx ≤ m := by
  intro k
  induction k with
  | zero => intro cx m h; exact Option.noConfusion h
  | succ k ih =>
    intro cx m h
    rw [findInsideFromAux] at h
    by_cases hc : ins cx = true
    · rw [if_pos hc] at h
      simp only [Option.some.injEq] at h
      omega
    · rw [if_neg hc] at h
      exact Nat.le_of_succ_le (ih (cx + 1) m h)

theorem findInsideFromAux_lt : ∀ k cx m, findInsideFromAux ins k cx = some m → m < cx + k := by
  intro k
  induction k with
  | zero => intro cx m h; exact Option.noConfusion h
  | succ k ih =>
    intro cx m h
    rw [findInsideFromAux] at h
    by_cases hc : ins cx = true
    · rw [if_pos hc] at h
      simp only [Option.some.injEq] at h
      omega
    · rw [if_neg hc] at h
      have := ih (cx + 1) m h
      omega

theorem findInsideFrom_ge (cx r m : Nat)
    (h : findInsideFrom ins cx r = some m) : cx ≤ m :=
  findInsideFromAux_ge ins _ _ _ h

theorem findInsideFrom_le (cx r m : Nat)
    (h : findInsideFrom ins cx r = some m) : m ≤ r := by
  have h1 := findInsideFromAux_ge ins _ _ _ h
  have h2 := findInsideFromAux_lt ins _ _ _ h
  rw [findInsideFrom] at h
  omega

theorem goRightAux_ge : ∀ k x, x ≤ goRightAux ins k x := by
  intro k
  induction k with
  | zero => intro x; exact Nat.le_refl x
  | succ k ih =>
    intro x
    rw [goRightAux]
    by_cases hc : ins (x + 1) = true
    · rw [if_pos hc]
      exact Nat.le_of_succ_le (ih (x + 1))
    · rw [if_neg hc]

theorem goRight_ge (bound x : Nat) : x ≤ goRight ins bound x :=
  goRightAux_ge ins _ _

theorem goLeft_le : ∀ x, goLeft ins x ≤ x := by
  intro x
  induction x with
  | zero => exact Nat.le_refl 0
  | succ x ih =>
    rw [goLeft]
    by_cases hc : ins x = true
    · rw [if_pos hc]
      omega
    · rw [if_neg hc]

theorem goLeft_all_inside : ∀ x, ins x = true →
    ∀ z, goLeft ins x ≤ z → z ≤ x → ins z = true := by
  intro x
  induction x with
  | zero =>
    intro hx z h1 h2
    have : z = 0 := by omega
    subst this
    exact hx
  | succ x ih =>
    intro hx z h1 h2
    rw [goLeft] at h1
    by_cases hc : ins x = true
    · rw [if_pos hc] at h1
      by_cases hz : z = x + 1
      · subst hz
        exact hx
      · exact ih hc z h1 (by omega)
    · rw [if_neg hc] at h1
      have : z = x + 1 := by omega
      subst this
      exact hx

theorem goLeft_flank : ∀ x, 1 ≤ goLeft ins x → ins (goLeft ins x - 1) = false := by
  intro x
  induction x with
  | zero =>
    intro h
    rw [goLeft] at h
    omega
  | succ x ih =>
    intro h
    rw [goLeft] at h ⊢
    by_cases hc : ins x = true
    · rw [if_pos hc] at h ⊢
      exact ih h
    · rw [if_neg hc] at h ⊢
      simp only [Nat.add_sub_cancel]
      cases hi : ins x with
      | false => rfl
      | true => exact absurd hi hc

theorem goRightAux_all_inside : ∀ k x, ins x = true →
    ∀ z, x ≤ z → z ≤ goRightAux ins k x → ins z = true := by
  intro k
  induction k with
  | zero =>
    intro x hx z h1 h2
    rw [goRightAux] at h2
    have : z = x := by omega
    subst this
    exact hx
  | succ k ih =>
    intro x hx z h1 h2
    rw [goRightAux] at h2
    by_cases hc : ins (x + 1) = true
    · rw [if_pos hc] at h2
      by_cases hz : z = x
      · subst hz
        exact hx
      · exact ih (x + 1) hc z (by omega) h2
    · rw [if_neg hc] at h2
      have : z = x := by omega
      subst this
      exact hx

theorem goRightAux_flank : ∀ k x, (∀ z, x + k ≤ z → ins z = false) →
    ins (goRightAux ins k x + 1) = false := by
  intro k
  induction k with
  | zero =>
    intro x hb
    rw [goRightAux]
    exact hb (x + 1) (by omega)
  | succ k ih =>
    intro x hb
    rw [goRightAux]
    by_cases hc : ins (x + 1) = true
    · rw [if_pos hc]
      exact ih (x + 1) (fun z hz => hb z (by omega))
    · rw [if_neg hc]
      cases hi : ins (x + 1) with
      | false => rfl
      | true => exact absurd hi hc

theorem goRight_all_inside (bound : Nat) (x : Nat) (hx : ins x = true) :
    ∀ z, x ≤ z → z ≤ goRight ins bound x → ins z = true :=
  goRightAux_all_inside ins (bound - x) x hx

theorem goRight_flank (bound : Nat) (x : Nat)
    (hb : ∀ z, bound ≤ z → ins z = false) :
    ins (goRight ins bound x + 1) = false := by
  unfold goRight
  apply goRightAux_flank
  intro z hz
  by_cases hxb : x < bound
  · exact hb z (by omega)
  · exact hb z (by omega)

theorem expandRange_none (bound x : Nat) (h : expandRange ins bound x = none) :
    ins x = false := by
  unfold expandRange at h
  by_cases hc : ins x = true
  · rw [if_pos hc] at h
    exact Option.noConfusion h
  · cases hi : ins x with
    | false => rfl
    | true => exact absurd hi hc

theorem expandRange_some (bound x a b : Nat)
    (hb : ∀ z, bound ≤ z → ins z = false)
    (h : expandRange ins bound x = some (a, b)) :
    a ≤ x ∧ x ≤ b ∧ (∀ z, a ≤ z → z ≤ b → ins z = true) ∧
      ins (b + 1) = false ∧ (1 ≤ a → ins (a - 1) = false) := by
  unfold expandRange at h
  by_cases hc : ins x = true
  · rw [if_pos hc] at h
    simp only [Option.some.injEq, Prod.mk.injEq] at h
    obtain ⟨rfl, rfl⟩ := h
    refine ⟨goLeft_le ins x, goRight_ge ins bound x, ?_, goRight_flank ins bound x hb, goLeft_flank ins x⟩
    intro z h1 h2
    by_cases hz : z ≤ x
    · exact goLeft_all_inside ins x hc z h1 hz
    · exact goRight_all_inside ins bound x hc z (by omega) h2
  · rw [if_neg hc] at h
    exact Option.noConfusion h

theorem findInsideFromAux_found : ∀ k cx m, findInsideFromAux ins k cx = some m →
    ins m = true ∧ ∀ z, cx ≤ z → z < m → ins z = false := by
  intro k
  induction k with
  | zero => intro cx m h; exact Option.noConfusion h
  | succ k ih =>
    intro cx m h
    rw [findInsideFromAux] at h
    by_cases hc : ins cx = true
    · rw [if_pos hc] at h
      simp only [Option.some.injEq] at h
      subst h
      exact ⟨hc, fun z h1 h2 => by omega⟩
    · rw [if_neg hc] at h
      obtain ⟨h1, h2⟩ := ih (cx + 1) m h
      refine ⟨h1, fun z hz1 hz2 => ?_⟩
      by_cases hz : z = cx
      · subst hz
        cases hi : ins z with
        | false => rfl
        | true => exact absurd hi hc
      · exact h2 z (by omega) hz2

theorem findInsideFromAux_none : ∀ k cx, findInsideFromAux ins k cx = none →
    ∀ z, cx ≤ z → z < cx + k → ins z = false := by
  intro k
  induction k with
  | zero => intro cx h z h1 h2; omega
  | succ k ih =>
    intro cx h z h1 h2
    rw [findInsideFromAux] at h
    by_cases hc : ins cx = true
    · rw [if_pos hc] at h
      exact Option.noConfusion h
    · rw [if_neg hc] at h
      by_cases hz : z = cx
      · subst hz
        cases hi : ins z with
        | false => rfl
        | true => exact absurd hi hc
      · exact ih (cx + 1) h z (by omega) (by omega)

theorem findInsideFrom_found (cx r m : Nat)
    (h : findInsideFrom ins cx r = some m) :
    ins m = true ∧ ∀ z, cx ≤ z → z < m → ins z = false :=
  findInsideFromAux_found ins _ _ _ h

theorem findInsideFrom_none_all (cx r : Nat)
    (h : findInsideFrom ins cx r = none) :
    ∀ z, cx ≤ z → z ≤ r → ins z = false := by
  intro z h1 h2
  exact findInsideFromAux_none ins _ _ h z h1 (by omega)

end Scan

section Fill
variable {S T : Type} (ops : TilesOps S T)

theorem foldl_set_getTile (L : TilesLaws ops) (y : Nat) (color : T) (x' y' : Nat) :
    ∀ (l : List Nat) (s : S),
      ops.getTile (l.foldl (fun s x => ops.setTile s x y color) s) x' y' =
        if y' = y ∧ x' ∈ l ∧ (ops.getTile s x' y').isSome = true then some color
        else ops.getTile s x' y' := by
  intro l
  induction l with
  | nil =>
    intro s
    rw [List.foldl_nil]
    rw [if_neg (by rintro ⟨-, hmem, -⟩; exact List.not_mem_nil x' hmem)]
  | cons x l ih =>
    intro s
    rw [List.foldl_cons, ih]
    by_cases hxy : x' = x ∧ y' = y
    · obtain ⟨rfl, rfl⟩ := hxy
      by_cases hsome : (ops.getTile s x' y').isSome = true
      · have hset := L.get_set_self s x' y' color hsome
        rw [hset, ite_self]
        rw [if_pos (show y' = y' ∧ x' ∈ x' :: l ∧ (ops.getTile s x' y').isSome = true
          from ⟨rfl, List.mem_cons_self x' l, hsome⟩)]
      · have hnone : ops.getTile s x' y' = none :=
          Option.not_isSome_iff_eq_none.1 hsome
        rw [L.set_of_get_none s x' y' color hnone]
        rw [if_neg (show ¬ (y' = y' ∧ x' ∈ l ∧ (ops.getTile s x' y').isSome = true) by
          rintro ⟨-, -, hs⟩
          exact hsome hs)]
        rw [if_neg (show ¬ (y' = y' ∧ x' ∈ x' :: l ∧ (ops.getTile s x' y').isSome = true) by
          rintro ⟨-, -, hs⟩
          exact hsome hs)]
    · have hother : ops.getTile (ops.setTile s x y color) x' y' = ops.getTile s x' y' := by
        apply L.get_set_other
        by_cases h1 : x' = x
        · exact Or.inr (fun h2 => hxy ⟨h1, h2⟩)
        · exact Or.inl h1
      rw [hother]
      by_cases hc : y' = y ∧ x' ∈ l ∧ (ops.getTile s x' y').isSome = true
      · rw [if_pos hc]
        rw [if_pos (show y' = y ∧ x' ∈ x :: l ∧ (ops.getTile s x' y').isSome = true
          from ⟨hc.1, List.mem_cons_of_mem x hc.2.1, hc.2.2⟩)]
      · rw [if_neg hc]
        rw [if_neg (show ¬ (y' = y ∧ x' ∈ x :: l ∧ (ops.getTile s x' y').isSome = true) by
          rintro ⟨hy, hmem, hs⟩
          rcases List.mem_cons.1 hmem with rfl | hmem
          · exact hxy ⟨rfl, hy⟩
          · exact hc ⟨hy, hmem, hs⟩)]

theorem fillSpan_getTile (L : TilesLaws ops) (y : Nat) (color : T) (a b : Nat) (s : S) (x' y' : Nat) :
    ops.getTile (fillSpan ops y color a b s) x' y' =
      if y' = y ∧ a ≤ x' ∧ x' ≤ b ∧ (ops.getTile s x' y').isSome = true then some color
      else ops.getTile s x' y' := by
  unfold fillSpan
  rw [foldl_set_getTile ops L]
  have hmem : x' ∈ List.range' a (b + 1 - a) ↔ a ≤ x' ∧ x' ≤ b := by
    rw [List.mem_range'_1]
    omega
  by_cases hc : y' = y ∧ a ≤ x' ∧ x' ≤ b ∧ (ops.getTile s x' y').isSome = true
  · rw [if_pos ⟨hc.1, hmem.2 ⟨hc.2.1, hc.2.2.1⟩, hc.2.2.2⟩, if_pos hc]
  · rw [if_neg (by
      rintro ⟨h1, h2, h3⟩
      exact hc ⟨h1, (hmem.1 h2).1, (hmem.1 h2).2, h3⟩), if_neg hc]

theorem foldl_set_xBound (L : TilesLaws ops) (y : Nat) (color : T) :
    ∀ (l : List Nat) (s : S),
      ops.xBound (l.foldl (fun s x => ops.setTile s x y color) s) = ops.xBound s := by
  intro l
  induction l with
  | nil => intro s; rfl
  | cons x l ih =>
    intro s
    rw [List.foldl_cons, ih, L.xBound_set]

theorem foldl_set_yBound (L : TilesLaws ops) (y : Nat) (color : T) :
    ∀ (l : List Nat) (s : S),
      ops.yBound (l.foldl (fun s x => ops.setTile s x y color) s) = ops.yBound s := by
  intro l
  induction l with
  | nil => intro s; rfl
  | cons x l ih =>
    intro s
    rw [List.foldl_cons, ih, L.yBound_set]

theorem fillSpan_xBound (L : TilesLaws ops) (y : Nat) (color : T) (a b : Nat) (s : S) :
    ops.xBound (fillSpan ops y color a b s) = ops.xBound s :=
  foldl_set_xBound ops L y color _ s

theorem fillSpan_yBound (L : TilesLaws ops) (y : Nat) (color : T) (a b : Nat) (s : S) :
    ops.yBound (fillSpan ops y color a b s) = ops.yBound s :=
  foldl_set_yBound ops L y color _ s

/-- The flood test of a row fails at and beyond the store's x bound. -/
theorem inside_xBound (L : TilesLaws ops) (s : S) (pt : T → Bool) (y : Nat) :
    ∀ z, ops.xBound s ≤ z → ops.inside s pt y z = false := by
  intro z hz
  unfold TilesOps.inside
  rw [L.get_xBound s z y hz]
  rfl

theorem inside_yBound (L : TilesLaws ops) (s : S) (pt : T → Bool) (y : Nat) (hy : ops.yBound s ≤ y) :
    ∀ z, ops.inside s pt y z = false := by
  intro z
  unfold TilesOps.inside
  rw [L.get_yBound s z y hy]
  rfl

end Fill

/-! ## Flood-fill frame property (C6) -/

section Engine
variable {S T : Type} (ops : TilesOps S T) (pt : T → Bool) (color : T)
  (y : Nat) (d : Dir) (ps2 : Option Nat) (pe2 pr : Nat)

/-- The span found by one child-scan step passes the flood test throughout. -/
theorem childSpan_inside (s : S) (cx xm : Nat)
    (hfind : findInsideFrom (ops.inside s pt y) cx pr = some xm) :
    ∀ z, goLeft (ops.inside s pt y) xm ≤ z →
      z ≤ goRight (ops.inside s pt y) (ops.xBound s) xm →
      ops.inside s pt y z = true := by
  intro z h1 h2
  have hxm := (findInsideFrom_found _ cx pr xm hfind).1
  by_cases hz : z ≤ xm
  · exact goLeft_all_inside _ xm hxm z h1 hz
  · exact goRight_all_inside _ (ops.xBound s) xm hxm z (by omega) h2

/-- The stack parameter of `childGo` is only consed onto: running on an
appended stack appends the same tail to the result. -/
theorem childGo_stack_append :
    ∀ k cx s st1 st2, childGo ops pt color y d ps2 pe2 pr k cx s (st1 ++ st2) =
      ((childGo ops pt color y d ps2 pe2 pr k cx s st1).1,
        (childGo ops pt color y d ps2 pe2 pr k cx s st1).2 ++ st2) := by
  intro k
  induction k with
  | zero => intro cx s st1 st2; rfl
  | succ k ih =>
    intro cx s st1 st2
    rw [childGo, childGo]
    cases hfind : findInsideFrom (ops.inside s pt y) cx pr with
    | none => rfl
    | some xm =>
      simp only
      cases (Dir.not d).step y <;> cases d.step y <;> cases ps2 <;>
        simp only <;> (try split_ifs) <;>
        first
          | exact ih _ _ _ _
          | (simp only [← List.cons_append]; exact ih _ _ _ _)

/-- Filling a span whose tiles all pass the flood test leaves every
predicate-failing tile unchanged. -/
theorem fillSpan_frame (L : TilesLaws ops) (s : S) (a b : Nat)
    (hspan : ∀ z, a ≤ z → z ≤ b → ops.inside s pt y z = true)
    (x' y' : Nat) (v : T) (hv : ops.getTile s x' y' = some v)
    (hbad : pt v = false) :
    ops.getTile (fillSpan ops y color a b s) x' y' = some v := by
  rw [fillSpan_getTile ops L]
  split_ifs with hc
  · exfalso
    obtain ⟨hy, ha, hb, _⟩ := hc
    have hins := hspan x' ha hb
    unfold TilesOps.inside at hins
    rw [hy] at hv
    rw [hv] at hins
    simp only [Option.map_some', Option.getD_some] at hins
    rw [hbad] at hins
    exact Bool.noConfusion hins
  · exact hv

/-- `childGo` leaves every predicate-failing tile unchanged. -/
theorem childGo_frame (L : TilesLaws ops) :
    ∀ k cx s stack x' y' v, ops.getTile s x' y' = some v → pt v = false →
      ops.getTile ((childGo ops pt color y d ps2 pe2 pr k cx s stack).1) x' y'
        = some v := by
  intro k
  induction k with
  | zero => intro cx s stack x' y' v hv _; exact hv
  | succ k ih =>
    intro cx s stack x' y' v hv hbad
    rw [childGo]
    cases hfind : findInsideFrom (ops.inside s pt y) cx pr with
    | none => exact hv
    | some xm =>
      simp only
      exact ih _ _ _ x' y' v
        (fillSpan_frame ops pt color y L s _ _
          (childSpan_inside ops pt y pr s cx xm hfind) x' y' v hv hbad) hbad

/-- The seed-stack loop leaves every predicate-failing tile unchanged. -/
theorem floodLoop_frame (L : TilesLaws ops) :
    ∀ fuel s stack s', floodLoop ops pt color fuel s stack = some s' →
      ∀ x' y' v, ops.getTile s x' y' = some v → pt v = false →
        ops.getTile s' x' y' = some v := by
  intro fuel
  induction fuel with
  | zero =>
    intro s stack s' hrun x' y' v hv _
    cases stack with
    | nil =>
      rw [floodLoop] at hrun
      cases hrun
      exact hv
    | cons a rest => exact Option.noConfusion hrun
  | succ fuel ih =>
    intro s stack s' hrun x' y' v hv hbad
    cases stack with
    | nil =>
      rw [floodLoop] at hrun
      cases hrun
      exact hv
    | cons sd rest =>
      obtain ⟨⟨pl', pr'⟩, yy, dd⟩ := sd
      rw [floodLoop] at hrun
      have h1 : ops.getTile ((childGo ops pt color yy dd
          (if 2 ≤ pl' then some (pl' - 2) else none) (pr' + 2) pr'
          (pr' + 2) pl' s rest).1) x' y' = some v :=
        childGo_frame ops pt color yy dd _ _ pr' L _ pl' s rest x' y' v hv hbad
      exact ih _ _ s' hrun x' y' v h1 hbad
end Engine

section FloodFrame
variable {S T : Type} (ops : TilesOps S T)

/-- `floodFill` leaves every tile whose original value fails the
equivalence predicate against the original start value unchanged. -/
theorem floodFill_frame (L : TilesLaws ops) (fuel : Nat) (s : S)
    (sx sy : Nat) (eqv : T → T → Bool) (color : T) (s' : S)
    (hrun : floodFill ops fuel s sx sy eqv color = some s')
    (t0 : T) (ht0 : ops.getTile s sx sy = some t0)
    (x' y' : Nat) (v : T) (hv : ops.getTile s x' y' = some v)
    (hbad : eqv v t0 = false) :
    ops.getTile s' x' y' = some v := by
  unfold floodFill at hrun
  rw [ht0] at hrun
  simp only at hrun
  cases hexp : expandRange (ops.inside s (fun c => eqv c t0) sy) (ops.xBound s) sx with
  | none =>
    rw [hexp] at hrun
    cases hrun
    exact hv
  | some ab =>
    rw [hexp] at hrun
    simp only at hrun
    have hspan := (expandRange_some _ (ops.xBound s) sx ab.1 ab.2
      (inside_xBound ops L s _ sy) (by rw [hexp])).2.2.1
    exact floodLoop_frame ops (fun c => eqv c t0) color L fuel _ _ s' hrun x' y' v
      (fillSpan_frame ops (fun c => eqv c t0) color sy L s ab.1 ab.2 hspan
        x' y' v hv hbad) hbad
end FloodFrame

section FrameGrid
variable {T : Type}

/-- C6: on the dense grid store, a terminating `flood_fill` run never
changes a tile whose original value fails the equivalence predicate
against the original start-tile value, regardless of where that tile
sits relative to the filled region. -/
theorem c6_flood_fill_frame (fuel : Nat) (g g' : Grid T) (sx sy : Nat)
    (eqv : T → T → Bool) (color : T) (t0 : T)
    (ht0 : g.tileAt sx sy = some t0)
    (hrun : floodFillGrid fuel g sx sy eqv color = some g')
    (x y : Nat) (v : T) (hv : g.tileAt x y = some v)
    (hbad : eqv v t0 = false) :
    g'.tileAt x y = some v :=
  floodFill_frame (gridOps T) (gridLaws T) fuel g sx sy eqv color g' hrun
    t0 ht0 x y v hv hbad

theorem c6_flood_fill_frame_witness :
    (⟨2, 1, [0, 1]⟩ : Grid Nat).tileAt 0 0 = some 0 ∧
    floodFillGrid 10 (⟨2, 1, [0, 1]⟩ : Grid Nat) 0 0 (fun a b => a == b) 5 =
      some ⟨2, 1, [5, 1]⟩ ∧
    (⟨2, 1, [5, 1]⟩ : Grid Nat).tileAt 1 0 = some 1 :=
  ⟨by decide, by decide,
    c6_flood_fill_frame 10 ⟨2, 1, [0, 1]⟩ ⟨2, 1, [5, 1]⟩ 0 0
      (fun a b => a == b) 5 0 (by decide) (by decide) 1 0 1 (by decide)
      (by decide)⟩
end FrameGrid

/-! ## Flood-fill static runs and idempotence (C5) -/

theorem list_set_get_self {α : Type} : ∀ (l : List α) (n : Nat) (a : α),
    l.get? n = some a → l.set n a = l := by
  intro l
  induction l with
  | nil => intro n a h; exact Option.noConfusion h
  | cons x xs ih =>
    intro n a h
    cases n with
    | zero =>
      simp only [List.get?] at h
      cases h
      rfl
    | succ n =>
      simp only [List.get?] at h
      show x :: xs.set n a = x :: xs
      rw [ih n a h]

theorem Grid.setTile_self {T : Type} (g : Grid T) (x y : Nat) (v : T)
    (h : g.tileAt x y = some v) : g.setTile x y v = g := by
  unfold Grid.tileAt at h
  unfold Grid.setTile
  by_cases hx : g.width ≤ x
  · rw [if_pos hx]
  · rw [if_neg hx] at h ⊢
    by_cases hy : g.height ≤ y
    · rw [if_pos hy]
    · rw [if_neg hy] at h ⊢
      show Grid.mk g.width g.height (g.tiles.set (y * g.width + x) v) = g
      rw [list_set_get_self g.tiles _ v h]

section StaticGrid
variable {T : Type} (pt : T → Bool) (color : T)

/-- Filling a span of a grid all of whose span tiles pass the flood test
is the identity when every passing value already equals the fill color. -/
theorem gridFillSpan_static (g : Grid T) (y a b : Nat)
    (hspan : ∀ z, a ≤ z → z ≤ b → (gridOps T).inside g pt y z = true)
    (hstat : ∀ t, pt t = true → t = color) :
    fillSpan (gridOps T) y color a b g = g := by
  unfold fillSpan
  have hmem : ∀ z ∈ List.range' a (b + 1 - a), a ≤ z ∧ z ≤ b := by
    intro z hz
    rw [List.mem_range'_1] at hz
    omega
  generalize hL : List.range' a (b + 1 - a) = l at hmem
  clear hL
  induction l with
  | nil => rfl
  | cons z l ih =>
    rw [List.foldl_cons]
    obtain ⟨h1, h2⟩ := hmem z (List.mem_cons_self z l)
    have hins := hspan z h1 h2
    unfold TilesOps.inside at hins
    have hset : (gridOps T).setTile g z y color = g := by
      cases hg : (gridOps T).getTile g z y with
      | none => rw [hg] at hins; exact Bool.noConfusion hins
      | some t =>
        rw [hg] at hins
        simp only [Option.map_some', Option.getD_some] at hins
        have := hstat t hins
        subst this
        exact Grid.setTile_self g z y t hg
    rw [hset]
    exact ih (fun z hz => hmem z (List.mem_cons_of_mem _ hz))

/-- A `childGo` run whose flood test only accepts the fill color leaves
the grid unchanged. -/
theorem gridChildGo_static (y : Nat) (d : Dir) (ps2 : Option Nat)
    (pe2 pr : Nat) (hstat : ∀ t, pt t = true → t = color) :
    ∀ k cx (g : Grid T) stack,
      (childGo (gridOps T) pt color y d ps2 pe2 pr k cx g stack).1 = g := by
  intro k
  induction k with
  | zero => intro cx g stack; rfl
  | succ k ih =>
    intro cx g stack
    rw [childGo]
    cases hfind : findInsideFrom ((gridOps T).inside g pt y) cx pr with
    | none => rfl
    | some xm =>
      simp only
      rw [gridFillSpan_static pt color g y _ _
        (childSpan_inside (gridOps T) pt y pr g cx xm hfind) hstat]
      exact ih _ g _

/-- A seed-stack loop whose flood test only accepts the fill color leaves
the grid unchanged (when it terminates). -/
theorem gridFloodLoop_static (hstat : ∀ t, pt t = true → t = color) :
    ∀ fuel (g : Grid T) stack g',
      floodLoop (gridOps T) pt color fuel g stack = some g' → g' = g := by
  intro fuel
  induction fuel with
  | zero =>
    intro g stack g' hrun
    cases stack with
    | nil => rw [floodLoop] at hrun; cases hrun; rfl
    | cons a rest => exact Option.noConfusion hrun
  | succ fuel ih =>
    intro g stack g' hrun
    cases stack with
    | nil => rw [floodLoop] at hrun; cases hrun; rfl
    | cons sd rest =>
      obtain ⟨⟨pl', pr'⟩, yy, dd⟩ := sd
      rw [floodLoop] at hrun
      have hg := gridChildGo_static pt color yy dd
        (if 2 ≤ pl' then some (pl' - 2) else none) (pr' + 2) pr' hstat
        (pr' + 2) pl' g rest
      rw [show (childLoop (gridOps T) pt color yy dd
          (if 2 ≤ pl' then some (pl' - 2) else none) (pr' + 2) pr' pl' g rest)
          = (childGo (gridOps T) pt color yy dd
          (if 2 ≤ pl' then some (pl' - 2) else none) (pr' + 2) pr'
          (pr' + 2) pl' g rest) from rfl] at hrun
      rw [hg] at hrun
      exact ih g _ g' hrun
end StaticGrid

section StaticFlood
variable {T : Type}

/-- A terminating `flood_fill` whose predicate accepts (against the start
value) only values equal to the fill color is the identity on the grid. -/
theorem floodFillGrid_static (fuel : Nat) (g g' : Grid T) (sx sy : Nat)
    (eqv : T → T → Bool) (color : T) (t0 : T)
    (ht0 : g.tileAt sx sy = some t0)
    (hstat : ∀ t, eqv t t0 = true → t = color)
    (hrun : floodFillGrid fuel g sx sy eqv color = some g') : g' = g := by
  unfold floodFillGrid floodFill at hrun
  rw [show (gridOps T).getTile g sx sy = g.tileAt sx sy from rfl, ht0] at hrun
  simp only at hrun
  cases hexp : expandRange ((gridOps T).inside g (fun c => eqv c t0) sy)
      ((gridOps T).xBound g) sx with
  | none => rw [hexp] at hrun; cases hrun; rfl
  | some ab =>
    rw [hexp] at hrun
    simp only at hrun
    have hspan := (expandRange_some _ ((gridOps T).xBound g) sx ab.1 ab.2
      (inside_xBound (gridOps T) (gridLaws T) g _ sy) hexp).2.2.1
    rw [gridFillSpan_static (fun c => eqv c t0) color g sy ab.1 ab.2 hspan
      hstat] at hrun
    exact gridFloodLoop_static (fun c => eqv c t0) color hstat fuel g _ g' hrun
end StaticFlood

section Vals
variable {S T : Type} (ops : TilesOps S T) (pt : T → Bool) (color : T)
  (y : Nat) (d : Dir) (ps2 : Option Nat) (pe2 pr : Nat)

theorem fillSpan_keep_color (L : TilesLaws ops) (s : S) (a b x' y' : Nat)
    (h : ops.getTile s x' y' = some color) :
    ops.getTile (fillSpan ops y color a b s) x' y' = some color := by
  rw [fillSpan_getTile ops L]
  split_ifs with hc
  · rfl
  · exact h

theorem childGo_keep_color (L : TilesLaws ops) :
    ∀ k cx s stack x' y', ops.getTile s x' y' = some color →
      ops.getTile ((childGo ops pt color y d ps2 pe2 pr k cx s stack).1) x' y'
        = some color := by
  intro k
  induction k with
  | zero => intro cx s stack x' y' h; exact h
  | succ k ih =>
    intro cx s stack x' y' h
    rw [childGo]
    cases hfind : findInsideFrom (ops.inside s pt y) cx pr with
    | none => exact h
    | some xm =>
      simp only
      exact ih _ _ _ x' y' (fillSpan_keep_color ops color y L s _ _ x' y' h)

theorem floodLoop_keep_color (L : TilesLaws ops) :
    ∀ fuel s stack s', floodLoop ops pt color fuel s stack = some s' →
      ∀ x' y', ops.getTile s x' y' = some color →
        ops.getTile s' x' y' = some color := by
  intro fuel
  induction fuel with
  | zero =>
    intro s stack s' hrun x' y' h
    cases stack with
    | nil => rw [floodLoop] at hrun; cases hrun; exact h
    | cons a rest => exact Option.noConfusion hrun
  | succ fuel ih =>
    intro s stack s' hrun x' y' h
    cases stack with
    | nil => rw [floodLoop] at hrun; cases hrun; exact h
    | cons sd rest =>
      obtain ⟨⟨pl', pr'⟩, yy, dd⟩ := sd
      rw [floodLoop] at hrun
      have h1 : ops.getTile ((childGo ops pt color yy dd
          (if 2 ≤ pl' then some (pl' - 2) else none) (pr' + 2) pr'
          (pr' + 2) pl' s rest).1) x' y' = some color :=
        childGo_keep_color ops pt color yy dd _ _ pr' L _ pl' s rest x' y' h
      exact ih _ _ s' hrun x' y' h1
end Vals

section FillsStart
variable {T : Type}

/-- A successful flood fill whose predicate accepts the start value against
itself writes the fill color at the start tile. -/
theorem floodFillGrid_fills_start (fuel : Nat) (g g₁ : Grid T) (sx sy : Nat)
    (eqv : T → T → Bool) (color : T) (t0 : T)
    (ht0 : g.tileAt sx sy = some t0) (hself : eqv t0 t0 = true)
    (hrun : floodFillGrid fuel g sx sy eqv color = some g₁) :
    g₁.tileAt sx sy = some color := by
  unfold floodFillGrid floodFill at hrun
  rw [show (gridOps T).getTile g sx sy = g.tileAt sx sy from rfl, ht0] at hrun
  simp only at hrun
  have hins : (gridOps T).inside g (fun c => eqv c t0) sy sx = true := by
    unfold TilesOps.inside
    rw [show (gridOps T).getTile g sx sy = g.tileAt sx sy from rfl, ht0]
    simp only [Option.map_some', Option.getD_some]
    exact hself
  cases hexp : expandRange ((gridOps T).inside g (fun c => eqv c t0) sy)
      ((gridOps T).xBound g) sx with
  | none =>
    have := expandRange_none _ ((gridOps T).xBound g) sx hexp
    rw [hins] at this
    exact Bool.noConfusion this
  | some ab =>
    rw [hexp] at hrun
    simp only at hrun
    obtain ⟨ha, hb, _, _, _⟩ := expandRange_some _ ((gridOps T).xBound g) sx
      ab.1 ab.2 (inside_xBound (gridOps T) (gridLaws T) g _ sy) hexp
    have h1 : (gridOps T).getTile
        (fillSpan (gridOps T) sy color ab.1 ab.2 g) sx sy = some color := by
      rw [fillSpan_getTile (gridOps T) (gridLaws T)]
      rw [if_pos (show sy = sy ∧ ab.1 ≤ sx ∧ sx ≤ ab.2 ∧
        ((gridOps T).getTile g sx sy).isSome = true from
        ⟨rfl, ha, hb, by rw [show (gridOps T).getTile g sx sy
          = g.tileAt sx sy from rfl, ht0]; rfl⟩)]
    exact floodLoop_keep_color (gridOps T) (fun c => eqv c t0) color
      (gridLaws T) fuel _ _ g₁ hrun sx sy h1

/-- C5 (amended): when the equivalence predicate is equality, re-running a
terminating flood fill with the same start, predicate and fill value leaves
the grid unchanged, whenever the second run also terminates.  (The original
claim fails for non-symmetric predicates, and the second run need not
terminate even when the first does.) -/
theorem c5_flood_fill_rerun_noop (fuel1 fuel2 : Nat) (g g₁ g₂ : Grid T)
    (sx sy : Nat) (eqv : T → T → Bool) (color : T)
    (heq : ∀ a b, eqv a b = true ↔ a = b)
    (h1 : floodFillGrid fuel1 g sx sy eqv color = some g₁)
    (h2 : floodFillGrid fuel2 g₁ sx sy eqv color = some g₂) :
    g₂ = g₁ := by
  cases ht0 : g.tileAt sx sy with
  | none =>
    have hg1 : g₁ = g := by
      unfold floodFillGrid floodFill at h1
      rw [show (gridOps T).getTile g sx sy = g.tileAt sx sy from rfl, ht0] at h1
      cases h1
      rfl
    subst hg1
    unfold floodFillGrid floodFill at h2
    rw [show (gridOps T).getTile g₁ sx sy = g₁.tileAt sx sy from rfl, ht0] at h2
    cases h2
    rfl
  | some t0 =>
    have hstart : g₁.tileAt sx sy = some color :=
      floodFillGrid_fills_start fuel1 g g₁ sx sy eqv color t0 ht0
        ((heq t0 t0).mpr rfl) h1
    exact floodFillGrid_static fuel2 g₁ g₂ sx sy eqv color color hstart
      (fun t ht => (heq t color).mp ht) h2
end FillsStart

/-- C5, counterexample: with an asymmetric predicate the second identical
flood-fill run changes the grid again, so the composition of two identical
fills differs from one fill. -/
theorem c5_flood_fill_counterexample :
    floodFillGrid 10 (⟨3, 1, [0, 0, 2]⟩ : Grid Nat) 0 0
      (fun a b => a == b || (a == 2 && b == 1)) 1 = some ⟨3, 1, [1, 1, 2]⟩ ∧
    floodFillGrid 10 (⟨3, 1, [1, 1, 2]⟩ : Grid Nat) 0 0
      (fun a b => a == b || (a == 2 && b == 1)) 1 = some ⟨3, 1, [1, 1, 1]⟩ ∧
    (⟨3, 1, [1, 1, 1]⟩ : Grid Nat) ≠ (⟨3, 1, [1, 1, 2]⟩ : Grid Nat) := by
  decide

theorem c5_flood_fill_rerun_noop_witness :
    (∀ a b : Bool, (a == b) = true ↔ a = b) ∧
    floodFillGrid 10 (⟨2, 1, [false, true]⟩ : Grid Bool)
      0 0 (fun a b => a == b) true = some ⟨2, 1, [true, true]⟩ ∧
    floodFillGrid 10 (⟨2, 1, [true, true]⟩ : Grid Bool)
      0 0 (fun a b => a == b) true = some ⟨2, 1, [true, true]⟩ ∧
    (⟨2, 1, [true, true]⟩ : Grid Bool) = ⟨2, 1, [true, true]⟩ :=
  ⟨by decide, by decide, by decide,
    c5_flood_fill_rerun_noop 10 10 ⟨2, 1, [false, true]⟩
      ⟨2, 1, [true, true]⟩ ⟨2, 1, [true, true]⟩ 0 0 (fun a b => a == b)
      true (by decide) (by decide) (by decide)⟩

/-! ## Fill-loop nontermination and termination (C4) -/

theorem pt0_static : ∀ t, pt0 t = true → t = 0 := by
  intro t ht
  unfold pt0 at ht
  simpa using ht

theorem ringCyc_step : ∀ sd ∈ ringCyc, ∃ sd' ∈ pushesOf sd, sd' ∈ ringCyc := by
  decide

theorem ringLoop_diverges : ∀ fuel st, (∃ sd ∈ st, sd ∈ ringCyc) →
    floodLoop (gridOps Nat) pt0 0 fuel ring33 st = none := by
  intro fuel
  induction fuel with
  | zero =>
    intro st h
    obtain ⟨sd, hmem, _⟩ := h
    cases st with
    | nil => exact absurd hmem (List.not_mem_nil sd)
    | cons a rest => rfl
  | succ fuel ih =>
    intro st h
    obtain ⟨sd, hmem, hcyc⟩ := h
    cases st with
    | nil => exact absurd hmem (List.not_mem_nil sd)
    | cons hd rest =>
      obtain ⟨⟨pl, pr⟩, yy, dd⟩ := hd
      rw [floodLoop]
      have hres : childLoop (gridOps Nat) pt0 0 yy dd
          (if 2 ≤ pl then some (pl - 2) else none) (pr + 2) pr pl ring33 rest
          = (ring33, pushesOf ((pl, pr), yy, dd) ++ rest) := by
        have h1 : childGo (gridOps Nat) pt0 0 yy dd
            (if 2 ≤ pl then some (pl - 2) else none) (pr + 2) pr (pr + 2) pl
            ring33 rest
            = ((childGo (gridOps Nat) pt0 0 yy dd
                (if 2 ≤ pl then some (pl - 2) else none) (pr + 2) pr (pr + 2)
                pl ring33 []).1,
              (childGo (gridOps Nat) pt0 0 yy dd
                (if 2 ≤ pl then some (pl - 2) else none) (pr + 2) pr (pr + 2)
                pl ring33 []).2 ++ rest) :=
          childGo_stack_append (gridOps Nat) pt0 0 yy dd
            (if 2 ≤ pl then some (pl - 2) else none) (pr + 2) pr (pr + 2) pl
            ring33 [] rest
        have h2 := gridChildGo_static pt0 0 yy dd
          (if 2 ≤ pl then some (pl - 2) else none) (pr + 2) pr pt0_static
          (pr + 2) pl ring33 []
        show childGo (gridOps Nat) pt0 0 yy dd
          (if 2 ≤ pl then some (pl - 2) else none) (pr + 2) pr (pr + 2) pl
          ring33 rest = _
        rw [h1, h2]
        rfl
      show floodLoop (gridOps Nat) pt0 0 fuel
        (childLoop (gridOps Nat) pt0 0 yy dd
          (if 2 ≤ pl then some (pl - 2) else none) (pr + 2) pr pl ring33
          rest).1
        (childLoop (gridOps Nat) pt0 0 yy dd
          (if 2 ≤ pl then some (pl - 2) else none) (pr + 2) pr pl ring33
          rest).2 = none
      rw [hres]
      rcases List.mem_cons.1 hmem with heq | hrest
      · obtain ⟨sd', hmem', hcyc'⟩ := ringCyc_step sd hcyc
        subst heq
        exact ih _ ⟨sd', List.mem_append_left rest hmem', hcyc'⟩
      · exact ih _ ⟨sd, List.mem_append_right _ hrest, hcyc⟩

/-- C4, counterexample. -/
theorem c4_flood_fill_counterexample :
    ¬ ∃ fuel g', floodFillGrid fuel ring33 0 0 (fun a b => a == b) 0
      = some g' := by
  rintro ⟨fuel, g', h⟩
  have hconv : floodFillGrid fuel ring33 0 0 (fun a b => a == b) 0
      = floodLoop (gridOps Nat) pt0 0 fuel ring33 [((0, 2), 1, Dir.up)] := rfl
  rw [hconv] at h
  rw [ringLoop_diverges fuel [((0, 2), 1, Dir.up)]
    ⟨((0, 2), 1, Dir.up), List.mem_cons_self _ _, by decide⟩] at h
  exact Option.noConfusion h

section Measure
variable {T : Type} (pt : T → Bool) (color : T)

theorem inside_bounds (g : Grid T) (y x : Nat)
    (h : (gridOps T).inside g pt y x = true) : x < g.width ∧ y < g.height := by
  unfold TilesOps.inside at h
  constructor
  · by_contra hx
    rw [(gridLaws T).get_xBound g x y (Nat.le_of_not_lt hx)] at h
    exact Bool.noConfusion h
  · by_contra hy
    rw [(gridLaws T).get_yBound g x y (Nat.le_of_not_lt hy)] at h
    exact Bool.noConfusion h

theorem fillSpan_inside_mono (hcol : pt color = false) (g : Grid T)
    (yy a b : Nat) (x y : Nat)
    (h : (gridOps T).inside (fillSpan (gridOps T) yy color a b g) pt y x
      = true) :
    (gridOps T).inside g pt y x = true := by
  unfold TilesOps.inside at h ⊢
  rw [fillSpan_getTile (gridOps T) (gridLaws T)] at h
  split_ifs at h with hc
  · simp only [Option.map_some', Option.getD_some] at h
    rw [hcol] at h
    exact Bool.noConfusion h
  · exact h

theorem countLive_fillSpan_lt (hcol : pt color = false) (g : Grid T)
    (yy a b xm : Nat) (hxm : (gridOps T).inside g pt yy xm = true)
    (ha : a ≤ xm) (hb : xm ≤ b) :
    countLive (fillSpan (gridOps T) yy color a b g) pt < countLive g pt := by
  unfold countLive
  have hw : (fillSpan (gridOps T) yy color a b g).width = g.width :=
    fillSpan_xBound (gridOps T) (gridLaws T) yy color a b g
  have hh : (fillSpan (gridOps T) yy color a b g).height = g.height :=
    fillSpan_yBound (gridOps T) (gridLaws T) yy color a b g
  rw [hw, hh]
  apply Finset.card_lt_card
  rw [Finset.ssubset_iff_of_subset]
  · refine ⟨(xm, yy), ?_, ?_⟩
    · rw [Finset.mem_filter]
      refine ⟨?_, hxm⟩
      rw [Finset.mem_product, Finset.mem_range, Finset.mem_range]
      exact ⟨(inside_bounds pt g yy xm hxm).1, (inside_bounds pt g yy xm hxm).2⟩
    · rw [Finset.mem_filter]
      rintro ⟨-, hins⟩
      unfold TilesOps.inside at hins
      rw [fillSpan_getTile (gridOps T) (gridLaws T)] at hins
      rw [if_pos (show yy = yy ∧ a ≤ xm ∧ xm ≤ b ∧
          ((gridOps T).getTile g xm yy).isSome = true from
        ⟨rfl, ha, hb, by
          unfold TilesOps.inside at hxm
          cases hg : (gridOps T).getTile g xm yy with
          | none => rw [hg] at hxm; exact Bool.noConfusion hxm
          | some t => rfl⟩)] at hins
      simp only [Option.map_some', Option.getD_some] at hins
      rw [hcol] at hins
      exact Bool.noConfusion hins
  · intro p hp
    rw [Finset.mem_filter] at hp ⊢
    exact ⟨hp.1, fillSpan_inside_mono pt color hcol g yy a b p.1 p.2 hp.2⟩
end Measure

section Measure2
variable {T : Type} (pt : T → Bool) (color : T)

theorem childGo_measure (yy : Nat) (dd : Dir) (ps2 : Option Nat)
    (pe2 pr : Nat) (hcol : pt color = false) :
    ∀ k cx (g : Grid T) stack,
      3 * countLive (childGo (gridOps T) pt color yy dd ps2 pe2 pr
          k cx g stack).1 pt
        + ((childGo (gridOps T) pt color yy dd ps2 pe2 pr k cx g stack).2).length
      ≤ 3 * countLive g pt + stack.length := by
  intro k
  induction k with
  | zero => intro cx g stack; exact Nat.le_refl _
  | succ k ih =>
    intro cx g stack
    rw [childGo]
    cases hfind : findInsideFrom ((gridOps T).inside g pt yy) cx pr with
    | none => exact Nat.le_refl _
    | some xm =>
      simp only
      have hxm := (findInsideFrom_found _ cx pr xm hfind).1
      have hlt := countLive_fillSpan_lt pt color hcol g yy
        (goLeft ((gridOps T).inside g pt yy) xm)
        (goRight ((gridOps T).inside g pt yy) ((gridOps T).xBound g) xm) xm hxm
        (goLeft_le _ xm) (goRight_ge _ _ xm)
      refine le_trans (ih _ _ _) ?_
      cases hd2 : Dir.step (Dir.not dd) yy <;> cases hd1 : Dir.step dd yy <;>
        cases ps2 <;> simp only [List.length_cons] <;>
        (try split_ifs) <;> (try simp only [List.length_cons]) <;> omega

theorem floodLoop_terminates (hcol : pt color = false) :
    ∀ n (g : Grid T) stack, 3 * countLive g pt + stack.length ≤ n →
      ∃ g', floodLoop (gridOps T) pt color n g stack = some g' := by
  intro n
  induction n with
  | zero =>
    intro g stack h
    cases stack with
    | nil => exact ⟨g, rfl⟩
    | cons a rest =>
      simp only [List.length_cons] at h
      omega
  | succ n ih =>
    intro g stack h
    cases stack with
    | nil => exact ⟨g, rfl⟩
    | cons hd rest =>
      obtain ⟨⟨pl, pr⟩, yy, dd⟩ := hd
      rw [floodLoop]
      have hm := childGo_measure pt color yy dd
        (if 2 ≤ pl then some (pl - 2) else none) (pr + 2) pr hcol
        (pr + 2) pl g rest
      have h2 : 3 * countLive g pt + rest.length ≤ n := by
        simp only [List.length_cons] at h
        omega
      exact ih _ _ (le_trans hm h2)
end Measure2

section Terminates
variable {T : Type}

/-- C4 (amended): flood fill terminates whenever the fill value fails the
equivalence predicate against the start value (in particular whenever the
start tile is absent). -/
theorem c4_flood_fill_terminates (g : Grid T) (sx sy : Nat)
    (eqv : T → T → Bool) (color : T)
    (h : ∀ t0, g.tileAt sx sy = some t0 → eqv color t0 = false) :
    ∃ fuel g', floodFillGrid fuel g sx sy eqv color = some g' := by
  cases ht : g.tileAt sx sy with
  | none =>
    refine ⟨0, g, ?_⟩
    unfold floodFillGrid floodFill
    rw [show (gridOps T).getTile g sx sy = g.tileAt sx sy from rfl, ht]
  | some t0 =>
    have hcol : (fun c => eqv c t0) color = false := h t0 ht
    unfold floodFillGrid floodFill
    rw [show (gridOps T).getTile g sx sy = g.tileAt sx sy from rfl, ht]
    simp only
    cases hexp : expandRange ((gridOps T).inside g (fun c => eqv c t0) sy)
        ((gridOps T).xBound g) sx with
    | none => exact ⟨0, g, rfl⟩
    | some ab =>
      simp only
      let stack₁ : List Seed := match Dir.up.step sy with
        | some uy => [(ab, uy, Dir.up)]
        | none => []
      let stack₂ : List Seed := match Dir.down.step sy with
        | some dy => (ab, dy, Dir.down) :: stack₁
        | none => stack₁
      obtain ⟨g', hg'⟩ := floodLoop_terminates (fun c => eqv c t0) color hcol
        (3 * countLive (fillSpan (gridOps T) sy color ab.1 ab.2 g)
          (fun c => eqv c t0) + stack₂.length)
        (fillSpan (gridOps T) sy color ab.1 ab.2 g) stack₂ (Nat.le_refl _)
      exact ⟨_, g', hg'⟩

theorem c4_flood_fill_terminates_witness :
    (∀ t0, (⟨2, 1, [0, 0]⟩ : Grid Nat).tileAt 0 0 = some t0 →
      ((1 : Nat) == t0) = false) ∧
    (∃ fuel g', floodFillGrid fuel (⟨2, 1, [0, 0]⟩ : Grid Nat) 0 0
      (fun a b => a == b) 1 = some g') :=
  ⟨fun t0 h => by
      have h2 : (some 0 : Option Nat) = some t0 := h
      cases h2
      decide,
    c4_flood_fill_terminates ⟨2, 1, [0, 0]⟩ 0 0 (fun a b => a == b) 1
      (fun t0 h => by
        have h2 : (some 0 : Option Nat) = some t0 := h
        cases h2
        decide)⟩
end Terminates

/-! ## Flood-fill completeness (C1) -/

section Writes
variable {S T : Type} (ops : TilesOps S T) (pt : T → Bool) (color : T)
  (y : Nat) (d : Dir) (ps2 : Option Nat) (pe2 pr : Nat)

/-- `fillSpan` only writes the fill color, only on its own row, and only
at tiles passing the flood test (spans filled by the scan are all-inside). -/
theorem fillSpan_writes (L : TilesLaws ops) (s : S) (a b : Nat)
    (hspan : ∀ z, a ≤ z → z ≤ b → ops.inside s pt y z = true) (x yf : Nat) :
    ops.getTile (fillSpan ops y color a b s) x yf = ops.getTile s x yf ∨
      (yf = y ∧ ops.getTile (fillSpan ops y color a b s) x yf = some color ∧
        ops.inside s pt y x = true) := by
  rw [fillSpan_getTile ops L]
  split_ifs with hc
  · right
    obtain ⟨h1, h2, h3, _⟩ := hc
    exact ⟨h1, rfl, h1 ▸ hspan x h2 h3⟩
  · left
    rfl

/-- `childGo` only writes the fill color, only on its scan row, and only at
tiles that passed the flood test at the moment of writing (hence tiles that
passed it in the starting state, by antitonicity). -/
theorem childGo_writes (L : TilesLaws ops) (hcol : pt color = false) :
    ∀ k cx s stack x yf,
      ops.getTile ((childGo ops pt color y d ps2 pe2 pr k cx s stack).1) x yf
          = ops.getTile s x yf ∨
        (yf = y ∧
          ops.getTile ((childGo ops pt color y d ps2 pe2 pr k cx s stack).1)
            x yf = some color ∧
          ops.inside s pt y x = true) := by
  intro k
  induction k with
  | zero => intro cx s stack x yf; left; rfl
  | succ k ih =>
    intro cx s stack x yf
    rw [childGo]
    cases hfind : findInsideFrom (ops.inside s pt y) cx pr with
    | none => left; rfl
    | some xm =>
      simp only
      have hspan := childSpan_inside ops pt y pr s cx xm hfind
      rcases ih (goRight (ops.inside s pt y) (ops.xBound s) xm + 2)
          (fillSpan ops y color (goLeft (ops.inside s pt y) xm)
            (goRight (ops.inside s pt y) (ops.xBound s) xm) s) _ x yf with
        h | ⟨h1, h2, h3⟩
      · rw [h]
        rcases fillSpan_writes ops pt color y L s _ _ hspan x yf with
          h' | ⟨h1, h2, h3⟩
        · left; exact h'
        · right; exact ⟨h1, h2, h3⟩
      · right
        refine ⟨h1, h2, ?_⟩
        subst h1
        unfold TilesOps.inside at h3 ⊢
        rw [fillSpan_getTile ops L] at h3
        split_ifs at h3 with hc
        · simp only [Option.map_some', Option.getD_some] at h3
          rw [hcol] at h3
          exact Bool.noConfusion h3
        · exact h3

/-- Liveness (the flood test) is antitone along a `childGo` run. -/
theorem childGo_live_mono (L : TilesLaws ops) (hcol : pt color = false)
    (k cx : Nat) (s : S) (stack : List Seed) (x yf : Nat)
    (h : ops.inside ((childGo ops pt color y d ps2 pe2 pr k cx s stack).1)
      pt yf x = true) :
    ops.inside s pt yf x = true := by
  rcases childGo_writes ops pt color y d ps2 pe2 pr L hcol k cx s stack x yf
    with h' | ⟨h1, h2, h3⟩
  · unfold TilesOps.inside at h ⊢
    rw [h'] at h
    exact h
  · unfold TilesOps.inside at h
    rw [h2] at h
    simp only [Option.map_some', Option.getD_some] at h
    rw [hcol] at h
    exact Bool.noConfusion h
end Writes

section Covers
variable {S T : Type} (ops : TilesOps S T) (pt : T → Bool) (color : T)
  (y : Nat) (d : Dir) (ps2 : Option Nat) (pe2 pr : Nat)

/-- The scan loop fills wholesale every all-live horizontal interval that
meets the remaining scan window `[cx, pr]`. -/
theorem childGo_covers (L : TilesLaws ops) :
    ∀ k cx (s : S) stack u v, pr + 2 ≤ 2 * k + cx →
      (∀ z, u ≤ z → z ≤ v → ops.inside s pt y z = true) →
      (∃ w, u ≤ w ∧ w ≤ v ∧ cx ≤ w ∧ w ≤ pr) →
      ∀ z, u ≤ z → z ≤ v →
        ops.getTile ((childGo ops pt color y d ps2 pe2 pr k cx s stack).1) z y
          = some color := by
  intro k
  induction k with
  | zero =>
    intro cx s stack u v hfuel hall hw z hz1 hz2
    obtain ⟨w, _, _, hw1, hw2⟩ := hw
    omega
  | succ k ih =>
    intro cx s stack u v hfuel hall hw z hz1 hz2
    rw [childGo]
    cases hfind : findInsideFrom (ops.inside s pt y) cx pr with
    | none =>
      obtain ⟨w, hwu, hwv, hw1, hw2⟩ := hw
      have := findInsideFrom_none_all _ cx pr hfind w hw1 hw2
      rw [hall w hwu hwv] at this
      exact Bool.noConfusion this
    | some xm =>
      simp only
      have hxm := (findInsideFrom_found _ cx pr xm hfind).1
      have hlow := (findInsideFrom_found _ cx pr xm hfind).2
      have hcxm := findInsideFrom_ge _ cx pr xm hfind
      have hxmr := findInsideFrom_le _ cx pr xm hfind
      have ha' := goLeft_le (ops.inside s pt y) xm
      have hb' := goRight_ge (ops.inside s pt y) (ops.xBound s) xm
      have hspan := childSpan_inside ops pt y pr s cx xm hfind
      have flankL := goLeft_flank (ops.inside s pt y) xm
      have flankR := goRight_flank (ops.inside s pt y) (ops.xBound s) xm
        (inside_xBound ops L s pt y)
      by_cases hint : ∃ q, u ≤ q ∧ q ≤ v ∧
          goLeft (ops.inside s pt y) xm ≤ q ∧
          q ≤ goRight (ops.inside s pt y) (ops.xBound s) xm
      · obtain ⟨q, hq1, hq2, hq3, hq4⟩ := hint
        have hua : goLeft (ops.inside s pt y) xm ≤ u := by
          by_contra hc
          have h1 : 1 ≤ goLeft (ops.inside s pt y) xm := by omega
          have h2 := hall (goLeft (ops.inside s pt y) xm - 1) (by omega)
            (by omega)
          rw [flankL h1] at h2
          exact Bool.noConfusion h2
        have hvb : v ≤ goRight (ops.inside s pt y) (ops.xBound s) xm := by
          by_contra hc
          have h2 := hall (goRight (ops.inside s pt y) (ops.xBound s) xm + 1)
            (by omega) (by omega)
          rw [flankR] at h2
          exact Bool.noConfusion h2
        have hfill : ops.getTile (fillSpan ops y color
            (goLeft (ops.inside s pt y) xm)
            (goRight (ops.inside s pt y) (ops.xBound s) xm) s) z y
            = some color := by
          rw [fillSpan_getTile ops L]
          rw [if_pos (show y = y ∧ goLeft (ops.inside s pt y) xm ≤ z ∧
              z ≤ goRight (ops.inside s pt y) (ops.xBound s) xm ∧
              (ops.getTile s z y).isSome = true from
            ⟨rfl, by omega, by omega, by
              have hz := hall z hz1 hz2
              unfold TilesOps.inside at hz
              cases hg : ops.getTile s z y with
              | none => rw [hg] at hz; exact Bool.noConfusion hz
              | some t => rfl⟩)]
        exact childGo_keep_color ops pt color y d ps2 pe2 pr L k _ _ _ z y hfill
      · obtain ⟨w, hwu, hwv, hw1, hw2⟩ := hw
        have hwxm : xm ≤ w := by
          by_contra hc
          have := hlow w hw1 (by omega)
          rw [hall w hwu hwv] at this
          exact Bool.noConfusion this
        have hwb : goRight (ops.inside s pt y) (ops.xBound s) xm + 2 ≤ w := by
          by_cases hcb : w ≤ goRight (ops.inside s pt y) (ops.xBound s) xm
          · exact absurd ⟨w, hwu, hwv, by omega, hcb⟩ hint
          · by_cases hce : w = goRight (ops.inside s pt y) (ops.xBound s) xm + 1
            · have h2 := hall w hwu hwv
              rw [hce, flankR] at h2
              exact Bool.noConfusion h2
            · omega
        have hall' : ∀ z', u ≤ z' → z' ≤ v →
            ops.inside (fillSpan ops y color (goLeft (ops.inside s pt y) xm)
              (goRight (ops.inside s pt y) (ops.xBound s) xm) s) pt y z'
              = true := by
          intro z' h1 h2
          have hdis : ¬ (goLeft (ops.inside s pt y) xm ≤ z' ∧
              z' ≤ goRight (ops.inside s pt y) (ops.xBound s) xm) := by
            intro hc
            exact hint ⟨z', h1, h2, hc.1, hc.2⟩
          unfold TilesOps.inside
          rw [fillSpan_getTile ops L]
          rw [if_neg (by
            rintro ⟨-, hc1, hc2, -⟩
            exact hdis ⟨hc1, hc2⟩)]
          exact hall z' h1 h2
        exact ih (goRight (ops.inside s pt y) (ops.xBound s) xm + 2) _ _ u v
          (by omega) hall' ⟨w, hwu, hwv, hwb, hw2⟩ z hz1 hz2
end Covers

section Horiz
variable {S T : Type} (ops : TilesOps S T) (pt : T → Bool) (color : T)
  (y : Nat) (d : Dir) (ps2 : Option Nat) (pe2 pr : Nat)

theorem fillSpan_live_mono (L : TilesLaws ops) (hcol : pt color = false)
    (s : S) (a b x yf : Nat)
    (h : ops.inside (fillSpan ops y color a b s) pt yf x = true) :
    ops.inside s pt yf x = true := by
  unfold TilesOps.inside at h ⊢
  rw [fillSpan_getTile ops L] at h
  split_ifs at h with hc
  · simp only [Option.map_some', Option.getD_some] at h
    rw [hcol] at h
    exact Bool.noConfusion h
  · exact h

/-- After a scan run, no tile that is still live sits horizontally next to
a tile that the run turned into the fill color: spans are filled with dead
flanks, and liveness only decreases. -/
theorem childGo_horiz (L : TilesLaws ops) (hcol : pt color = false) :
    ∀ k cx (s : S) stack x x₂ yf,
      ops.inside ((childGo ops pt color y d ps2 pe2 pr k cx s stack).1)
        pt yf x = true →
      (x₂ = x + 1 ∨ x = x₂ + 1) →
      ops.getTile ((childGo ops pt color y d ps2 pe2 pr k cx s stack).1)
        x₂ yf = some color →
      ops.getTile s x₂ yf = some color := by
  intro k
  induction k with
  | zero => intro cx s stack x x₂ yf _ _ h3; exact h3
  | succ k ih =>
    intro cx s stack x x₂ yf h1 h2 h3
    rw [childGo] at h1 h3
    cases hfind : findInsideFrom (ops.inside s pt y) cx pr with
    | none => rw [hfind] at h3; exact h3
    | some xm =>
      rw [hfind] at h1 h3
      simp only at h1 h3
      have hstep := ih (goRight (ops.inside s pt y) (ops.xBound s) xm + 2)
        (fillSpan ops y color (goLeft (ops.inside s pt y) xm)
          (goRight (ops.inside s pt y) (ops.xBound s) xm) s) _ x x₂ yf h1 h2 h3
      have hlive' : ops.inside (fillSpan ops y color
          (goLeft (ops.inside s pt y) xm)
          (goRight (ops.inside s pt y) (ops.xBound s) xm) s) pt yf x = true :=
        childGo_live_mono ops pt color y d ps2 pe2 pr L hcol k _ _ _ x yf h1
      have hlive : ops.inside s pt yf x = true :=
        fillSpan_live_mono ops pt color y L hcol s _ _ x yf hlive'
      rw [fillSpan_getTile ops L] at hstep
      split_ifs at hstep with hc
      · exfalso
        obtain ⟨hyf, hax2, hx2b, hsome⟩ := hc
        rw [hyf] at hlive hlive' hsome
        have flankL := goLeft_flank (ops.inside s pt y) xm
        have flankR := goRight_flank (ops.inside s pt y) (ops.xBound s) xm
          (inside_xBound ops L s pt y)
        have hxout : ¬ (goLeft (ops.inside s pt y) xm ≤ x ∧
            x ≤ goRight (ops.inside s pt y) (ops.xBound s) xm) := by
          rintro ⟨hax, hxb⟩
          have hlive2 : ((ops.getTile (fillSpan ops y color
              (goLeft (ops.inside s pt y) xm)
              (goRight (ops.inside s pt y) (ops.xBound s) xm) s) x y).map
              pt).getD false = true := hlive'
          rw [fillSpan_getTile ops L] at hlive2
          by_cases hsome' : (ops.getTile s x y).isSome = true
          · rw [if_pos (show y = y ∧ goLeft (ops.inside s pt y) xm ≤ x ∧
                x ≤ goRight (ops.inside s pt y) (ops.xBound s) xm ∧
                (ops.getTile s x y).isSome = true from
              ⟨rfl, hax, hxb, hsome'⟩)] at hlive2
            simp only [Option.map_some', Option.getD_some] at hlive2
            rw [hcol] at hlive2
            exact Bool.noConfusion hlive2
          · unfold TilesOps.inside at hlive
            cases hg : ops.getTile s x y with
            | none => rw [hg] at hlive; exact Bool.noConfusion hlive
            | some t => rw [hg] at hsome'; exact hsome' rfl
        rcases h2 with h2 | h2
        · have hx : x + 1 = goLeft (ops.inside s pt y) xm ∨
              x = goRight (ops.inside s pt y) (ops.xBound s) xm + 1 := by
            omega
          rcases hx with hx | hx
          · have h1a : 1 ≤ goLeft (ops.inside s pt y) xm := by omega
            have := flankL h1a
            rw [show goLeft (ops.inside s pt y) xm - 1 = x from by omega]
              at this
            rw [hlive] at this
            exact Bool.noConfusion this
          · rw [hx] at hlive
            rw [flankR] at hlive
            exact Bool.noConfusion hlive
        · have hx : x + 1 = goLeft (ops.inside s pt y) xm ∨
              x = goRight (ops.inside s pt y) (ops.xBound s) xm + 1 := by
            omega
          rcases hx with hx | hx
          · have h1a : 1 ≤ goLeft (ops.inside s pt y) xm := by omega
            have := flankL h1a
            rw [show goLeft (ops.inside s pt y) xm - 1 = x from by omega]
              at this
            rw [hlive] at this
            exact Bool.noConfusion this
          · rw [hx] at hlive
            rw [flankR] at hlive
            exact Bool.noConfusion hlive
      · exact hstep
end Horiz

theorem Dir.not_not (d : Dir) : d.not.not = d := by
  cases d <;> rfl

theorem Dir.step_inv (d : Dir) (y ny : Nat) (h : d.step y = some ny) :
    d.not.step ny = some y := by
  cases d with
  | up =>
    rw [Dir.step] at h
    cases h
    rfl
  | down =>
    cases y with
    | zero => exact Option.noConfusion h
    | succ y =>
      rw [Dir.step] at h
      cases h
      rfl

section Pushes
variable {S T : Type} (ops : TilesOps S T) (pt : T → Bool) (color : T)
  (y : Nat) (d : Dir) (ps2 : Option Nat) (pe2 pr : Nat)

/-- Every seed present after a scan run was either already on the stack or
satisfies the seed invariant in the resulting state: its window is backed
by recolored tiles in its parent row, with dead flanks. -/
theorem childGo_pushes (L : TilesLaws ops) (hcol : pt color = false)
    (s0 : S) (hpe : pr + 1 ≤ pe2) :
    ∀ k cx (s : S) stack,
      (∀ x yy, ops.inside s pt yy x = true →
        ops.inside s0 pt yy x = true) →
      (∀ p, ps2 = some p → p + 2 ≤ cx) →
      ∀ sd ∈ (childGo ops pt color y d ps2 pe2 pr k cx s stack).2,
        sd ∈ stack ∨ SeedOK ops pt color s0
          ((childGo ops pt color y d ps2 pe2 pr k cx s stack).1) sd := by
  intro k
  induction k with
  | zero => intro cx s stack _ _ sd hsd; exact Or.inl hsd
  | succ k ih =>
    intro cx s stack hsub hps sd hsd
    rw [childGo] at hsd ⊢
    cases hfind : findInsideFrom (ops.inside s pt y) cx pr with
    | none => rw [hfind] at hsd; exact Or.inl hsd
    | some xm =>
      rw [hfind] at hsd
      simp only at hsd ⊢
      have hxm := (findInsideFrom_found _ cx pr xm hfind).1
      have hcxm := findInsideFrom_ge _ cx pr xm hfind
      have hxmr := findInsideFrom_le _ cx pr xm hfind
      have hal := goLeft_le (ops.inside s pt y) xm
      have hbg := goRight_ge (ops.inside s pt y) (ops.xBound s) xm
      have hspan := childSpan_inside ops pt y pr s cx xm hfind
      have flankL := goLeft_flank (ops.inside s pt y) xm
      have flankR := goRight_flank (ops.inside s pt y) (ops.xBound s) xm
        (inside_xBound ops L s pt y)
      have hsub' : ∀ x yy, ops.inside (fillSpan ops y color
          (goLeft (ops.inside s pt y) xm)
          (goRight (ops.inside s pt y) (ops.xBound s) xm) s) pt yy x = true →
          ops.inside s0 pt yy x = true :=
        fun x yy h => hsub x yy
          (fillSpan_live_mono ops pt color y L hcol s _ _ x yy h)
      have hps' : ∀ p, ps2 = some p →
          p + 2 ≤ goRight (ops.inside s pt y) (ops.xBound s) xm + 2 :=
        fun p hp => by have := hps p hp; omega
      have hst1 : ∀ st : List Seed,
          (childGo ops pt color y d ps2 pe2 pr k
            (goRight (ops.inside s pt y) (ops.xBound s) xm + 2)
            (fillSpan ops y color (goLeft (ops.inside s pt y) xm)
              (goRight (ops.inside s pt y) (ops.xBound s) xm) s) st).1
          = (childGo ops pt color y d ps2 pe2 pr k
            (goRight (ops.inside s pt y) (ops.xBound s) xm + 2)
            (fillSpan ops y color (goLeft (ops.inside s pt y) xm)
              (goRight (ops.inside s pt y) (ops.xBound s) xm) s) []).1 :=
        fun st => by
          have h := childGo_stack_append ops pt color y d ps2 pe2 pr k
            (goRight (ops.inside s pt y) (ops.xBound s) xm + 2)
            (fillSpan ops y color (goLeft (ops.inside s pt y) xm)
              (goRight (ops.inside s pt y) (ops.xBound s) xm) s) [] st
          rw [List.nil_append] at h
          rw [h]
      have hfillF : ∀ z, goLeft (ops.inside s pt y) xm ≤ z →
          z ≤ goRight (ops.inside s pt y) (ops.xBound s) xm →
          ops.getTile (childGo ops pt color y d ps2 pe2 pr k
            (goRight (ops.inside s pt y) (ops.xBound s) xm + 2)
            (fillSpan ops y color (goLeft (ops.inside s pt y) xm)
              (goRight (ops.inside s pt y) (ops.xBound s) xm) s) []).1 z y
            = some color := by
        intro z h1 h2
        apply childGo_keep_color ops pt color y d ps2 pe2 pr L k
        rw [fillSpan_getTile ops L]
        rw [if_pos (show y = y ∧ goLeft (ops.inside s pt y) xm ≤ z ∧
            z ≤ goRight (ops.inside s pt y) (ops.xBound s) xm ∧
            (ops.getTile s z y).isSome = true from
          ⟨rfl, h1, h2, by
            have hz := hspan z h1 h2
            have hz2 : ((ops.getTile s z y).map pt).getD false = true := hz
            cases hg : ops.getTile s z y with
            | none => rw [hg] at hz2; exact Bool.noConfusion hz2
            | some t => rfl⟩)]
      have hliveF : ∀ x yy, ops.inside (childGo ops pt color y d ps2 pe2 pr k
          (goRight (ops.inside s pt y) (ops.xBound s) xm + 2)
          (fillSpan ops y color (goLeft (ops.inside s pt y) xm)
            (goRight (ops.inside s pt y) (ops.xBound s) xm) s) []).1
            pt yy x = true →
          ops.inside s pt yy x = true :=
        fun x yy h => fillSpan_live_mono ops pt color y L hcol s _ _ x yy
          (childGo_live_mono ops pt color y d ps2 pe2 pr L hcol k _ _ _ x yy h)
      have hdeadF : ∀ x yy, ops.inside s pt yy x = false →
          ops.inside (childGo ops pt color y d ps2 pe2 pr k
            (goRight (ops.inside s pt y) (ops.xBound s) xm + 2)
            (fillSpan ops y color (goLeft (ops.inside s pt y) xm)
              (goRight (ops.inside s pt y) (ops.xBound s) xm) s) []).1
            pt yy x = false := by
        intro x yy h
        cases hc : ops.inside (childGo ops pt color y d ps2 pe2 pr k
            (goRight (ops.inside s pt y) (ops.xBound s) xm + 2)
            (fillSpan ops y color (goLeft (ops.inside s pt y) xm)
              (goRight (ops.inside s pt y) (ops.xBound s) xm) s) []).1
            pt yy x with
        | false => rfl
        | true => rw [hliveF x yy hc] at h; exact Bool.noConfusion h
      have hsubF : ∀ x yy, ops.inside (childGo ops pt color y d ps2 pe2 pr k
          (goRight (ops.inside s pt y) (ops.xBound s) xm + 2)
          (fillSpan ops y color (goLeft (ops.inside s pt y) xm)
            (goRight (ops.inside s pt y) (ops.xBound s) xm) s) []).1
            pt yy x = true →
          ops.inside s0 pt yy x = true :=
        fun x yy h => hsub x yy (hliveF x yy h)
      have hdeadColor : ∀ z yy, ops.getTile (childGo ops pt color y d ps2 pe2
          pr k (goRight (ops.inside s pt y) (ops.xBound s) xm + 2)
          (fillSpan ops y color (goLeft (ops.inside s pt y) xm)
            (goRight (ops.inside s pt y) (ops.xBound s) xm) s) []).1 z yy
            = some color →
          ops.inside (childGo ops pt color y d ps2 pe2 pr k
            (goRight (ops.inside s pt y) (ops.xBound s) xm + 2)
            (fillSpan ops y color (goLeft (ops.inside s pt y) xm)
              (goRight (ops.inside s pt y) (ops.xBound s) xm) s) []).1
            pt yy z = false := by
        intro z yy h
        show ((ops.getTile _ z yy).map pt).getD false = false
        rw [h]
        simp only [Option.map_some', Option.getD_some]
        exact hcol
      have hOKfwd : ∀ ny, d.step y = some ny →
          SeedOK ops pt color s0 (childGo ops pt color y d ps2 pe2 pr k
            (goRight (ops.inside s pt y) (ops.xBound s) xm + 2)
            (fillSpan ops y color (goLeft (ops.inside s pt y) xm)
              (goRight (ops.inside s pt y) (ops.xBound s) xm) s) []).1
            ((goLeft (ops.inside s pt y) xm,
              goRight (ops.inside s pt y) (ops.xBound s) xm), ny, d) :=
        fun ny hny =>
          ⟨y, Dir.step_inv d y ny hny,
            fun z h1 h2 => ⟨hfillF z h1 h2, hsub z y (hspan z h1 h2)⟩,
            fun h1 => hdeadF _ y (flankL h1),
            hdeadF _ y flankR⟩
      have hOKbl : ∀ py p, (Dir.not d).step y = some py → ps2 = some p →
          goLeft (ops.inside s pt y) xm ≤ p →
          SeedOK ops pt color s0 (childGo ops pt color y d ps2 pe2 pr k
            (goRight (ops.inside s pt y) (ops.xBound s) xm + 2)
            (fillSpan ops y color (goLeft (ops.inside s pt y) xm)
              (goRight (ops.inside s pt y) (ops.xBound s) xm) s) []).1
            ((goLeft (ops.inside s pt y) xm, p), py, Dir.not d) := by
        intro py p hpy hp hap
        have hpcx := hps p hp
        refine ⟨y, Dir.step_inv (Dir.not d) y py hpy,
          fun z h1 h2 => ⟨hfillF z h1 (by omega), hsub z y
            (hspan z h1 (by omega))⟩,
          fun h1 => hdeadF _ y (flankL h1),
          hdeadColor (p + 1) y (hfillF (p + 1) (by omega) (by omega))⟩
      have hOKbr : ∀ py, (Dir.not d).step y = some py →
          pe2 ≤ goRight (ops.inside s pt y) (ops.xBound s) xm →
          SeedOK ops pt color s0 (childGo ops pt color y d ps2 pe2 pr k
            (goRight (ops.inside s pt y) (ops.xBound s) xm + 2)
            (fillSpan ops y color (goLeft (ops.inside s pt y) xm)
              (goRight (ops.inside s pt y) (ops.xBound s) xm) s) []).1
            ((pe2, goRight (ops.inside s pt y) (ops.xBound s) xm), py,
              Dir.not d) := by
        intro py hpy hpb
        refine ⟨y, Dir.step_inv (Dir.not d) y py hpy,
          fun z h1 h2 => ⟨hfillF z (by omega) h2, hsub z y
            (hspan z (by omega) h2)⟩,
          fun h1 => hdeadColor (pe2 - 1) y (hfillF (pe2 - 1) (by omega)
            (by omega)),
          hdeadF _ y flankR⟩
      rcases ih (goRight (ops.inside s pt y) (ops.xBound s) xm + 2) _ _
        hsub' hps' sd hsd with hmem | hOK
      · cases hnd : (Dir.not d).step y with
        | none =>
          rw [hnd] at hmem
          try simp only at hmem
          cases hdy : d.step y with
          | none =>
            rw [hdy] at hmem
            exact Or.inl hmem
          | some ny =>
            rw [hdy] at hmem
            try simp only at hmem
            simp only [List.mem_cons] at hmem
            rcases hmem with heq | hmem
            · subst heq
              rw [hst1]
              exact Or.inr (hOKfwd ny hdy)
            · exact Or.inl hmem
        | some py =>
          rw [hnd] at hmem
          try simp only at hmem
          cases hdy : d.step y with
          | none =>
            rw [hdy] at hmem
            try simp only at hmem
            cases hp : ps2 with
            | none =>
              rw [hp] at hmem
              try simp only at hmem
              try simp only at hmem
              try simp only
              rw [← hp]
              split_ifs at hmem ⊢ with hc
              · simp only [List.mem_cons] at hmem
                rcases hmem with heq | hmem
                · subst heq
                  rw [hst1]
                  exact Or.inr (hOKbr py hnd hc)
                · exact Or.inl hmem
              · exact Or.inl hmem
            | some p =>
              rw [hp] at hmem
              try simp only at hmem
              try simp only at hmem
              try simp only
              rw [← hp]
              split_ifs at hmem ⊢ with hc1 hc2 hc2
              · simp only [List.mem_cons] at hmem
                rcases hmem with heq | hmem
                · subst heq
                  rw [hst1]
                  exact Or.inr (hOKbr py hnd hc1)
                · rcases hmem with heq | hmem
                  · subst heq
                    rw [hst1]
                    exact Or.inr (hOKbl py p hnd hp hc2)
                  · exact Or.inl hmem
              · simp only [List.mem_cons] at hmem
                rcases hmem with heq | hmem
                · subst heq
                  rw [hst1]
                  exact Or.inr (hOKbr py hnd hc1)
                · exact Or.inl hmem
              · simp only [List.mem_cons] at hmem
                rcases hmem with heq | hmem
                · subst heq
                  rw [hst1]
                  exact Or.inr (hOKbl py p hnd hp hc2)
                · exact Or.inl hmem
              · exact Or.inl hmem
          | some ny =>
            rw [hdy] at hmem
            try simp only at hmem
            cases hp : ps2 with
            | none =>
              rw [hp] at hmem
              try simp only at hmem
              try simp only at hmem
              try simp only
              rw [← hp]
              split_ifs at hmem ⊢ with hc
              · simp only [List.mem_cons] at hmem
                rcases hmem with heq | hmem
                · subst heq
                  rw [hst1]
                  exact Or.inr (hOKbr py hnd hc)
                · rcases hmem with heq | hmem
                  · subst heq
                    rw [hst1]
                    exact Or.inr (hOKfwd ny hdy)
                  · exact Or.inl hmem
              · simp only [List.mem_cons] at hmem
                rcases hmem with heq | hmem
                · subst heq
                  rw [hst1]
                  exact Or.inr (hOKfwd ny hdy)
                · exact Or.inl hmem
            | some p =>
              rw [hp] at hmem
              try simp only at hmem
              try simp only at hmem
              try simp only
              rw [← hp]
              split_ifs at hmem ⊢ with hc1 hc2 hc2
              · simp only [List.mem_cons] at hmem
                rcases hmem with heq | hmem
                · subst heq
                  rw [hst1]
                  exact Or.inr (hOKbr py hnd hc1)
                · rcases hmem with heq | hmem
                  · subst heq
                    rw [hst1]
                    exact Or.inr (hOKbl py p hnd hp hc2)
                  · rcases hmem with heq | hmem
                    · subst heq
                      rw [hst1]
                      exact Or.inr (hOKfwd ny hdy)
                    · exact Or.inl hmem
              · simp only [List.mem_cons] at hmem
                rcases hmem with heq | hmem
                · subst heq
                  rw [hst1]
                  exact Or.inr (hOKbr py hnd hc1)
                · rcases hmem with heq | hmem
                  · subst heq
                    rw [hst1]
                    exact Or.inr (hOKfwd ny hdy)
                  · exact Or.inl hmem
              · simp only [List.mem_cons] at hmem
                rcases hmem with heq | hmem
                · subst heq
                  rw [hst1]
                  exact Or.inr (hOKbl py p hnd hp hc2)
                · rcases hmem with heq | hmem
                  · subst heq
                    rw [hst1]
                    exact Or.inr (hOKfwd ny hdy)
                  · exact Or.inl hmem
              · simp only [List.mem_cons] at hmem
                rcases hmem with heq | hmem
                · subst heq
                  rw [hst1]
                  exact Or.inr (hOKfwd ny hdy)
                · exact Or.inl hmem
      · exact Or.inr hOK
end Pushes

section Mono
variable {S T : Type} (ops : TilesOps S T) (pt : T → Bool) (color : T)
  (y : Nat) (d : Dir) (ps2 : Option Nat) (pe2 pr : Nat)

theorem childGo_dead_mono (L : TilesLaws ops) (hcol : pt color = false)
    (k cx : Nat) (s : S) (stack : List Seed) (x yf : Nat)
    (h : ops.inside s pt yf x = false) :
    ops.inside ((childGo ops pt color y d ps2 pe2 pr k cx s stack).1)
      pt yf x = false := by
  cases hc : ops.inside ((childGo ops pt color y d ps2 pe2 pr k cx s
      stack).1) pt yf x with
  | false => rfl
  | true =>
    rw [childGo_live_mono ops pt color y d ps2 pe2 pr L hcol k cx s stack
      x yf hc] at h
    exact Bool.noConfusion h

theorem childGo_seedOK_mono (L : TilesLaws ops) (hcol : pt color = false)
    (s0 : S) (k cx : Nat) (s : S) (stack : List Seed) (sd : Seed)
    (h : SeedOK ops pt color s0 s sd) :
    SeedOK ops pt color s0
      ((childGo ops pt color y d ps2 pe2 pr k cx s stack).1) sd := by
  obtain ⟨⟨l, r⟩, ys, dir⟩ := sd
  obtain ⟨py, hpy, hwin, hfl, hfr⟩ := h
  exact ⟨py, hpy,
    fun z h1 h2 => ⟨childGo_keep_color ops pt color y d ps2 pe2 pr L k cx s
      stack z py (hwin z h1 h2).1, (hwin z h1 h2).2⟩,
    fun h1 => childGo_dead_mono ops pt color y d ps2 pe2 pr L hcol k cx s
      stack _ py (hfl h1),
    childGo_dead_mono ops pt color y d ps2 pe2 pr L hcol k cx s stack _ py
      hfr⟩

/-- The stack is never popped inside `childGo`. -/
theorem childGo_stack_sub (k cx : Nat) (s : S) (stack : List Seed)
    (sd : Seed) (h : sd ∈ stack) :
    sd ∈ (childGo ops pt color y d ps2 pe2 pr k cx s stack).2 := by
  have happ := childGo_stack_append ops pt color y d ps2 pe2 pr k cx s []
    stack
  rw [List.nil_append] at happ
  rw [happ]
  exact List.mem_append_right _ h
end Mono

theorem vert_dir (d : Dir) (y yf : Nat)
    (h : yf = y + 1 ∨ y = yf + 1) :
    d.step y = some yf ∨ (Dir.not d).step y = some yf := by
  cases d with
  | up =>
    rcases h with h | h
    · left; rw [Dir.step, h]
    · right
      show Dir.step Dir.down y = some yf
      cases y with
      | zero => omega
      | succ yy =>
        rw [Dir.step]
        have : yy = yf := by omega
        rw [this]
  | down =>
    rcases h with h | h
    · right
      show Dir.step Dir.up y = some yf
      rw [Dir.step, h]
    · left
      cases y with
      | zero => omega
      | succ yy =>
        rw [Dir.step]
        have : yy = yf := by omega
        rw [this]

section WritesCovered
variable {S T : Type} (ops : TilesOps S T) (pt : T → Bool) (color : T)
  (y : Nat) (d : Dir) (ps2 : Option Nat) (pe2 pr : Nat)

/-- Any tile holding the fill color after a scan run either held it before,
or lies in a zone of the scan row accounted for by the pushed forward seed,
the pushed back-seeds, or the popped parent window. -/
theorem childGo_writes_covered (L : TilesLaws ops) :
    ∀ k cx (s : S) stack x2,
      ops.getTile ((childGo ops pt color y d ps2 pe2 pr k cx s stack).1) x2 y
        = some color →
      ops.getTile s x2 y = some color ∨
      ((∀ ny, d.step y = some ny → ∃ l r,
          ((l, r), ny, d) ∈
            (childGo ops pt color y d ps2 pe2 pr k cx s stack).2 ∧
          l ≤ x2 ∧ x2 ≤ r) ∧
       (∀ py, (Dir.not d).step y = some py →
          (∃ p l, ps2 = some p ∧
            ((l, p), py, Dir.not d) ∈
              (childGo ops pt color y d ps2 pe2 pr k cx s stack).2 ∧
            l ≤ x2 ∧ x2 ≤ p) ∨
          (∃ r, ((pe2, r), py, Dir.not d) ∈
              (childGo ops pt color y d ps2 pe2 pr k cx s stack).2 ∧
            pe2 ≤ x2 ∧ x2 ≤ r) ∨
          ((∀ p, ps2 = some p → p + 1 ≤ x2) ∧ x2 + 1 ≤ pe2))) := by
  intro k
  induction k with
  | zero => intro cx s stack x2 h; exact Or.inl h
  | succ k ih =>
    intro cx s stack x2 h
    rw [childGo] at h
    cases hfind : findInsideFrom (ops.inside s pt y) cx pr with
    | none => rw [hfind] at h; exact Or.inl h
    | some xm =>
      rw [hfind] at h
      simp only at h
      rw [childGo]
      rw [hfind]
      simp only
      rcases ih _ _ _ x2 h with hpre | ⟨hfwd, hbwd⟩
      · rw [fillSpan_getTile ops L] at hpre
        split_ifs at hpre with hc
        · obtain ⟨-, hA, hB, -⟩ := hc
          have hmem1 : ∀ ny, d.step y = some ny →
              ((goLeft (ops.inside s pt y) xm,
                goRight (ops.inside s pt y) (ops.xBound s) xm), ny, d) ∈
              (match (Dir.not d).step y with
                | some py =>
                  let stackL := match ps2 with
                    | some p => if goLeft (ops.inside s pt y) xm ≤ p then
                        ((goLeft (ops.inside s pt y) xm, p), py, Dir.not d) ::
                          (match d.step y with
                            | some ny => ((goLeft (ops.inside s pt y) xm,
                                goRight (ops.inside s pt y) (ops.xBound s) xm),
                                ny, d) :: stack
                            | none => stack)
                      else (match d.step y with
                        | some ny => ((goLeft (ops.inside s pt y) xm,
                            goRight (ops.inside s pt y) (ops.xBound s) xm),
                            ny, d) :: stack
                        | none => stack)
                    | none => (match d.step y with
                      | some ny => ((goLeft (ops.inside s pt y) xm,
                          goRight (ops.inside s pt y) (ops.xBound s) xm),
                          ny, d) :: stack
                      | none => stack)
                  if pe2 ≤ goRight (ops.inside s pt y) (ops.xBound s) xm then
                    ((pe2, goRight (ops.inside s pt y) (ops.xBound s) xm),
                      py, Dir.not d) :: stackL
                  else stackL
                | none => match d.step y with
                  | some ny => ((goLeft (ops.inside s pt y) xm,
                      goRight (ops.inside s pt y) (ops.xBound s) xm), ny, d)
                      :: stack
                  | none => stack) := by
            intro ny hny
            rw [hny]
            cases (Dir.not d).step y <;> cases ps2 <;> (try simp only) <;>
              (try split_ifs) <;> simp [List.mem_cons]
          have hmem2 : ∀ py p, (Dir.not d).step y = some py → ps2 = some p →
              goLeft (ops.inside s pt y) xm ≤ p →
              ((goLeft (ops.inside s pt y) xm, p), py, Dir.not d) ∈
              (match (Dir.not d).step y with
                | some py =>
                  let stackL := match ps2 with
                    | some p => if goLeft (ops.inside s pt y) xm ≤ p then
                        ((goLeft (ops.inside s pt y) xm, p), py, Dir.not d) ::
                          (match d.step y with
                            | some ny => ((goLeft (ops.inside s pt y) xm,
                                goRight (ops.inside s pt y) (ops.xBound s) xm),
                                ny, d) :: stack
                            | none => stack)
                      else (match d.step y with
                        | some ny => ((goLeft (ops.inside s pt y) xm,
                            goRight (ops.inside s pt y) (ops.xBound s) xm),
                            ny, d) :: stack
                        | none => stack)
                    | none => (match d.step y with
                      | some ny => ((goLeft (ops.inside s pt y) xm,
                          goRight (ops.inside s pt y) (ops.xBound s) xm),
                          ny, d) :: stack
                      | none => stack)
                  if pe2 ≤ goRight (ops.inside s pt y) (ops.xBound s) xm then
                    ((pe2, goRight (ops.inside s pt y) (ops.xBound s) xm),
                      py, Dir.not d) :: stackL
                  else stackL
                | none => match d.step y with
                  | some ny => ((goLeft (ops.inside s pt y) xm,
                      goRight (ops.inside s pt y) (ops.xBound s) xm), ny, d)
                      :: stack
                  | none => stack) := by
            intro py p hpy hp hap
            rw [hpy, hp]
            simp only
            rw [if_pos hap]
            cases d.step y <;> (try simp only) <;> (try split_ifs) <;>
              simp [List.mem_cons]
          have hmem3 : ∀ py, (Dir.not d).step y = some py →
              pe2 ≤ goRight (ops.inside s pt y) (ops.xBound s) xm →
              ((pe2, goRight (ops.inside s pt y) (ops.xBound s) xm), py,
                Dir.not d) ∈
              (match (Dir.not d).step y with
                | some py =>
                  let stackL := match ps2 with
                    | some p => if goLeft (ops.inside s pt y) xm ≤ p then
                        ((goLeft (ops.inside s pt y) xm, p), py, Dir.not d) ::
                          (match d.step y with
                            | some ny => ((goLeft (ops.inside s pt y) xm,
                                goRight (ops.inside s pt y) (ops.xBound s) xm),
                                ny, d) :: stack
                            | none => stack)
                      else (match d.step y with
                        | some ny => ((goLeft (ops.inside s pt y) xm,
                            goRight (ops.inside s pt y) (ops.xBound s) xm),
                            ny, d) :: stack
                        | none => stack)
                    | none => (match d.step y with
                      | some ny => ((goLeft (ops.inside s pt y) xm,
                          goRight (ops.inside s pt y) (ops.xBound s) xm),
                          ny, d) :: stack
                      | none => stack)
                  if pe2 ≤ goRight (ops.inside s pt y) (ops.xBound s) xm then
                    ((pe2, goRight (ops.inside s pt y) (ops.xBound s) xm),
                      py, Dir.not d) :: stackL
                  else stackL
                | none => match d.step y with
                  | some ny => ((goLeft (ops.inside s pt y) xm,
                      goRight (ops.inside s pt y) (ops.xBound s) xm), ny, d)
                      :: stack
                  | none => stack) := by
            intro py hpy hpb
            rw [hpy]
            simp only
            rw [if_pos hpb]
            exact List.mem_cons_self _ _
          refine Or.inr ⟨?_, ?_⟩
          · intro ny hny
            exact ⟨goLeft (ops.inside s pt y) xm,
              goRight (ops.inside s pt y) (ops.xBound s) xm,
              childGo_stack_sub ops pt color y d ps2 pe2 pr k _ _ _ _
                (hmem1 ny hny), hA, hB⟩
          · intro py hpy
            rcases hp : ps2 with _ | p
            · rw [← hp]
              by_cases hxe : pe2 ≤ x2
              · exact Or.inr (Or.inl
                  ⟨goRight (ops.inside s pt y) (ops.xBound s) xm,
                    childGo_stack_sub ops pt color y d ps2 pe2 pr k _ _ _ _
                      (hmem3 py hpy (le_trans hxe hB)), hxe, hB⟩)
              · exact Or.inr (Or.inr ⟨fun p hp' => absurd (hp ▸ hp')
                  (fun hcon => Option.noConfusion hcon), by omega⟩)
            · rw [← hp]
              by_cases hx2p : x2 ≤ p
              · exact Or.inl ⟨p, goLeft (ops.inside s pt y) xm, hp,
                  childGo_stack_sub ops pt color y d ps2 pe2 pr k _ _ _ _
                    (hmem2 py p hpy hp (le_trans hA hx2p)), hA, hx2p⟩
              · by_cases hxe : pe2 ≤ x2
                · exact Or.inr (Or.inl
                    ⟨goRight (ops.inside s pt y) (ops.xBound s) xm,
                      childGo_stack_sub ops pt color y d ps2 pe2 pr k _ _ _ _
                        (hmem3 py hpy (le_trans hxe hB)), hxe, hB⟩)
                · refine Or.inr (Or.inr ⟨fun p' hp' => ?_, by omega⟩)
                  rw [hp] at hp'
                  cases hp'
                  omega
        · exact Or.inl hpre
      · exact Or.inr ⟨hfwd, hbwd⟩
end WritesCovered

section RunIntact
variable {S T : Type} (ops : TilesOps S T) (pt : T → Bool) (color : T)
  (y : Nat) (d : Dir) (ps2 : Option Nat) (pe2 pr : Nat)

theorem live_ne_color (hcol : pt color = false) (s : S) (x yf : Nat)
    (hl : ops.inside s pt yf x = true)
    (hc : ops.getTile s x yf = some color) : False := by
  have h2 : ((ops.getTile s x yf).map pt).getD false = true := hl
  rw [hc] at h2
  simp only [Option.map_some', Option.getD_some] at h2
  rw [hcol] at h2
  exact Bool.noConfusion h2

/-- An all-live horizontal interval one of whose tiles is still live after
a scan run is entirely still live: spans are filled with flanks that are
dead at fill time, so a fill can never stop next to a live tile. -/
theorem childGo_run_intact (L : TilesLaws ops) (hcol : pt color = false)
    (k cx : Nat) (s : S) (stack : List Seed) (u v x yf : Nat)
    (hxu : u ≤ x) (hxv : x ≤ v)
    (hall : ∀ z, u ≤ z → z ≤ v → ops.inside s pt yf z = true)
    (hlive : ops.inside ((childGo ops pt color y d ps2 pe2 pr k cx s
      stack).1) pt yf x = true) :
    ∀ z, u ≤ z → z ≤ v →
      ops.inside ((childGo ops pt color y d ps2 pe2 pr k cx s stack).1)
        pt yf z = true := by
  have key : ∀ n z, u ≤ z → z ≤ v → (z = x + n ∨ x = z + n) →
      ops.inside ((childGo ops pt color y d ps2 pe2 pr k cx s stack).1)
        pt yf z = true := by
    intro n
    induction n with
    | zero =>
      intro z hzu hzv hd
      have : z = x := by omega
      rw [this]
      exact hlive
    | succ n ihn =>
      intro z hzu hzv hd
      by_cases hzdead : ops.inside ((childGo ops pt color y d ps2 pe2 pr k cx
          s stack).1) pt yf z = true
      · exact hzdead
      · exfalso
        have hzlive_s := hall z hzu hzv
        have hwr := childGo_writes ops pt color y d ps2 pe2 pr L hcol k cx s
          stack z yf
        rcases hwr with hunch | ⟨hyy, hcolr, hlv⟩
        · have : ops.inside ((childGo ops pt color y d ps2 pe2 pr k cx s
              stack).1) pt yf z =
              ops.inside s pt yf z := by
            show ((ops.getTile _ z yf).map pt).getD false =
              ((ops.getTile s z yf).map pt).getD false
            rw [hunch]
          rw [this, hzlive_s] at hzdead
          exact hzdead rfl
        · rcases hd with hd | hd
          · have hz' : ops.inside ((childGo ops pt color y d ps2 pe2 pr k cx
                s stack).1) pt yf (z - 1) = true := by
              apply ihn (z - 1) (by omega) (by omega)
              omega
            have := childGo_horiz ops pt color y d ps2 pe2 pr L hcol k cx s
              stack (z - 1) z yf hz' (by omega) hcolr
            exact live_ne_color ops pt color hcol s z yf hzlive_s this
          · have hz' : ops.inside ((childGo ops pt color y d ps2 pe2 pr k cx
                s stack).1) pt yf (z + 1) = true := by
              apply ihn (z + 1) (by omega) (by omega)
              omega
            have := childGo_horiz ops pt color y d ps2 pe2 pr L hcol k cx s
              stack (z + 1) z yf hz' (by omega) hcolr
            exact live_ne_color ops pt color hcol s z yf hzlive_s this
  intro z hzu hzv
  by_cases hzx : x ≤ z
  · exact key (z - x) z hzu hzv (by omega)
  · exact key (x - z) z hzu hzv (by omega)
end RunIntact

section LoopInv
variable {S T : Type} (ops : TilesOps S T) (pt : T → Bool) (color : T)

theorem vals_live_sub (s0 s : S)
    (hvals : ∀ x y, ops.getTile s x y = ops.getTile s0 x y ∨
      Filled ops pt color s0 s x y) (hcol : pt color = false)
    (x yf : Nat) (h : ops.inside s pt yf x = true) :
    ops.inside s0 pt yf x = true := by
  rcases hvals x yf with hunch | ⟨hc, hl⟩
  · show ((ops.getTile s0 x yf).map pt).getD false = true
    rw [← hunch]
    exact h
  · exact absurd (live_ne_color ops pt color hcol s x yf h hc) not_false

/-- One iteration of the seed-stack loop preserves the fill invariant, and
hence the whole loop does. -/
theorem floodLoop_inv (L : TilesLaws ops) (hcol : pt color = false)
    (s0 : S) :
    ∀ fuel (s : S) stack s',
      FillInv ops pt color s0 s stack →
      floodLoop ops pt color fuel s stack = some s' →
      FillInv ops pt color s0 s' [] := by
  intro fuel
  induction fuel with
  | zero =>
    intro s stack s' hinv hrun
    cases stack with
    | nil =>
      rw [floodLoop] at hrun
      cases hrun
      exact ⟨hinv.1, fun sd hsd => absurd hsd (List.not_mem_nil sd), hinv.2.2⟩
    | cons a rest => exact Option.noConfusion hrun
  | succ fuel ih =>
    intro s stack s' hinv hrun
    cases stack with
    | nil =>
      rw [floodLoop] at hrun
      cases hrun
      exact ⟨hinv.1, fun sd hsd => absurd hsd (List.not_mem_nil sd), hinv.2.2⟩
    | cons sd0 rest =>
      obtain ⟨⟨pl, pr⟩, yy, dd⟩ := sd0
      rw [floodLoop] at hrun
      obtain ⟨hvals, hseeds, hfront⟩ := hinv
      obtain ⟨py, hpy, hwin, hflL, hflR⟩ :=
        hseeds _ (List.mem_cons_self _ _)
      have hlive_s0 : ∀ x yf, ops.inside s pt yf x = true →
          ops.inside s0 pt yf x = true :=
        fun x yf h => vals_live_sub ops pt color s0 s hvals hcol x yf h
      have hps : ∀ p, (if 2 ≤ pl then some (pl - 2) else none) = some p →
          p + 2 ≤ pl := by
        intro p hp
        by_cases h2 : 2 ≤ pl
        · rw [if_pos h2] at hp
          injection hp with hpp
          omega
        · rw [if_neg h2] at hp
          exact Option.noConfusion hp
      -- the three invariant clauses for the state and stack after the pop
      have FI1 : ∀ x yf, ops.getTile ((childGo ops pt color yy dd
          (if 2 ≤ pl then some (pl - 2) else none) (pr + 2) pr (pr + 2) pl s
          rest).1) x yf = ops.getTile s0 x yf ∨
          Filled ops pt color s0 ((childGo ops pt color yy dd
            (if 2 ≤ pl then some (pl - 2) else none) (pr + 2) pr (pr + 2) pl
            s rest).1) x yf := by
        intro x yf
        rcases childGo_writes ops pt color yy dd
            (if 2 ≤ pl then some (pl - 2) else none) (pr + 2) pr L hcol
            (pr + 2) pl s rest x yf with hunch | ⟨hyy, hcolr, hlv⟩
        · rcases hvals x yf with h0 | ⟨hc, hl⟩
          · exact Or.inl (hunch.trans h0)
          · exact Or.inr ⟨hunch.trans hc, hl⟩
        · exact Or.inr ⟨hcolr, hyy ▸ hlive_s0 x yy hlv⟩
      have FI2 : ∀ sd ∈ (childGo ops pt color yy dd
          (if 2 ≤ pl then some (pl - 2) else none) (pr + 2) pr (pr + 2) pl s
          rest).2, SeedOK ops pt color s0 ((childGo ops pt color yy dd
            (if 2 ≤ pl then some (pl - 2) else none) (pr + 2) pr (pr + 2) pl
            s rest).1) sd := by
        intro sd hsd
        rcases childGo_pushes ops pt color yy dd
            (if 2 ≤ pl then some (pl - 2) else none) (pr + 2) pr L hcol s0
            (by omega) (pr + 2) pl s rest hlive_s0 hps sd hsd with hmem | hOK
        · exact childGo_seedOK_mono ops pt color yy dd _ _ pr L hcol s0
            (pr + 2) pl s rest sd (hseeds sd (List.mem_cons_of_mem _ hmem))
        · exact hOK
      have FI3 : ∀ x yf, ops.inside ((childGo ops pt color yy dd
          (if 2 ≤ pl then some (pl - 2) else none) (pr + 2) pr (pr + 2) pl s
          rest).1) pt yf x = true →
          (∃ x2 y2, adjacent (x, yf) (x2, y2) ∧ Filled ops pt color s0
            ((childGo ops pt color yy dd
              (if 2 ≤ pl then some (pl - 2) else none) (pr + 2) pr (pr + 2)
              pl s rest).1) x2 y2) →
          Covered ops pt ((childGo ops pt color yy dd
            (if 2 ≤ pl then some (pl - 2) else none) (pr + 2) pr (pr + 2) pl
            s rest).1) ((childGo ops pt color yy dd
            (if 2 ≤ pl then some (pl - 2) else none) (pr + 2) pr (pr + 2) pl
            s rest).2) x yf := by
        intro x yf hlive hadj
        obtain ⟨x2, y2, hadj2, hfill2⟩ := hadj
        have hlives : ops.inside s pt yf x = true :=
          childGo_live_mono ops pt color yy dd _ _ pr L hcol (pr + 2) pl s
            rest x yf hlive
        by_cases hold : ops.getTile s x2 y2 = some color
        · have hcov := hfront x yf hlives ⟨x2, y2, hadj2, hold, hfill2.2⟩
          obtain ⟨sd₀, hsd₀mem, l, r, dir, hsdeq, u, v, hu, hv, hallv, w,
            hw1, hw2, hw3, hw4⟩ := hcov
          rcases List.mem_cons.1 hsd₀mem with heq | hrest
          · exfalso
            have heq2 : ((l, r), yf, dir) = (((pl, pr), yy, dd) : Seed) :=
              hsdeq ▸ heq
            simp only [Prod.mk.injEq] at heq2
            obtain ⟨⟨hl', hr'⟩, hyf', hdir'⟩ := heq2
            have hallv' : ∀ z, u ≤ z → z ≤ v →
                ops.inside s pt yy z = true := by
              intro z h1 h2
              rw [hyf'] at hallv
              exact hallv z h1 h2
            have hxfill := childGo_covers ops pt color yy dd
              (if 2 ≤ pl then some (pl - 2) else none) (pr + 2) pr L
              (pr + 2) pl s rest u v (by omega) hallv'
              ⟨w, hw1, hw2, by omega, by omega⟩ x hu hv
            exact live_ne_color ops pt color hcol _ x yy
              (by rw [hyf'] at hlive; exact hlive) hxfill
          · have hint := childGo_run_intact ops pt color yy dd
              (if 2 ≤ pl then some (pl - 2) else none) (pr + 2) pr L hcol
              (pr + 2) pl s rest u v x yf hu hv hallv hlive
            exact ⟨sd₀, childGo_stack_sub ops pt color yy dd _ _ pr (pr + 2)
              pl s rest sd₀ hrest, l, r, dir, hsdeq, u, v, hu, hv, hint, w,
              hw1, hw2, hw3, hw4⟩
        · have hcolr2 : ops.getTile ((childGo ops pt color yy dd
              (if 2 ≤ pl then some (pl - 2) else none) (pr + 2) pr (pr + 2)
              pl s rest).1) x2 y2 = some color := hfill2.1
          rcases childGo_writes ops pt color yy dd
              (if 2 ≤ pl then some (pl - 2) else none) (pr + 2) pr L hcol
              (pr + 2) pl s rest x2 y2 with hunch | ⟨hy2, -, -⟩
          · exact absurd (hunch.symm.trans hcolr2) hold
          · rw [hy2] at hcolr2 hold hadj2
            rcases childGo_writes_covered ops pt color yy dd
                (if 2 ≤ pl then some (pl - 2) else none) (pr + 2) pr L
                (pr + 2) pl s rest x2 hcolr2 with hc | ⟨hfwd, hbwd⟩
            · exact absurd hc hold
            · unfold adjacent at hadj2
              simp only at hadj2
              rcases hadj2 with ⟨ha1, ha2⟩ | ⟨ha1, ha2⟩ | ⟨ha1, ha2⟩ |
                ⟨ha1, ha2⟩
              · exact absurd (childGo_horiz ops pt color yy dd
                    (if 2 ≤ pl then some (pl - 2) else none) (pr + 2) pr L
                    hcol (pr + 2) pl s rest x x2 yf hlive (Or.inl ha1)
                    (ha2 ▸ hcolr2)) (ha2 ▸ hold)
              · exact absurd (childGo_horiz ops pt color yy dd
                    (if 2 ≤ pl then some (pl - 2) else none) (pr + 2) pr L
                    hcol (pr + 2) pl s rest x x2 yf hlive (Or.inr ha1)
                    (ha2 ▸ hcolr2)) (ha2 ▸ hold)
              · rcases vert_dir dd yy yf (Or.inr ha1) with hstep | hstep
                · obtain ⟨l, r, hmem, hl, hr⟩ := hfwd yf hstep
                  exact ⟨((l, r), yf, dd), hmem, l, r, dd, rfl, x, x,
                    Nat.le_refl x, Nat.le_refl x,
                    (fun z h1 h2 => by
                      have hz : z = x := by omega
                      rw [hz]; exact hlive), x, Nat.le_refl x, Nat.le_refl x,
                    by omega, by omega⟩
                · rcases hbwd yf hstep with ⟨p, l, hpseq, hmem, hl, hr⟩ |
                    ⟨r, hmem, hl, hr⟩ | ⟨hzl, hzr⟩
                  · exact ⟨((l, p), yf, Dir.not dd), hmem, l, p, Dir.not dd,
                      rfl, x, x, Nat.le_refl x, Nat.le_refl x,
                      (fun z h1 h2 => by
                        have hz : z = x := by omega
                        rw [hz]; exact hlive), x, Nat.le_refl x,
                      Nat.le_refl x, by omega, by omega⟩
                  · exact ⟨((pr + 2, r), yf, Dir.not dd), hmem, pr + 2, r,
                      Dir.not dd, rfl, x, x, Nat.le_refl x, Nat.le_refl x,
                      (fun z h1 h2 => by
                        have hz : z = x := by omega
                        rw [hz]; exact hlive), x, Nat.le_refl x,
                      Nat.le_refl x, by omega, by omega⟩
                  · exfalso
                    have hpyf : py = yf := by
                      rw [hpy] at hstep
                      cases hstep
                      rfl
                    have hx2x : x2 = x := ha2
                    by_cases hxpr : x ≤ pr
                    · by_cases hxpl : pl ≤ x
                      · exact live_ne_color ops pt color hcol s x yf hlives
                          (hpyf ▸ (hwin x hxpl hxpr).1)
                      · by_cases h2pl : 2 ≤ pl
                        · have hzl' := hzl (pl - 2) (by rw [if_pos h2pl])
                          have hxeq : x = pl - 1 := by omega
                          have hfd := hflL (by omega)
                          rw [hpyf, ← hxeq] at hfd
                          rw [hlives] at hfd
                          exact Bool.noConfusion hfd
                        · have hpl1 : pl = 1 ∧ x = 0 := by omega
                          have hfd := hflL (by omega)
                          rw [hpyf] at hfd
                          rw [show pl - 1 = x by omega] at hfd
                          rw [hlives] at hfd
                          exact Bool.noConfusion hfd
                    · have hxeq : x = pr + 1 := by omega
                      have hfd := hflR
                      rw [hpyf, ← hxeq] at hfd
                      rw [hlives] at hfd
                      exact Bool.noConfusion hfd
              · rcases vert_dir dd yy yf (Or.inl ha1) with hstep | hstep
                · obtain ⟨l, r, hmem, hl, hr⟩ := hfwd yf hstep
                  exact ⟨((l, r), yf, dd), hmem, l, r, dd, rfl, x, x,
                    Nat.le_refl x, Nat.le_refl x,
                    (fun z h1 h2 => by
                      have hz : z = x := by omega
                      rw [hz]; exact hlive), x, Nat.le_refl x, Nat.le_refl x,
                    by omega, by omega⟩
                · rcases hbwd yf hstep with ⟨p, l, hpseq, hmem, hl, hr⟩ |
                    ⟨r, hmem, hl, hr⟩ | ⟨hzl, hzr⟩
                  · exact ⟨((l, p), yf, Dir.not dd), hmem, l, p, Dir.not dd,
                      rfl, x, x, Nat.le_refl x, Nat.le_refl x,
                      (fun z h1 h2 => by
                        have hz : z = x := by omega
                        rw [hz]; exact hlive), x, Nat.le_refl x,
                      Nat.le_refl x, by omega, by omega⟩
                  · exact ⟨((pr + 2, r), yf, Dir.not dd), hmem, pr + 2, r,
                      Dir.not dd, rfl, x, x, Nat.le_refl x, Nat.le_refl x,
                      (fun z h1 h2 => by
                        have hz : z = x := by omega
                        rw [hz]; exact hlive), x, Nat.le_refl x,
                      Nat.le_refl x, by omega, by omega⟩
                  · exfalso
                    have hpyf : py = yf := by
                      rw [hpy] at hstep
                      cases hstep
                      rfl
                    have hx2x : x2 = x := ha2
                    by_cases hxpr : x ≤ pr
                    · by_cases hxpl : pl ≤ x
                      · exact live_ne_color ops pt color hcol s x yf hlives
                          (hpyf ▸ (hwin x hxpl hxpr).1)
                      · by_cases h2pl : 2 ≤ pl
                        · have hzl' := hzl (pl - 2) (by rw [if_pos h2pl])
                          have hxeq : x = pl - 1 := by omega
                          have hfd := hflL (by omega)
                          rw [hpyf, ← hxeq] at hfd
                          rw [hlives] at hfd
                          exact Bool.noConfusion hfd
                        · have hpl1 : pl = 1 ∧ x = 0 := by omega
                          have hfd := hflL (by omega)
                          rw [hpyf] at hfd
                          rw [show pl - 1 = x by omega] at hfd
                          rw [hlives] at hfd
                          exact Bool.noConfusion hfd
                    · have hxeq : x = pr + 1 := by omega
                      have hfd := hflR
                      rw [hpyf, ← hxeq] at hfd
                      rw [hlives] at hfd
                      exact Bool.noConfusion hfd
      have hinv' : FillInv ops pt color s0 ((childGo ops pt color yy dd
          (if 2 ≤ pl then some (pl - 2) else none) (pr + 2) pr (pr + 2) pl s
          rest).1) ((childGo ops pt color yy dd
          (if 2 ≤ pl then some (pl - 2) else none) (pr + 2) pr (pr + 2) pl s
          rest).2) := ⟨FI1, FI2, FI3⟩
      exact ih _ _ s' hinv' hrun
end LoopInv

theorem adjacent_symm (p q : Nat × Nat) (h : adjacent p q) : adjacent q p := by
  unfold adjacent at h ⊢
  tauto

section Complete
variable {S T : Type} (ops : TilesOps S T) (pt : T → Bool) (color : T)

theorem fillSpan_dead_mono (L : TilesLaws ops) (hcol : pt color = false)
    (y : Nat) (s : S) (a b x yf : Nat)
    (h : ops.inside s pt yf x = false) :
    ops.inside (fillSpan ops y color a b s) pt yf x = false := by
  cases hc : ops.inside (fillSpan ops y color a b s) pt yf x with
  | false => rfl
  | true =>
    rw [fillSpan_live_mono ops pt color y L hcol s a b x yf hc] at h
    exact Bool.noConfusion h
end Complete

section FloodComplete
variable {S T : Type} (ops : TilesOps S T)

/-- Completeness of `flood_fill`: when the fill color fails the predicate
against the start value, every tile reachable from the start through a
4-connected path of predicate-passing tiles ends up holding the fill color
in a terminating run. -/
theorem floodFill_completeness (L : TilesLaws ops) (s0 : S)
    (fuel sx sy : Nat) (eqv : T → T → Bool) (color : T) (s' : S) (t0 : T)
    (ht0 : ops.getTile s0 sx sy = some t0)
    (hself : eqv t0 t0 = true)
    (hcol : eqv color t0 = false)
    (hrun : floodFill ops fuel s0 sx sy eqv color = some s')
    (x y : Nat)
    (hreach : ReachIn (fun p =>
      ops.inside s0 (fun c => eqv c t0) p.2 p.1 = true) (sx, sy) (x, y)) :
    ops.getTile s' x y = some color := by
  have hcolpt : (fun c => eqv c t0) color = false := hcol
  have hins_start : ops.inside s0 (fun c => eqv c t0) sy sx = true := by
    show ((ops.getTile s0 sx sy).map (fun c => eqv c t0)).getD false = true
    rw [ht0]
    simp only [Option.map_some', Option.getD_some]
    exact hself
  unfold floodFill at hrun
  rw [ht0] at hrun
  simp only at hrun
  cases hexp : expandRange (ops.inside s0 (fun c => eqv c t0) sy)
      (ops.xBound s0) sx with
  | none =>
    have := expandRange_none _ (ops.xBound s0) sx hexp
    rw [hins_start] at this
    exact Bool.noConfusion this
  | some ab =>
    rw [hexp] at hrun
    simp only at hrun
    obtain ⟨ha, hb, hallspan, hflkR, hflkL⟩ := expandRange_some _
      (ops.xBound s0) sx ab.1 ab.2
      (inside_xBound ops L s0 (fun c => eqv c t0) sy) hexp
    have hsome : ∀ z, ab.1 ≤ z → z ≤ ab.2 →
        (ops.getTile s0 z sy).isSome = true := by
      intro z h1 h2
      have hz : ((ops.getTile s0 z sy).map (fun c => eqv c t0)).getD false
          = true := hallspan z h1 h2
      cases hg : ops.getTile s0 z sy with
      | none => rw [hg] at hz; exact Bool.noConfusion hz
      | some t => rfl
    have hfill1 : ∀ z, ab.1 ≤ z → z ≤ ab.2 →
        ops.getTile (fillSpan ops sy color ab.1 ab.2 s0) z sy
          = some color := by
      intro z h1 h2
      rw [fillSpan_getTile ops L]
      rw [if_pos (show sy = sy ∧ ab.1 ≤ z ∧ z ≤ ab.2 ∧
        (ops.getTile s0 z sy).isSome = true from
        ⟨rfl, h1, h2, hsome z h1 h2⟩)]
    have hinv0 : FillInv ops (fun c => eqv c t0) color s0
        (fillSpan ops sy color ab.1 ab.2 s0)
        (match Dir.down.step sy with
          | some dy => (ab, dy, Dir.down) ::
              (match Dir.up.step sy with
                | some uy => [(ab, uy, Dir.up)]
                | none => [])
          | none => match Dir.up.step sy with
              | some uy => [(ab, uy, Dir.up)]
              | none => []) := by
      refine ⟨?_, ?_, ?_⟩
      · intro xx yy
        rcases fillSpan_writes ops (fun c => eqv c t0) color sy L s0 ab.1
            ab.2 hallspan xx yy with hunch | ⟨h1, h2, h3⟩
        · exact Or.inl hunch
        · exact Or.inr ⟨h2, h1 ▸ h3⟩
      · intro sd hsd
        have hOKup : SeedOK ops (fun c => eqv c t0) color s0
            (fillSpan ops sy color ab.1 ab.2 s0) (ab, sy + 1, Dir.up) := by
          refine ⟨sy, rfl, fun z h1 h2 => ⟨hfill1 z h1 h2,
            hallspan z h1 h2⟩, fun h1 => ?_, ?_⟩
          · exact fillSpan_dead_mono ops (fun c => eqv c t0) color L hcolpt
              sy s0 ab.1 ab.2 _ sy (hflkL h1)
          · exact fillSpan_dead_mono ops (fun c => eqv c t0) color L hcolpt
              sy s0 ab.1 ab.2 _ sy hflkR
        cases hds : Dir.down.step sy with
        | none =>
          rw [hds] at hsd
          rcases List.mem_cons.1 hsd with heq | habs
          · rw [heq]
            exact hOKup
          · exact absurd habs (List.not_mem_nil sd)
        | some dy =>
          rw [hds] at hsd
          rcases List.mem_cons.1 hsd with heq | hsd2
          · rw [heq]
            refine ⟨sy, Dir.step_inv Dir.down sy dy hds,
              fun z h1 h2 => ⟨hfill1 z h1 h2, hallspan z h1 h2⟩,
              fun h1 => ?_, ?_⟩
            · exact fillSpan_dead_mono ops (fun c => eqv c t0) color L
                hcolpt sy s0 ab.1 ab.2 _ sy (hflkL h1)
            · exact fillSpan_dead_mono ops (fun c => eqv c t0) color L
                hcolpt sy s0 ab.1 ab.2 _ sy hflkR
          · rcases List.mem_cons.1 hsd2 with heq | habs
            · rw [heq]
              exact hOKup
            · exact absurd habs (List.not_mem_nil sd)
      · intro xx yy hlive hadj
        obtain ⟨x2, y2, hadj2, hfc, hfl⟩ := hadj
        have hlive0 : ops.inside s0 (fun c => eqv c t0) yy xx = true :=
          fillSpan_live_mono ops (fun c => eqv c t0) color sy L hcolpt s0
            ab.1 ab.2 xx yy hlive
        have hnotpre : ¬ ops.getTile s0 x2 y2 = some color := by
          intro hc
          exact live_ne_color ops (fun c => eqv c t0) color hcolpt s0 x2 y2
            hfl hc
        rw [fillSpan_getTile ops L] at hfc
        split_ifs at hfc with hc
        · obtain ⟨hy2, hx2a, hx2b, -⟩ := hc
          unfold adjacent at hadj2
          simp only at hadj2
          rcases hadj2 with ⟨ha1, ha2⟩ | ⟨ha1, ha2⟩ | ⟨ha1, ha2⟩ |
            ⟨ha1, ha2⟩
          · exfalso
            have hyysy : yy = sy := by omega
            rw [hyysy] at hlive hlive0
            by_cases hxs : ab.1 ≤ xx ∧ xx ≤ ab.2
            · exact live_ne_color ops (fun c => eqv c t0) color hcolpt _
                xx sy hlive (hfill1 xx hxs.1 hxs.2)
            · have hxe : xx + 1 = ab.1 ∨ xx = ab.2 + 1 := by omega
              rcases hxe with hxe | hxe
              · have := hflkL (by omega)
                rw [show ab.1 - 1 = xx from by omega] at this
                rw [hlive0] at this
                exact Bool.noConfusion this
              · rw [hxe] at hlive0
                rw [hflkR] at hlive0
                exact Bool.noConfusion hlive0
          · exfalso
            have hyysy : yy = sy := by omega
            rw [hyysy] at hlive hlive0
            by_cases hxs : ab.1 ≤ xx ∧ xx ≤ ab.2
            · exact live_ne_color ops (fun c => eqv c t0) color hcolpt _
                xx sy hlive (hfill1 xx hxs.1 hxs.2)
            · have hxe : xx + 1 = ab.1 ∨ xx = ab.2 + 1 := by omega
              rcases hxe with hxe | hxe
              · have := hflkL (by omega)
                rw [show ab.1 - 1 = xx from by omega] at this
                rw [hlive0] at this
                exact Bool.noConfusion this
              · rw [hxe] at hlive0
                rw [hflkR] at hlive0
                exact Bool.noConfusion hlive0
          · -- y2 = yy + 1 and sy = y2: yy = sy - 1, down step
            have hds : Dir.down.step sy = some yy := by
              rw [hy2] at ha1
              rw [ha1]
              rfl
            refine ⟨(ab, yy, Dir.down), ?_, ab.1, ab.2, Dir.down, rfl, xx,
              xx, Nat.le_refl xx, Nat.le_refl xx,
              (fun z h1 h2 => by
                have hz : z = xx := by omega
                rw [hz]; exact hlive), xx, Nat.le_refl xx, Nat.le_refl xx,
              by omega, by omega⟩
            rw [hds]
            exact List.mem_cons_self _ _
          · -- yy = y2 + 1, y2 = sy: yy = sy + 1, up seed
            have hyy : yy = sy + 1 := by omega
            refine ⟨(ab, sy + 1, Dir.up), ?_, ab.1, ab.2, Dir.up,
              by rw [hyy], xx, xx, Nat.le_refl xx, Nat.le_refl xx,
              (fun z h1 h2 => by
                have hz : z = xx := by omega
                rw [hz]; exact hlive), xx, Nat.le_refl xx, Nat.le_refl xx,
              by omega, by omega⟩
            cases hds : Dir.down.step sy with
            | none =>
              show (ab, sy + 1, Dir.up) ∈ [(ab, sy + 1, Dir.up)]
              exact List.mem_cons_self _ _
            | some dy =>
              show (ab, sy + 1, Dir.up) ∈
                (ab, dy, Dir.down) :: [(ab, sy + 1, Dir.up)]
              exact List.mem_cons_of_mem _ (List.mem_cons_self _ _)
        · exact absurd hfc hnotpre
    have hfinal := floodLoop_inv ops (fun c => eqv c t0) color L hcolpt s0
      fuel _ _ s' hinv0 hrun
    obtain ⟨hvals', -, hfront'⟩ := hfinal
    have hstart' : ops.getTile s' sx sy = some color :=
      floodLoop_keep_color ops (fun c => eqv c t0) color L fuel _ _ s' hrun
        sx sy (hfill1 sx ha hb)
    have hkey : ∀ q : Nat × Nat, ReachIn (fun p =>
        ops.inside s0 (fun c => eqv c t0) p.2 p.1 = true) (sx, sy) q →
        Filled ops (fun c => eqv c t0) color s0 s' q.1 q.2 := by
      intro q hq
      induction hq with
      | refl => exact ⟨hstart', hins_start⟩
      | tail hsteps hstep ihq =>
        rename_i b c
        obtain ⟨hadjbc, hlivec⟩ := hstep
        rcases hvals' c.1 c.2 with hunch | hFc
        · exfalso
          have hlivec' : ops.inside s' (fun c' => eqv c' t0) c.2 c.1
              = true := by
            show ((ops.getTile s' c.1 c.2).map _).getD false = true
            rw [hunch]
            exact hlivec
          have hcov := hfront' c.1 c.2 hlivec'
            ⟨b.1, b.2, adjacent_symm b (c.1, c.2) (by
              obtain ⟨c1, c2⟩ := c
              exact hadjbc), by
              obtain ⟨b1, b2⟩ := b
              exact ihq⟩
          obtain ⟨sd, hsd, -⟩ := hcov
          exact absurd hsd (List.not_mem_nil sd)
        · exact hFc
    have := hkey (x, y) hreach
    exact this.1
end FloodComplete

section Diverge
variable {T : Type} (pt : T → Bool) (color : T)

/-- If a set of seeds is closed under seed processing on a grid the fill
leaves unchanged, a stack meeting the set loops forever. -/
theorem gridLoop_cyc_diverges (g : Grid T) (CYC : List Seed)
    (hstat : ∀ t, pt t = true → t = color)
    (hstep : ∀ sd ∈ CYC, ∃ sd' ∈ (childGo (gridOps T) pt color sd.2.1 sd.2.2
      (if 2 ≤ sd.1.1 then some (sd.1.1 - 2) else none) (sd.1.2 + 2) sd.1.2
      (sd.1.2 + 2) sd.1.1 g []).2, sd' ∈ CYC) :
    ∀ fuel st, (∃ sd ∈ st, sd ∈ CYC) →
      floodLoop (gridOps T) pt color fuel g st = none := by
  intro fuel
  induction fuel with
  | zero =>
    intro st h
    obtain ⟨sd, hmem, _⟩ := h
    cases st with
    | nil => exact absurd hmem (List.not_mem_nil sd)
    | cons a rest => rfl
  | succ fuel ih =>
    intro st h
    obtain ⟨sd, hmem, hcyc⟩ := h
    cases st with
    | nil => exact absurd hmem (List.not_mem_nil sd)
    | cons hd rest =>
      obtain ⟨⟨pl, pr⟩, yy, dd⟩ := hd
      rw [floodLoop]
      have hres : childLoop (gridOps T) pt color yy dd
          (if 2 ≤ pl then some (pl - 2) else none) (pr + 2) pr pl g rest
          = (g, (childGo (gridOps T) pt color yy dd
              (if 2 ≤ pl then some (pl - 2) else none) (pr + 2) pr (pr + 2)
              pl g []).2 ++ rest) := by
        have h1 : childGo (gridOps T) pt color yy dd
            (if 2 ≤ pl then some (pl - 2) else none) (pr + 2) pr (pr + 2) pl
            g rest
            = ((childGo (gridOps T) pt color yy dd
                (if 2 ≤ pl then some (pl - 2) else none) (pr + 2) pr (pr + 2)
                pl g []).1,
              (childGo (gridOps T) pt color yy dd
                (if 2 ≤ pl then some (pl - 2) else none) (pr + 2) pr (pr + 2)
                pl g []).2 ++ rest) := by
          have h0 := childGo_stack_append (gridOps T) pt color yy dd
            (if 2 ≤ pl then some (pl - 2) else none) (pr + 2) pr (pr + 2) pl
            g [] rest
          rw [List.nil_append] at h0
          exact h0
        have h2 := gridChildGo_static pt color yy dd
          (if 2 ≤ pl then some (pl - 2) else none) (pr + 2) pr hstat
          (pr + 2) pl g []
        show childGo (gridOps T) pt color yy dd
          (if 2 ≤ pl then some (pl - 2) else none) (pr + 2) pr (pr + 2) pl
          g rest = _
        rw [h1, h2]
      show floodLoop (gridOps T) pt color fuel
        (childLoop (gridOps T) pt color yy dd
          (if 2 ≤ pl then some (pl - 2) else none) (pr + 2) pr pl g
          rest).1
        (childLoop (gridOps T) pt color yy dd
          (if 2 ≤ pl then some (pl - 2) else none) (pr + 2) pr pl g
          rest).2 = none
      rw [hres]
      rcases List.mem_cons.1 hmem with heq | hrest
      · obtain ⟨sd', hmem', hcyc'⟩ := hstep sd hcyc
        subst heq
        exact ih _ ⟨sd', List.mem_append_left rest hmem', hcyc'⟩
      · exact ih _ ⟨sd, List.mem_append_right _ hrest, hcyc⟩
end Diverge

theorem grid55Cyc_step : ∀ sd ∈ grid55Cyc,
    ∃ sd' ∈ (childGo (gridOps Nat) (fun c => c == 0) 0 sd.2.1 sd.2.2
      (if 2 ≤ sd.1.1 then some (sd.1.1 - 2) else none) (sd.1.2 + 2) sd.1.2
      (sd.1.2 + 2) sd.1.1 grid55 []).2, sd' ∈ grid55Cyc := by
  decide

/-- C1, counterexample: on the very 5x5 scenario named in the claim, a fill
value satisfying the predicate against the start value (the start value
itself) makes flood_fill loop forever, so the universal claim over every
fill value fails. -/
theorem c1_flood_fill_counterexample :
    ¬ ∃ fuel g', floodFillGrid fuel grid55 0 0 (fun a b => a == b) 0
      = some g' := by
  rintro ⟨fuel, g', h⟩
  have hconv : floodFillGrid fuel grid55 0 0 (fun a b => a == b) 0
      = floodLoop (gridOps Nat) (fun c => c == 0) 0 fuel grid55
        [((0, 4), 1, Dir.up)] := rfl
  rw [hconv] at h
  rw [gridLoop_cyc_diverges (fun c => c == 0) 0 grid55 grid55Cyc
    (fun t ht => by simpa using ht) grid55Cyc_step fuel
    [((0, 4), 1, Dir.up)]
    ⟨((0, 4), 1, Dir.up), List.mem_cons_self _ _, by decide⟩] at h
  exact Option.noConfusion h

/-- C1 (amended): completeness plus the concrete scenario with a fill
value failing the predicate. -/
theorem c1_flood_fill_completeness :
    (∀ (T : Type) (g g' : Grid T) (fuel sx sy x y : Nat)
      (eqv : T → T → Bool) (color t0 : T),
      g.tileAt sx sy = some t0 → eqv t0 t0 = true → eqv color t0 = false →
      floodFillGrid fuel g sx sy eqv color = some g' →
      ReachIn (fun p => (gridOps T).inside g (fun c => eqv c t0) p.2 p.1
        = true) (sx, sy) (x, y) →
      g'.tileAt x y = some color) ∧
    (floodFillGrid 100 grid55 0 0 (fun a b => a == b) 2 = some grid55Filled ∧
      grid55Filled.tiles.count 2 = 24 ∧
      grid55Filled.tileAt 2 2 = some 1 ∧
      grid55.tileAt 2 2 = some 1) :=
  ⟨fun T g g' fuel sx sy x y eqv color t0 ht0 hself hcol hrun hreach =>
    floodFill_completeness (gridOps T) (gridLaws T) g fuel sx sy eqv color
      g' t0 ht0 hself hcol hrun x y hreach,
   by decide⟩

theorem c1_flood_fill_completeness_witness :
    (⟨2, 1, [0, 0]⟩ : Grid Nat).tileAt 0 0 = some 0 ∧
    ((0 : Nat) == 0) = true ∧ ((5 : Nat) == 0) = false ∧
    floodFillGrid 10 (⟨2, 1, [0, 0]⟩ : Grid Nat) 0 0 (fun a b => a == b) 5
      = some ⟨2, 1, [5, 5]⟩ ∧
    (⟨2, 1, [5, 5]⟩ : Grid Nat).tileAt 1 0 = some 5 :=
  ⟨by decide, by decide, by decide, by decide,
    c1_flood_fill_completeness.1 Nat ⟨2, 1, [0, 0]⟩ ⟨2, 1, [5, 5]⟩ 10 0 0
      1 0 (fun a b => a == b) 5 0 (by decide) (by decide) (by decide)
      (by decide)
      (Relation.ReflTransGen.single ⟨Or.inl ⟨rfl, rfl⟩, by decide⟩)⟩


/-! ### The labeling pass: GroupId accounting (C10) and the 8-bit
wraparound scenario (C3) -/

section WritesAll
variable {S T : Type} (ops : TilesOps S T) (pt : T → Bool) (color : T)

theorem floodLoop_writes (L : TilesLaws ops) (hcol : pt color = false) :
    ∀ fuel (s : S) stack s',
      floodLoop ops pt color fuel s stack = some s' →
      ∀ x y, ops.getTile s' x y = ops.getTile s x y ∨
        ops.getTile s' x y = some color := by
  intro fuel
  induction fuel with
  | zero =>
    intro s stack s' hrun x y
    cases stack with
    | nil => rw [floodLoop] at hrun; cases hrun; exact Or.inl rfl
    | cons a rest => exact Option.noConfusion hrun
  | succ fuel ih =>
    intro s stack s' hrun x y
    cases stack with
    | nil => rw [floodLoop] at hrun; cases hrun; exact Or.inl rfl
    | cons sd rest =>
      obtain ⟨⟨pl, pr⟩, yy, dd⟩ := sd
      rw [floodLoop] at hrun
      rcases ih _ _ s' hrun x y with hrec | hcolr
      · rw [hrec]
        rcases childGo_writes ops pt color yy dd
            (if 2 ≤ pl then some (pl - 2) else none) (pr + 2) pr L hcol
            (pr + 2) pl s rest x y with hunch | ⟨-, hc, -⟩
        · exact Or.inl hunch
        · exact Or.inr hc
      · exact Or.inr hcolr

/-- Every tile after a terminating flood fill is unchanged or holds the
fill color. -/
theorem floodFill_writes (L : TilesLaws ops) (fuel : Nat) (s : S)
    (sx sy : Nat) (eqv : T → T → Bool) (s' : S) (t0 : T)
    (ht0 : ops.getTile s sx sy = some t0)
    (hcol : eqv color t0 = false)
    (hrun : floodFill ops fuel s sx sy eqv color = some s') :
    ∀ x y, ops.getTile s' x y = ops.getTile s x y ∨
      ops.getTile s' x y = some color := by
  intro x y
  unfold floodFill at hrun
  rw [ht0] at hrun
  simp only at hrun
  cases hexp : expandRange (ops.inside s (fun c => eqv c t0) sy)
      (ops.xBound s) sx with
  | none =>
    rw [hexp] at hrun
    cases hrun
    exact Or.inl rfl
  | some ab =>
    rw [hexp] at hrun
    simp only at hrun
    rcases floodLoop_writes ops (fun c => eqv c t0) color L hcol fuel _ _ s'
        hrun x y with hrec | hcolr
    · rw [hrec]
      rw [fillSpan_getTile ops L]
      split_ifs with hc
      · exact Or.inr rfl
      · exact Or.inl rfl
    · exact Or.inr hcolr
end WritesAll

theorem foldl_labelStep_none (fuel : Nat) :
    ∀ l : List (Nat × Nat), l.foldl (labelStep fuel) none = none := by
  intro l
  induction l with
  | nil => rfl
  | cons a rest ih => exact ih

theorem foldl_setTile_pred {T : Type} (P : T → Prop) :
    ∀ (l : List (Nat × Nat)) (g : Grid T) (f : Nat × Nat → T),
      (∀ v ∈ g.tiles, P v) → (∀ a, P (f a)) →
      ∀ v ∈ (l.foldl (fun g a => g.setTile a.1 a.2 (f a)) g).tiles, P v := by
  intro l
  induction l with
  | nil => intro g f hg _; exact hg
  | cons a rest ih =>
    intro g f hg hf
    rw [List.foldl_cons]
    apply ih _ f _ hf
    intro v hv
    unfold Grid.setTile at hv
    split_ifs at hv
    · exact hg v hv
    · exact hg v hv
    · rcases List.mem_or_eq_of_mem_set hv with h | h
      · exact hg v h
      · rw [h]
        exact hf a

theorem initGenGrid_no_group (W H : Nat) (init : Nat → Nat → Reachability) :
    ∀ x y k, (initGenGrid W H init).tileAt x y
      ≠ some (TileGenState.reachableGroup k) := by
  intro x y k hc
  have hall := foldl_setTile_pred
    (fun v => ∀ k, v ≠ TileGenState.reachableGroup k)
    (Grid.addressesList W H) (Grid.new TileGenState W H)
    (fun a => TileGenState.ofReachability (init a.1 a.2))
    (by
      intro v hv k2
      rw [List.eq_of_mem_replicate hv]
      intro hcon
      exact TileGenState.noConfusion hcon)
    (by
      intro a k2
      show TileGenState.ofReachability (init a.1 a.2) ≠ _
      cases init a.1 a.2 with
      | Open => intro hcon; exact TileGenState.noConfusion hcon
      | Closed => intro hcon; exact TileGenState.noConfusion hcon)
  have hc2 : (initGenGrid W H init).tiles.get?
      (y * (initGenGrid W H init).width + x)
      = some (TileGenState.reachableGroup k) := by
    unfold Grid.tileAt at hc
    split_ifs at hc
    exact hc
  exact hall _ (List.get?_mem hc2) k rfl

theorem foldl_labelStepTr_none (fuel : Nat) :
    ∀ l : List (Nat × Nat), l.foldl (labelStepTr fuel) none = none := by
  intro l
  induction l with
  | nil => rfl
  | cons a rest ih => exact ih

/-- One instrumented step projects to one plain step. -/
theorem labelStepTr_fst (fuel : Nat) (st : LabelState) (tr : List Nat)
    (a : Nat × Nat) :
    (labelStepTr fuel (some (st, tr)) a = none
      ∧ labelStep fuel (some st) a = none)
    ∨ ∃ st' tr', labelStepTr fuel (some (st, tr)) a = some (st', tr')
      ∧ labelStep fuel (some st) a = some st' := by
  obtain ⟨g, gid, big⟩ := st
  simp only [labelStepTr, labelStep]
  cases hv : g.tileAt a.1 a.2 with
  | none => exact Or.inl ⟨rfl, rfl⟩
  | some v =>
    simp only
    by_cases hun : v = TileGenState.unassigned
    · rw [if_pos hun, if_pos hun]
      cases hff : floodFill proxyOps fuel (g, 0) a.1 a.2
          (fun x y => x == y) (TileGenState.reachableGroup gid) with
      | none => exact Or.inl ⟨rfl, rfl⟩
      | some gcnt => exact Or.inr ⟨_, _, rfl, rfl⟩
    · rw [if_neg hun, if_neg hun]
      exact Or.inr ⟨_, _, rfl, rfl⟩

/-- The instrumented labeling fold projects to the plain one. -/
theorem labelFoldTr_fst (fuel : Nat) :
    ∀ (l : List (Nat × Nat)) (st : LabelState) (tr : List Nat),
      Option.map Prod.fst (l.foldl (labelStepTr fuel) (some (st, tr)))
        = l.foldl (labelStep fuel) (some st) := by
  intro l
  induction l with
  | nil =>
    intro st tr
    rfl
  | cons a rest ih =>
    intro st tr
    rw [List.foldl_cons, List.foldl_cons]
    rcases labelStepTr_fst fuel st tr a with ⟨h1, h2⟩ | ⟨st', tr', h1, h2⟩
    · rw [h1, h2, foldl_labelStepTr_none, foldl_labelStep_none]
      rfl
    · rw [h1, h2]
      exact ih st' tr'

/-- The instrumented labeling-loop invariant: with `f` components filled so
far the GroupId counter reads `f mod 256` and the trace lists the ids
`0 mod 256, ..., (f-1) mod 256` in discovery order; while at most 256
components have been discovered every GroupId on the grid is below the
component count. -/
theorem labelFoldTr_gids (fuel : Nat) :
    ∀ (addrs : List (Nat × Nat)) (g : Grid TileGenState)
      (gid f : Nat) (big : Nat × Nat) (tr : List Nat)
      (res : LabelState) (trres : List Nat),
      gid = f % 256 →
      tr = (List.range f).map (fun i => i % 256) →
      (f ≤ 256 → ∀ x y k,
        g.tileAt x y = some (TileGenState.reachableGroup k) → k < f) →
      addrs.foldl (labelStepTr fuel) (some ((g, gid, big), tr))
        = some (res, trres) →
      ∃ fr, f ≤ fr ∧ res.2.1 = fr % 256 ∧
        trres = (List.range fr).map (fun i => i % 256) ∧
        (fr ≤ 256 → ∀ x y k,
          res.1.tileAt x y = some (TileGenState.reachableGroup k) →
            k < fr) := by
  intro addrs
  induction addrs with
  | nil =>
    intro g gid f big tr res trres hgid htr htags hrun
    rw [List.foldl_nil] at hrun
    cases hrun
    exact ⟨f, Nat.le_refl f, hgid, htr, htags⟩
  | cons a rest ih =>
    intro g gid f big tr res trres hgid htr htags hrun
    rw [List.foldl_cons] at hrun
    rw [labelStepTr] at hrun
    cases hv : g.tileAt a.1 a.2 with
    | none =>
      rw [hv] at hrun
      rw [foldl_labelStepTr_none] at hrun
      exact Option.noConfusion hrun
    | some v =>
      rw [hv] at hrun
      simp only at hrun
      by_cases hun : v = TileGenState.unassigned
      · rw [if_pos hun] at hrun
        cases hff : floodFill proxyOps fuel (g, 0) a.1 a.2
            (fun x y => x == y) (TileGenState.reachableGroup gid) with
        | none =>
          rw [hff] at hrun
          rw [foldl_labelStepTr_none] at hrun
          exact Option.noConfusion hrun
        | some gcnt =>
          rw [hff] at hrun
          simp only at hrun
          have hgid' : groupIdNext gid = (f + 1) % 256 := by
            unfold groupIdNext
            rw [hgid]
            omega
          have htr' : tr ++ [gid]
              = (List.range (f + 1)).map (fun i => i % 256) := by
            rw [List.range_succ, List.map_append, htr, hgid]
            rfl
          have htags' : f + 1 ≤ 256 → ∀ x y k,
              gcnt.1.tileAt x y
                = some (TileGenState.reachableGroup k) → k < f + 1 := by
            intro hle x y k htag
            have ht0 : proxyOps.getTile (g, 0) a.1 a.2
                = some TileGenState.unassigned := by
              show g.tileAt a.1 a.2 = some TileGenState.unassigned
              rw [hv, hun]
            have hwr := floodFill_writes proxyOps
              (TileGenState.reachableGroup gid) proxyLaws fuel (g, 0) a.1
              a.2 (fun x y => x == y) gcnt TileGenState.unassigned ht0
              (by rfl) hff
            rcases hwr x y with hunch | hcolr
            · have hld : gcnt.1.tileAt x y = g.tileAt x y := hunch
              exact Nat.lt_succ_of_lt (htags (by omega) x y k (hld ▸ htag))
            · have hld : gcnt.1.tileAt x y
                  = some (TileGenState.reachableGroup gid) := hcolr
              have hk : TileGenState.reachableGroup k
                  = TileGenState.reachableGroup gid := by
                have h2 : (some (TileGenState.reachableGroup k) :
                    Option TileGenState)
                    = some (TileGenState.reachableGroup gid) := by
                  rw [← htag]
                  exact hld
                injection h2
              injection hk with hk2
              have hflt : f < 256 := by omega
              rw [hk2, hgid, Nat.mod_eq_of_lt hflt]
              omega
          exact (ih gcnt.1 (groupIdNext gid) (f + 1) _ _ res trres hgid'
            htr' htags' hrun).imp (fun fr ⟨h1, h2, h3, h4⟩ =>
              ⟨by omega, h2, h3, h4⟩)
      · rw [if_neg hun] at hrun
        exact ih g gid f big tr res trres hgid htr htags hrun

/-- C10: the trace of the instrumented labeling pass lists, in discovery
order, the GroupId assigned to each flood-filled component (one entry per
flood fill), and the instrumented pass projects onto the real one.  The
trace is exactly `0 mod 256, 1 mod 256, ...`, the final counter is the
component count mod 256, and — the claimed distinctness — provided the
pass discovered fewer than 256 components the assigned GroupIds are
pairwise distinct (`Nodup`); moreover while at most 256 components exist
every GroupId on the grid is one of the traced ids.  The fewer-than-256
bound is the precondition under which the unchecked 8-bit increment never
overflows. -/
theorem c10_groupid_distinct (fuel W H : Nat)
    (init : Nat → Nat → Reachability) (res : LabelState)
    (hrun : (Grid.addressesList W H).foldl (labelStep fuel)
      (some (initGenGrid W H init, 0, (0, 0))) = some res) :
    ∃ gids : List Nat,
      (Grid.addressesList W H).foldl (labelStepTr fuel)
        (some ((initGenGrid W H init, 0, (0, 0)), [])) = some (res, gids)
      ∧ gids = (List.range gids.length).map (fun i => i % 256)
      ∧ res.2.1 = gids.length % 256
      ∧ (gids.length < 256 → gids.Nodup)
      ∧ (gids.length ≤ 256 → ∀ x y k,
          res.1.tileAt x y = some (TileGenState.reachableGroup k) →
            k ∈ gids) := by
  have hproj := labelFoldTr_fst fuel (Grid.addressesList W H)
    (initGenGrid W H init, 0, (0, 0)) []
  rw [hrun] at hproj
  cases htr : (Grid.addressesList W H).foldl (labelStepTr fuel)
      (some ((initGenGrid W H init, 0, (0, 0)), [])) with
  | none =>
    rw [htr] at hproj
    exact Option.noConfusion hproj
  | some p =>
    obtain ⟨st', gids⟩ := p
    rw [htr] at hproj
    have hst : st' = res := by
      have : some st' = some res := hproj
      injection this
    subst hst
    obtain ⟨fr, -, hcnt, htrace, htags⟩ := labelFoldTr_gids fuel
      (Grid.addressesList W H) (initGenGrid W H init) 0 0 (0, 0) [] st'
      gids rfl (by rw [List.range_zero, List.map_nil])
      (fun _ x y k htag => absurd htag (initGenGrid_no_group W H init x y k))
      htr
    have hlen : gids.length = fr := by
      rw [htrace, List.length_map, List.length_range]
    refine ⟨gids, rfl, ?_, ?_, ?_, ?_⟩
    · rw [hlen, htrace]
    · rw [hlen, hcnt]
    · intro hlt
      rw [hlen] at hlt
      have : gids = List.range fr := by
        rw [htrace]
        have : ∀ i ∈ List.range fr, i % 256 = i := by
          intro i hi
          rw [List.mem_range] at hi
          exact Nat.mod_eq_of_lt (by omega)
        calc (List.range fr).map (fun i => i % 256)
            = (List.range fr).map (fun i => i) := List.map_congr_left this
          _ = List.range fr := List.map_id _
      rw [this]
      exact List.nodup_range fr
    · intro hle x y k htag
      rw [hlen] at hle
      have hk : k < fr := htags hle x y k htag
      rw [htrace]
      exact List.mem_map.2 ⟨k, List.mem_range.2 hk,
        Nat.mod_eq_of_lt (by omega)⟩

theorem c10_groupid_distinct_witness :
    ((Grid.addressesList 2 1).foldl (labelStep 10)
      (some (initGenGrid 2 1 (fun _ _ => Reachability.Open), 0, (0, 0)))
      = some (⟨2, 1, [TileGenState.reachableGroup 0,
          TileGenState.reachableGroup 0]⟩, 1, (0, 2)))
    ∧ (∃ gids : List Nat,
        (Grid.addressesList 2 1).foldl (labelStepTr 10)
          (some ((initGenGrid 2 1 (fun _ _ => Reachability.Open), 0, (0, 0)),
            []))
          = some ((⟨2, 1, [TileGenState.reachableGroup 0,
              TileGenState.reachableGroup 0]⟩, 1, (0, 2)), gids)
        ∧ gids = (List.range gids.length).map (fun i => i % 256)
        ∧ (((⟨2, 1, [TileGenState.reachableGroup 0,
            TileGenState.reachableGroup 0]⟩, 1, (0, 2)) :
            LabelState)).2.1 = gids.length % 256
        ∧ (gids.length < 256 → gids.Nodup)
        ∧ (gids.length ≤ 256 → ∀ x y k,
            (((⟨2, 1, [TileGenState.reachableGroup 0,
              TileGenState.reachableGroup 0]⟩, 1, (0, 2)) :
              LabelState)).1.tileAt x y
              = some (TileGenState.reachableGroup k) → k ∈ gids)) :=
  ⟨by decide,
    c10_groupid_distinct 10 2 1 (fun _ _ => Reachability.Open) _ (by decide)⟩

section ScanStop
variable (ins : Nat → Bool)

theorem goLeft_stop (x : Nat) (h : 1 ≤ x → ins (x - 1) = false) :
    goLeft ins x = x := by
  cases x with
  | zero => rfl
  | succ x =>
    rw [goLeft]
    rw [show ins x = false from h (by omega)]
    simp

theorem goRightAux_stop (k x : Nat) (h : ins (x + 1) = false) :
    goRightAux ins k x = x := by
  cases k with
  | zero => rfl
  | succ k =>
    rw [goRightAux]
    rw [h]
    simp

theorem goRight_stop (bound x : Nat) (h : ins (x + 1) = false) :
    goRight ins bound x = x :=
  goRightAux_stop ins _ x h

theorem findInsideFromAux_none_of_dead :
    ∀ k cx, (∀ z, cx ≤ z → z < cx + k → ins z = false) →
      findInsideFromAux ins k cx = none := by
  intro k
  induction k with
  | zero => intro cx _; rfl
  | succ k ih =>
    intro cx hdead
    rw [findInsideFromAux]
    rw [show ins cx = false from hdead cx (Nat.le_refl cx) (by omega)]
    simp only [Bool.false_eq_true, if_false]
    exact ih (cx + 1) (fun z h1 h2 => hdead z (by omega) (by omega))

theorem findInsideFrom_none_of_dead (cx r : Nat)
    (h : ∀ z, cx ≤ z → z ≤ r → ins z = false) :
    findInsideFrom ins cx r = none := by
  unfold findInsideFrom
  exact findInsideFromAux_none_of_dead ins _ cx
    (fun z h1 h2 => h z h1 (by omega))

theorem findInsideFromAux_here (k cx : Nat) (h : ins cx = true) :
    findInsideFromAux ins (k + 1) cx = some cx := by
  rw [findInsideFromAux, h]
  simp

theorem findInsideFrom_here (cx r : Nat) (hcx : cx ≤ r)
    (h : ins cx = true) : findInsideFrom ins cx r = some cx := by
  unfold findInsideFrom
  rw [show r + 1 - cx = (r - cx) + 1 from by omega]
  exact findInsideFromAux_here ins _ cx h
end ScanStop

section Singleton
variable {S T : Type} (ops : TilesOps S T) (pt : T → Bool) (color : T)
  (y : Nat) (d : Dir) (ps2 : Option Nat) (pe2 pr : Nat)

theorem childGo_dead (k cx : Nat) (s : S) (stack : List Seed) (hk : 1 ≤ k)
    (hdead : ∀ z, cx ≤ z → z ≤ pr → ops.inside s pt y z = false) :
    childGo ops pt color y d ps2 pe2 pr k cx s stack = (s, stack) := by
  obtain ⟨k', rfl⟩ : ∃ k', k = k' + 1 := ⟨k - 1, by omega⟩
  rw [childGo]
  rw [findInsideFrom_none_of_dead _ cx pr hdead]

theorem floodLoop_pop_dead (f pl : Nat) (s : S) (rest : List Seed)
    (hdead : ∀ z, pl ≤ z → z ≤ pr → ops.inside s pt y z = false) :
    floodLoop ops pt color (f + 1) s (((pl, pr), y, d) :: rest)
      = floodLoop ops pt color f s rest := by
  rw [floodLoop]
  show floodLoop ops pt color f
    (childLoop ops pt color y d (if 2 ≤ pl then some (pl - 2) else none)
      (pr + 2) pr pl s rest).1
    (childLoop ops pt color y d (if 2 ≤ pl then some (pl - 2) else none)
      (pr + 2) pr pl s rest).2 = floodLoop ops pt color f s rest
  rw [show childLoop ops pt color y d
      (if 2 ≤ pl then some (pl - 2) else none) (pr + 2) pr pl s rest
      = (s, rest) from childGo_dead ops pt color y d _ _ pr (pr + 2) pl s
        rest (by omega) hdead]
end Singleton

section SingletonFill
variable {S T : Type} (ops : TilesOps S T)

/-- A flood fill started on a live tile all four neighbours of which are
dead recolors exactly the start tile. -/
theorem floodFill_singleton (L : TilesLaws ops) (s : S) (sx sy : Nat)
    (eqv : T → T → Bool) (color : T) (t0 : T)
    (ht0 : ops.getTile s sx sy = some t0)
    (hself : eqv t0 t0 = true)
    (hL : 1 ≤ sx → ops.inside s (fun c => eqv c t0) sy (sx - 1) = false)
    (hR : ops.inside s (fun c => eqv c t0) sy (sx + 1) = false)
    (hU : ops.inside s (fun c => eqv c t0) (sy + 1) sx = false)
    (hD : 1 ≤ sy → ops.inside s (fun c => eqv c t0) (sy - 1) sx = false)
    (fuel : Nat) (hfuel : 3 ≤ fuel) :
    floodFill ops fuel s sx sy eqv color
      = some (ops.setTile s sx sy color) := by
  have hins : ops.inside s (fun c => eqv c t0) sy sx = true := by
    show ((ops.getTile s sx sy).map _).getD false = true
    rw [ht0]
    simp only [Option.map_some', Option.getD_some]
    exact hself
  unfold floodFill
  rw [ht0]
  simp only
  unfold expandRange
  rw [hins]
  simp only [if_true]
  rw [goLeft_stop _ sx hL, goRight_stop _ _ sx hR]
  have hs1 : fillSpan ops sy color sx sx s = ops.setTile s sx sy color := by
    unfold fillSpan
    rw [show sx + 1 - sx = 1 from by omega]
    rfl
  have hdeadrow : ∀ r, ops.inside s (fun c => eqv c t0) r sx = false →
      ∀ z, sx ≤ z → z ≤ sx →
        ops.inside (fillSpan ops sy color sx sx s) (fun c => eqv c t0) r z
          = false := by
    intro r hr z h1 h2
    have hz : z = sx := by omega
    rw [hz, hs1]
    by_cases hry : r = sy
    · exfalso
      rw [hry] at hr
      rw [hins] at hr
      exact Bool.noConfusion hr
    · show ((ops.getTile (ops.setTile s sx sy color) sx r).map _).getD false
        = false
      rw [L.get_set_other s sx sy color sx r (Or.inr hry)]
      exact hr
  obtain ⟨f, rfl⟩ : ∃ f, fuel = f + 3 := ⟨fuel - 3, by omega⟩
  cases sy with
  | zero =>
    show floodLoop ops (fun c => eqv c t0) color (f + 2 + 1)
      (fillSpan ops 0 color sx sx s) [((sx, sx), 1, Dir.up)]
      = some (ops.setTile s sx 0 color)
    rw [floodLoop_pop_dead ops (fun c => eqv c t0) color 1 Dir.up sx
      (f + 2) sx _ [] (hdeadrow 1 hU)]
    rw [floodLoop]
    rw [hs1]
  | succ k =>
    show floodLoop ops (fun c => eqv c t0) color (f + 1 + 1 + 1)
      (fillSpan ops (k + 1) color sx sx s)
      [((sx, sx), k, Dir.down), ((sx, sx), k + 2, Dir.up)]
      = some (ops.setTile s sx (k + 1) color)
    rw [floodLoop_pop_dead ops (fun c => eqv c t0) color k Dir.down sx
      (f + 1 + 1) sx _ _ (hdeadrow k (hD (by omega)))]
    rw [floodLoop_pop_dead ops (fun c => eqv c t0) color (k + 2) Dir.up sx
      (f + 1) sx _ [] (hdeadrow (k + 2) hU)]
    rw [floodLoop]
    rw [hs1]
end SingletonFill

theorem map_range_get? {α : Type} (m i : Nat) (f : Nat → α) :
    ((List.range m).map f).get? i = if i < m then some (f i) else none := by
  rw [List.get?_map]
  split_ifs with hi
  · rw [List.get?_range hi]
    rfl
  · rw [List.get?_eq_none.2]
    · rfl
    · rw [List.length_range]
      omega

theorem map_range_set {α : Type} (m n : Nat) (v : α) (f f' : Nat → α)
    (hn : n < m) (hagree : ∀ x, x ≠ n → f x = f' x) (hv : f' n = v) :
    ((List.range m).map f).set n v = (List.range m).map f' := by
  apply List.ext
  intro i
  by_cases hi : i = n
  · subst hi
    rw [List.get?_set_eq_of_lt _ (show i < (List.map f (List.range m)).length
      from by
        rw [List.length_map, List.length_range]
        exact hn)]
    rw [map_range_get?, if_pos hn, hv]
  · rw [List.get?_set_ne _ _ (fun hc => hi hc.symm)]
    rw [map_range_get?, map_range_get?]
    split_ifs with h2
    · rw [hagree i hi]
    · rfl

theorem genAfter_tileAt (n x : Nat) (hx : x < 513) :
    (genAfter n).tileAt x 0 = some (
      if x % 2 == 1 then TileGenState.unreachable
      else if x < n then TileGenState.reachableGroup ((x / 2) % 256)
      else TileGenState.unassigned) := by
  unfold genAfter Grid.tileAt
  rw [if_neg (show ¬ ((513 : Nat) ≤ x) from by omega)]
  rw [if_neg (show ¬ ((1 : Nat) ≤ 0) from by omega)]
  rw [show 0 * 513 + x = x from by omega]
  rw [map_range_get?, if_pos hx]

theorem genAfter_succ_odd (n : Nat) (hodd : n % 2 = 1) :
    genAfter (n + 1) = genAfter n := by
  unfold genAfter
  have : ((List.range 513).map (fun x =>
      if x % 2 == 1 then TileGenState.unreachable
      else if x < n + 1 then TileGenState.reachableGroup ((x / 2) % 256)
      else TileGenState.unassigned))
      = ((List.range 513).map (fun x =>
      if x % 2 == 1 then TileGenState.unreachable
      else if x < n then TileGenState.reachableGroup ((x / 2) % 256)
      else TileGenState.unassigned)) := by
    apply List.map_congr_left
    intro x _
    by_cases hx2 : x % 2 == 1
    · rw [if_pos hx2, if_pos hx2]
    · rw [if_neg hx2, if_neg hx2]
      have hxn : x ≠ n := by
        intro hc
        subst hc
        rw [hodd] at hx2
        exact hx2 rfl
      by_cases hxlt : x < n
      · rw [if_pos (by omega), if_pos hxlt]
      · rw [if_neg (by omega), if_neg hxlt]
  rw [this]

theorem genAfter_succ_even (n : Nat) (heven : n % 2 = 0) (hn : n < 513) :
    (genAfter n).setTile n 0
      (TileGenState.reachableGroup ((n / 2) % 256)) = genAfter (n + 1) := by
  conv_lhs => unfold genAfter Grid.setTile
  rw [if_neg (show ¬ ((513 : Nat) ≤ n) from by omega)]
  rw [if_neg (show ¬ ((1 : Nat) ≤ 0) from by omega)]
  rw [show 0 * 513 + n = n from by omega]
  unfold genAfter
  rw [map_range_set 513 n _ _ _ hn]
  · intro x hx
    by_cases hx2 : x % 2 == 1
    · rw [if_pos hx2, if_pos hx2]
    · rw [if_neg hx2, if_neg hx2]
      by_cases hxlt : x < n
      · rw [if_pos hxlt, if_pos (by omega)]
      · rw [if_neg hxlt, if_neg (by omega)]
  · rw [show (n % 2 == 1) = false from by
      cases h2 : n % 2 == 1
      · rfl
      · exfalso
        have := of_decide_eq_true h2
        omega]
    simp only [Bool.false_eq_true, if_false]
    rw [if_pos (by omega)]

theorem genAfter_tileAt_xhi (m x y : Nat) (hx : 513 ≤ x) :
    (genAfter m).tileAt x y = none := by
  unfold genAfter Grid.tileAt
  rw [if_pos hx]

theorem genAfter_tileAt_yhi (m x y : Nat) (hy : 1 ≤ y) :
    (genAfter m).tileAt x y = none := by
  unfold genAfter Grid.tileAt
  by_cases hx : 513 ≤ x
  · rw [if_pos hx]
  · rw [if_neg hx, if_pos hy]

theorem proxy_getTile (g : Grid TileGenState) (c x y : Nat) :
    proxyOps.getTile (g, c) x y = g.tileAt x y := rfl

theorem proxy_setTile_hit (g : Grid TileGenState) (c x y : Nat)
    (t v : TileGenState) (hv : g.tileAt x y = some v) :
    proxyOps.setTile (g, c) x y t = (g.setTile x y t, c + 1) := by
  show (match (g, c).1.tileAt x y with
    | some _ => ((g, c).1.setTile x y t, (g, c).2 + 1)
    | none => (g, c)) = (g.setTile x y t, c + 1)
  rw [show (g, c).1.tileAt x y = some v from hv]

theorem proxy_inside_none (g : Grid TileGenState) (c x y : Nat)
    (pt : TileGenState → Bool) (h : g.tileAt x y = none) :
    proxyOps.inside (g, c) pt y x = false := by
  show ((proxyOps.getTile (g, c) x y).map pt).getD false = false
  rw [proxy_getTile, h]
  rfl

theorem proxy_inside_val (g : Grid TileGenState) (c x y : Nat)
    (pt : TileGenState → Bool) (v : TileGenState)
    (h : g.tileAt x y = some v) (hv : pt v = false) :
    proxyOps.inside (g, c) pt y x = false := by
  show ((proxyOps.getTile (g, c) x y).map pt).getD false = false
  rw [proxy_getTile, h]
  show pt v = false
  exact hv

theorem labelStep_skip (fuel : Nat) (g : Grid TileGenState)
    (gid : Nat) (big : Nat × Nat) (a : Nat × Nat) (v : TileGenState)
    (hv : g.tileAt a.1 a.2 = some v) (hne : v ≠ TileGenState.unassigned) :
    labelStep fuel (some (g, gid, big)) a = some (g, gid, big) := by
  simp only [labelStep]
  rw [hv]
  simp only
  rw [if_neg hne]

theorem labelStep_fill (fuel : Nat) (g : Grid TileGenState)
    (gid : Nat) (big : Nat × Nat) (a : Nat × Nat)
    (g' : Grid TileGenState) (cnt : Nat)
    (hv : g.tileAt a.1 a.2 = some TileGenState.unassigned)
    (hff : floodFill proxyOps fuel (g, 0) a.1 a.2 (fun x y => x == y)
      (TileGenState.reachableGroup gid) = some (g', cnt)) :
    labelStep fuel (some (g, gid, big)) a
      = some (g', groupIdNext gid,
          if big.2 < cnt then (gid, cnt) else big) := by
  simp only [labelStep]
  rw [hv]
  simp only [if_true]
  rw [hff]

theorem outStep_some {T : Type} (gen : Grid TileGenState) (primary : Nat)
    (f : Reachability → T) (o : Grid T) (a : Nat × Nat) (v : TileGenState)
    (hv : gen.tileAt a.1 a.2 = some v) :
    outStep gen primary f (some o) a
      = some (o.setTile a.1 a.2 (f (reachabilityOf primary v))) := by
  simp only [outStep]
  rw [hv]

theorem addressesRow (W : Nat) :
    Grid.addressesList W 1 = (List.range W).map (fun x => (x, 0)) := by
  unfold Grid.addressesList
  rw [show List.range 1 = [0] from rfl]
  rw [List.flatMap_cons, List.flatMap_nil, List.append_nil]

theorem initAfter_zero : Grid.new TileGenState 513 1 = initAfter 0 := by
  unfold Grid.new initAfter
  rw [show (513 : Nat) * 1 = 513 from rfl]
  have h1 : ((List.range 513).map (fun x =>
      if x < 0 then TileGenState.ofReachability (initAlt513 x 0)
      else TileGenState.unreachable))
      = (List.range 513).map (fun _ => TileGenState.unreachable) := by
    apply List.map_congr_left
    intro x _
    rw [if_neg (by omega)]
  rw [h1]
  have h2 : (List.range 513).map (fun _ => TileGenState.unreachable)
      = List.replicate (List.range 513).length TileGenState.unreachable := by
    exact List.map_const' _ _
  rw [h2, List.length_range]
  rfl

theorem initAfter_succ (n : Nat) (hn : n < 513) :
    (initAfter n).setTile n 0
        (TileGenState.ofReachability (initAlt513 n 0)) = initAfter (n + 1) := by
  conv_lhs => unfold initAfter Grid.setTile
  rw [if_neg (show ¬ ((513 : Nat) ≤ n) from by omega)]
  rw [if_neg (show ¬ ((1 : Nat) ≤ 0) from by omega)]
  rw [show 0 * 513 + n = n from by omega]
  unfold initAfter
  rw [map_range_set 513 n _ _ _ hn]
  · intro x hx
    by_cases hxlt : x < n
    · rw [if_pos hxlt, if_pos (by omega)]
    · rw [if_neg hxlt, if_neg (by omega)]
  · rw [if_pos (by omega)]

theorem initAfter_tileAt (n x : Nat) (hx : x < 513) :
    (initAfter n).tileAt x 0 = some (
      if x < n then TileGenState.ofReachability (initAlt513 x 0)
      else TileGenState.unreachable) := by
  unfold initAfter Grid.tileAt
  rw [if_neg (show ¬ ((513 : Nat) ≤ x) from by omega)]
  rw [if_neg (show ¬ ((1 : Nat) ≤ 0) from by omega)]
  rw [show 0 * 513 + x = x from by omega]
  rw [map_range_get?, if_pos hx]

theorem initFold : ∀ n, n ≤ 513 →
    ((List.range n).map (fun x => (x, (0 : Nat)))).foldl
      (fun g a => g.setTile a.1 a.2
        (TileGenState.ofReachability (initAlt513 a.1 a.2)))
      (Grid.new TileGenState 513 1)
    = initAfter n := by
  intro n
  induction n with
  | zero =>
    intro _
    rw [List.range_zero, List.map_nil, List.foldl_nil]
    exact initAfter_zero
  | succ k ih =>
    intro hk
    rw [List.range_succ, List.map_append, List.foldl_append]
    rw [ih (by omega)]
    rw [List.map_cons, List.map_nil, List.foldl_cons, List.foldl_nil]
    exact initAfter_succ k (by omega)

theorem initGenGrid_eq : initGenGrid 513 1 initAlt513 = genAfter 0 := by
  unfold initGenGrid
  rw [addressesRow, initFold 513 (by omega)]
  unfold initAfter genAfter
  have h1 : ((List.range 513).map (fun x =>
      if x < 513 then TileGenState.ofReachability (initAlt513 x 0)
      else TileGenState.unreachable))
      = (List.range 513).map (fun x =>
        if x % 2 == 1 then TileGenState.unreachable
        else if x < 0 then TileGenState.reachableGroup ((x / 2) % 256)
        else TileGenState.unassigned) := by
    apply List.map_congr_left
    intro x hx
    rw [List.mem_range] at hx
    rw [if_pos hx]
    unfold initAlt513 TileGenState.ofReachability
    by_cases h2 : x % 2 = 0
    · rw [if_pos (by
        show (x % 2 == 0) = true
        rw [h2]
        rfl)]
      rw [if_neg (by
        show ¬ ((x % 2 == 1) = true)
        rw [h2]
        exact Bool.noConfusion)]
      rw [if_neg (by omega)]
    · rw [if_neg (by
        show ¬ ((x % 2 == 0) = true)
        intro hc
        exact h2 (of_decide_eq_true hc))]
      rw [if_pos (by
        show (x % 2 == 1) = true
        rw [show x % 2 = 1 from by omega]
        rfl)]
  rw [h1]

theorem beq_unassigned_false (v : TileGenState)
    (hv : v ≠ TileGenState.unassigned) :
    (v == TileGenState.unassigned) = false := by
  cases h : v == TileGenState.unassigned
  · rfl
  · exact absurd (of_decide_eq_true h) hv

theorem labelFill_even (n : Nat) (hn : n < 513) (heven : n % 2 = 0)
    (gid : Nat) :
    floodFill proxyOps 10 (genAfter n, 0) n 0 (fun x y => x == y)
      (TileGenState.reachableGroup gid)
    = some ((genAfter n).setTile n 0 (TileGenState.reachableGroup gid), 1) := by
  have htile : (genAfter n).tileAt n 0 = some TileGenState.unassigned := by
    rw [genAfter_tileAt n n hn]
    rw [if_neg (show ¬ ((n % 2 == 1) = true) from by
      rw [show n % 2 = 0 from heven]
      exact Bool.noConfusion)]
    rw [if_neg (show ¬ (n < n) from by omega)]
  have hres := floodFill_singleton proxyOps proxyLaws (genAfter n, 0) n 0
    (fun x y => x == y) (TileGenState.reachableGroup gid)
    TileGenState.unassigned htile (by decide)
    (by
      intro h1
      apply proxy_inside_val _ _ _ _ _ TileGenState.unreachable
      · rw [genAfter_tileAt n (n - 1) (by omega)]
        rw [if_pos (show ((n - 1) % 2 == 1) = true from by
          rw [show (n - 1) % 2 = 1 from by omega]
          rfl)]
      · decide)
    (by
      by_cases h1 : n + 1 < 513
      · apply proxy_inside_val _ _ _ _ _ TileGenState.unreachable
        · rw [genAfter_tileAt n (n + 1) h1]
          rw [if_pos (show ((n + 1) % 2 == 1) = true from by
            rw [show (n + 1) % 2 = 1 from by omega]
            rfl)]
        · decide
      · exact proxy_inside_none _ _ _ _ _ (genAfter_tileAt_xhi n (n + 1) 0
          (by omega)))
    (proxy_inside_none _ _ _ _ _ (genAfter_tileAt_yhi n n 1 (by omega)))
    (fun h => absurd h (by omega))
    10 (by omega)
  rw [hres]
  rw [proxy_setTile_hit _ _ _ _ _ TileGenState.unassigned htile]

theorem c3_label_fold : ∀ n, n ≤ 513 →
    ((List.range n).map (fun x => (x, (0 : Nat)))).foldl (labelStep 10)
      (some (initGenGrid 513 1 initAlt513, 0, (0, 0)))
    = some (genAfter n, ((n + 1) / 2) % 256,
        if n = 0 then ((0 : Nat), (0 : Nat)) else (0, 1)) := by
  intro n
  induction n with
  | zero =>
    intro _
    rw [List.range_zero, List.map_nil, List.foldl_nil, initGenGrid_eq]
    rfl
  | succ k ih =>
    intro hk
    rw [List.range_succ, List.map_append, List.foldl_append, ih (by omega),
      List.map_cons, List.map_nil, List.foldl_cons, List.foldl_nil]
    rw [if_neg (show ¬ (k + 1 = 0) from by omega)]
    by_cases hpar : k % 2 = 1
    · have htile : (genAfter k).tileAt k 0 = some TileGenState.unreachable := by
        rw [genAfter_tileAt k k (by omega)]
        rw [if_pos (show ((k % 2 == 1) = true) from by
          rw [hpar]
          rfl)]
      rw [labelStep_skip 10 _ _ _ (k, 0) _ htile (by decide)]
      rw [genAfter_succ_odd k hpar]
      rw [if_neg (show ¬ (k = 0) from by omega)]
      rw [show (k + 1) / 2 = (k + 1 + 1) / 2 from by omega]
    · have hpar2 : k % 2 = 0 := by omega
      have htile : (genAfter k).tileAt k 0 = some TileGenState.unassigned := by
        rw [genAfter_tileAt k k (by omega)]
        rw [if_neg (show ¬ ((k % 2 == 1) = true) from by
          rw [hpar2]
          exact Bool.noConfusion)]
        rw [if_neg (show ¬ (k < k) from by omega)]
      rw [labelStep_fill 10 _ _ _ (k, 0) _ _ htile
        (labelFill_even k (by omega) hpar2 _)]
      rw [show (k + 1) / 2 = k / 2 from by omega]
      rw [genAfter_succ_even k hpar2 (by omega)]
      by_cases hk0 : k = 0
      · subst hk0
        rfl
      · rw [if_neg hk0]
        rw [if_neg (show ¬ ((((0 : Nat), (1 : Nat)).2) < 1) from by decide)]
        have hgid : groupIdNext (k / 2 % 256) = (k + 1 + 1) / 2 % 256 := by
          unfold groupIdNext
          omega
        rw [hgid]

theorem outAfter_zero : Grid.new TileState 513 1 = outAfter 0 := by
  unfold Grid.new outAfter
  rw [show (513 : Nat) * 1 = 513 from rfl]
  have h1 : ((List.range 513).map (fun x =>
      if x < 0 then (if x == 0 || x == 512 then TileState.Floor
        else TileState.Water)
      else TileState.Floor))
      = (List.range 513).map (fun _ => TileState.Floor) := by
    apply List.map_congr_left
    intro x _
    rw [if_neg (by omega)]
  rw [h1]
  have h2 : (List.range 513).map (fun _ => TileState.Floor)
      = List.replicate (List.range 513).length TileState.Floor := by
    exact List.map_const' _ _
  rw [h2, List.length_range]
  rfl

theorem outAfter_succ (n : Nat) (hn : n < 513) :
    (outAfter n).setTile n 0
        (if n == 0 || n == 512 then TileState.Floor else TileState.Water)
      = outAfter (n + 1) := by
  conv_lhs => unfold outAfter Grid.setTile
  rw [if_neg (show ¬ ((513 : Nat) ≤ n) from by omega)]
  rw [if_neg (show ¬ ((1 : Nat) ≤ 0) from by omega)]
  rw [show 0 * 513 + n = n from by omega]
  unfold outAfter
  rw [map_range_set 513 n _ _ _ hn]
  · intro x hx
    by_cases hxlt : x < n
    · rw [if_pos hxlt, if_pos (show x < n + 1 from by omega)]
    · rw [if_neg hxlt, if_neg (show ¬ (x < n + 1) from by omega)]
  · rw [if_pos (show n < n + 1 from by omega)]

theorem outAfter_tileAt (n x : Nat) (hx : x < 513) :
    (outAfter n).tileAt x 0 = some (
      if x < n then (if x == 0 || x == 512 then TileState.Floor
        else TileState.Water)
      else TileState.Floor) := by
  unfold outAfter Grid.tileAt
  rw [if_neg (show ¬ ((513 : Nat) ≤ x) from by omega)]
  rw [if_neg (show ¬ ((1 : Nat) ≤ 0) from by omega)]
  rw [show 0 * 513 + x = x from by omega]
  rw [map_range_get?, if_pos hx]

theorem outValue (n : Nat) (hn : n < 513) :
    outF (reachabilityOf 0 (if n % 2 == 1 then TileGenState.unreachable
      else if n < 513 then TileGenState.reachableGroup ((n / 2) % 256)
      else TileGenState.unassigned))
    = (if n == 0 || n == 512 then TileState.Floor else TileState.Water) := by
  by_cases hpar : n % 2 = 1
  · rw [if_pos (show ((n % 2 == 1) = true) from by
      rw [hpar]
      rfl)]
    rw [show (n == 0) = false from beq_eq_false_iff_ne.2 (by omega)]
    rw [show (n == 512) = false from beq_eq_false_iff_ne.2 (by omega)]
    rfl
  · have hpar2 : n % 2 = 0 := by omega
    rw [if_neg (show ¬ ((n % 2 == 1) = true) from by
      rw [hpar2]
      exact Bool.noConfusion)]
    rw [if_pos hn]
    by_cases h0 : n = 0
    · subst h0
      rfl
    · by_cases h512 : n = 512
      · subst h512
        rfl
      · have hne : (n / 2) % 256 ≠ 0 := by omega
        show outF (if (n / 2) % 256 = 0 then Reachability.Open
          else Reachability.Closed) = _
        rw [if_neg hne]
        rw [show (n == 0) = false from beq_eq_false_iff_ne.2 h0]
        rw [show (n == 512) = false from beq_eq_false_iff_ne.2 h512]
        rfl

theorem outFold : ∀ n, n ≤ 513 →
    ((List.range n).map (fun x => (x, (0 : Nat)))).foldl
      (outStep (genAfter 513) 0 outF) (some (Grid.new TileState 513 1))
    = some (outAfter n) := by
  intro n
  induction n with
  | zero =>
    intro _
    rw [List.range_zero, List.map_nil, List.foldl_nil, outAfter_zero]
  | succ k ih =>
    intro hk
    rw [List.range_succ, List.map_append, List.foldl_append, ih (by omega),
      List.map_cons, List.map_nil, List.foldl_cons, List.foldl_nil]
    rw [outStep_some (genAfter 513) 0 outF _ (k, 0) _
      (genAfter_tileAt 513 k (by omega))]
    rw [outValue k (by omega)]
    exact congrArg some (outAfter_succ k (by omega))

/-- The output phase of `generate_island_into`, given the result of the
labeling phase: fold the output classification over the output grid's
addresses with the biggest group as the primary one. -/
theorem generateIslandInto_run {T : Type} (fuel W H : Nat)
    (init : Nat → Nat → Reachability) (out : Grid T) (f : Reachability → T)
    (g : Grid TileGenState) (gid : Nat) (big : Nat × Nat)
    (hlab : (Grid.addressesList W H).foldl (labelStep fuel)
      (some (initGenGrid W H init, 0, (0, 0))) = some (g, gid, big)) :
    generateIslandInto fuel W H init out f
      = (Grid.addressesList out.width out.height).foldl
          (outStep g big.1 f) (some out) := by
  unfold generateIslandInto
  rw [hlab]

/-- C3: the claim fails on inputs with 256 or more Open regions, because
the unchecked 8-bit GroupId increment wraps.  On the 513x1 strip whose 257
Open regions are the isolated even columns (all of size 1, so the
tie-break should keep only the earliest region, the single tile (0,0)),
`generate_island_into` computes the stated output grid in which both
column 0 and column 512 are Floor (Open): the 257th region at (512,0)
received GroupId 256 mod 256 = 0, aliasing the primary group, although
(512,0) is not 4-connected to (0,0) through Open tiles. -/
theorem c3_groupid_wraparound :
    generateIslandInto 10 513 1 initAlt513 (Grid.new TileState 513 1) outF
      = some (outAfter 513)
    ∧ (outAfter 513).tileAt 0 0 = some TileState.Floor
    ∧ (outAfter 513).tileAt 512 0 = some TileState.Floor
    ∧ initAlt513 0 0 = Reachability.Open
    ∧ initAlt513 512 0 = Reachability.Open
    ∧ ¬ ReachIn (fun p => p.1 < 513 ∧ p.2 < 1
        ∧ initAlt513 p.1 p.2 = Reachability.Open) (0, 0) (512, 0) := by
  refine ⟨?_, ?_, ?_, by decide, by decide, ?_⟩
  · have hlab : (Grid.addressesList 513 1).foldl (labelStep 10)
        (some (initGenGrid 513 1 initAlt513, 0, (0, 0)))
        = some (genAfter 513, 1, (0, 1)) := by
      rw [addressesRow, c3_label_fold 513 (by omega)]
      rfl
    rw [generateIslandInto_run 10 513 1 initAlt513 (Grid.new TileState 513 1)
      outF (genAfter 513) 1 (0, 1) hlab]
    rw [show (Grid.new TileState 513 1).width = 513 from rfl]
    rw [show (Grid.new TileState 513 1).height = 1 from rfl]
    rw [addressesRow]
    exact outFold 513 (by omega)
  · rw [outAfter_tileAt 513 0 (by omega)]
    decide
  · rw [outAfter_tileAt 513 512 (by omega)]
    decide
  · intro hreach
    rcases Relation.ReflTransGen.cases_head hreach with heq | ⟨b, ⟨hadj, hlive⟩, _⟩
    · exact absurd heq (by decide)
    · obtain ⟨b1, b2⟩ := b
      unfold adjacent at hadj
      simp only at hadj
      simp only at hlive
      rcases hadj with ⟨h1, h2⟩ | ⟨h1, h2⟩ | ⟨h1, h2⟩ | ⟨h1, h2⟩
      · subst h1
        subst h2
        exact absurd hlive.2.2 (by decide)
      · omega
      · have := hlive.2.1
        omega
      · omega

end GridMap


